import Mathlib

/-!
# whatelsetodo: annotation extraction pipeline

A shallow embedding of `main.go`.  Go strings are modelled as lists of
characters (`Str`); the standard-library string functions the program calls
(`strings.Index`, `strings.Replace`, `strings.Split`, `strings.Count`,
`strings.TrimSpace`) and the regular expression `label + "(.*)"` are modelled
by executable functions on `Str`.  A run-time panic (index out of range) is
modelled by `none`.
-/

namespace WhatElseToDo

/-- Go `string`, as its sequence of characters. -/
abbrev Str := List Char

/-- The line break character. -/
def nl : Char := Char.ofNat 10

/-- Data of `type Config struct`. -/
structure Config where
  Labels : List Str
  FileExtensions : List Str
  SingleLineDelim : Str
  MultiLineDelimStart : Str
  MultiLineDelimEnd : Str
deriving DecidableEq, Repr

/-- Data of `type Result struct`. -/
structure Result where
  label : Str
  body : Str
  filename : Str
  lineNumber : Int
deriving DecidableEq, Repr

/-! ## Standard-library string functions -/

/-- Cut `s` around the first instance of `sep` (Go `strings.Cut`, that is
`strings.Index` followed by slicing): the text before and the text after
it, or `none` when `sep` does not occur in `s`. -/
def Cut (sep : Str) : Str → Option (Str × Str)
  | [] => if sep = [] then some ([], []) else none
  | c :: s =>
    if sep.isPrefixOf (c :: s) then some ([], (c :: s).drop sep.length)
    else match Cut sep s with
      | none => none
      | some (a, b) => some (c :: a, b)

/-- The test `strings.Index(s, substr) >= 0`. -/
def Contains (s substr : Str) : Bool := (Cut substr s).isSome

/-- Loop of `strings.Count` for a non-empty `substr`: the number of
non-overlapping instances, found from left to right. -/
def countLoop (substr : Str) : Nat → Str → Nat
  | 0, _ => 0
  | fuel + 1, s =>
    match Cut substr s with
    | none => 0
    | some (_, b) => countLoop substr fuel b + 1

/-- Go `strings.Count(s, substr)`; for an empty `substr` it is the number
of characters plus one. -/
def Count (s substr : Str) : Nat :=
  if substr = [] then s.length + 1 else countLoop substr s.length s

/-- Loop of `strings.Split` for a non-empty `sep`. -/
def splitLoop (sep : Str) : Nat → Str → List Str
  | 0, s => [s]
  | fuel + 1, s =>
    match Cut sep s with
    | none => [s]
    | some (a, b) => a :: splitLoop sep fuel b

/-- Go `strings.Split(s, sep)`; an empty `sep` explodes `s` into its
characters. -/
def Split (s sep : Str) : List Str :=
  if sep = [] then s.map (fun c => [c]) else splitLoop sep s.length s

/-- Loop of `strings.Replace` for a non-empty `old`; `n = none` means no
limit on the number of replacements. -/
def replaceLoop (old new : Str) : Nat → Option Nat → Str → Str
  | 0, _, s => s
  | fuel + 1, n, s =>
    if n = some 0 then s
    else match Cut old s with
      | none => s
      | some (a, b) => a ++ new ++ replaceLoop old new fuel (n.map Nat.pred) b

/-- Insertion of `new` before every character and at the end, at most `n`
times: what `strings.Replace` does for an empty `old`. -/
def insertLoop (new : Str) : Option Nat → Str → Str
  | n, [] => if n = some 0 then [] else new
  | n, c :: s => if n = some 0 then c :: s else new ++ c :: insertLoop new (n.map Nat.pred) s

/-- Go `strings.Replace(s, old, new, n)`; a negative `n` means no limit. -/
def Replace (s old new : Str) (n : Int) : Str :=
  if old = new ∨ n = 0 then s
  else
    let limit : Option Nat := if n < 0 then none else some n.toNat
    if old = [] then insertLoop new limit s
    else replaceLoop old new s.length limit s

/-- Go `unicode.IsSpace`. -/
def IsSpace (c : Char) : Bool :=
  let r := c.toNat
  r = 0x09 || r = 0x0A || r = 0x0B || r = 0x0C || r = 0x0D || r = 0x20 ||
  r = 0x85 || r = 0xA0 || r = 0x1680 || (0x2000 ≤ r && r ≤ 0x200A) ||
  r = 0x2028 || r = 0x2029 || r = 0x202F || r = 0x205F || r = 0x3000

/-- Go `strings.TrimSpace`. -/
def TrimSpace (s : Str) : Str :=
  ((s.dropWhile IsSpace).reverse.dropWhile IsSpace).reverse

/-! ## The regular expression `label + "(.*)"` -/

/-- Loop of `FindAllString`: the leftmost instance of the label at or after
the current position, extended to the end of its line; the search goes on
from the end of the match. -/
def findAllLoop (label : Str) : Nat → Str → List Str
  | 0, _ => []
  | fuel + 1, s =>
    match Cut label s with
    | none => []
    | some (_, b) =>
      (label ++ b.takeWhile (fun c => c != nl)) ::
        findAllLoop label fuel (b.dropWhile (fun c => c != nl))

/-- The matches `regexp.MustCompile(label + "(.*)").FindAllString(s, -1)` for
a label that is a non-empty literal (no regular-expression metacharacter):
the label must occur verbatim, and `(.*)` takes the rest of the line, a line
break excluded. -/
def FindAllString (label s : Str) : List Str := findAllLoop label s.length s

/-! ## `parseStringForResults` -/

/-- Body of the inner loop of `parseStringForResults`: the result built for
one match; `none` is the index-out-of-range panic of `lines[1]`. -/
def matchResult (possibleResults filePath : Str) (endingLineNumber : Int)
    (config : Config) (label regexpResult : Str) : Option Result :=
  let regexpResult := Replace regexpResult config.MultiLineDelimEnd [] (-1)
  let lines := Split possibleResults regexpResult
  let offset : Option Nat :=
    if lines.length > 0 then (lines.get? 1).map (fun l => Count l [nl]) else some 0
  match offset with
  | none => none
  | some offset =>
    some { label := label
           body := TrimSpace (Replace regexpResult label [] 1)
           filename := filePath
           lineNumber := endingLineNumber - offset }

/-- Inner loop of `parseStringForResults`, over the matches of one label. -/
def matchLoop (possibleResults filePath : Str) (endingLineNumber : Int)
    (config : Config) (label : Str) : List Str → List Result → Option (List Result)
  | [], results => some results
  | regexpResult :: rest, results =>
    match matchResult possibleResults filePath endingLineNumber config label regexpResult with
    | none => none
    | some r => matchLoop possibleResults filePath endingLineNumber config label rest (results ++ [r])

/-- Outer loop of `parseStringForResults`, over the configured labels. -/
def labelLoop (possibleResults filePath : Str) (endingLineNumber : Int)
    (config : Config) : List Str → List Result → Option (List Result)
  | [], results => some results
  | label :: rest, results =>
    match matchLoop possibleResults filePath endingLineNumber config label
        (FindAllString label possibleResults) results with
    | none => none
    | some results => labelLoop possibleResults filePath endingLineNumber config rest results

/-- Go `parseStringForResults`. -/
def parseStringForResults (possibleResults filePath : Str) (endingLineNumber : Int)
    (config : Config) : Option (List Result) :=
  labelLoop possibleResults filePath endingLineNumber config config.Labels []

/-! ## `parseFileForResults` -/

/-- The local variables of `parseFileForResults`. -/
structure ScanState where
  lineNumber : Int
  collecting : Bool
  collectString : Str
  results : List Result
deriving DecidableEq, Repr

/-- One iteration of the `for scanner.Scan()` loop on the line `line`. -/
def scanStep (filePath : Str) (config : Config) (st : ScanState) (line : Str) :
    Option ScanState :=
  if !st.collecting && Contains line config.SingleLineDelim then
    match parseStringForResults line filePath st.lineNumber config with
    | none => none
    | some rs => some { st with results := st.results ++ rs, lineNumber := st.lineNumber + 1 }
  else if Contains line config.MultiLineDelimStart then
    some { st with collecting := true
                   collectString := st.collectString ++ [nl] ++ line
                   lineNumber := st.lineNumber + 1 }
  else if st.collecting && Contains line config.MultiLineDelimEnd then
    let collectString := st.collectString ++ [nl] ++ line
    match parseStringForResults collectString filePath st.lineNumber config with
    | none => none
    | some rs => some { results := st.results ++ rs, collectString := [], collecting := false
                        lineNumber := st.lineNumber + 1 }
  else if st.collecting then
    some { st with collectString := st.collectString ++ [nl] ++ line
                   lineNumber := st.lineNumber + 1 }
  else
    some { st with lineNumber := st.lineNumber + 1 }

/-- The `for scanner.Scan()` loop over the lines of the file. -/
def scanLoop (filePath : Str) (config : Config) : ScanState → List Str → Option ScanState
  | st, [] => some st
  | st, line :: rest =>
    match scanStep filePath config st line with
    | none => none
    | some st => scanLoop filePath config st rest

/-- The state before the first line is read. -/
def initialState : ScanState :=
  { lineNumber := 1, collecting := false, collectString := [], results := [] }

/-- Go `parseFileForResults`, on the lines `bufio.Scanner` reads from the
file. -/
def parseFileForResults (filePath : Str) (config : Config) (lines : List Str) :
    Option (List Result) :=
  (scanLoop filePath config initialState lines).map (fun st => st.results)

/-- The state a closing line leaves: the accumulator with the line appended
is extracted as one block ending on the current line, the accumulator is
cleared and the scanner is idle again. -/
def closeBlock (filePath : Str) (config : Config) (st : ScanState) (line : Str) :
    Option ScanState :=
  (parseStringForResults (st.collectString ++ [nl] ++ line) filePath st.lineNumber config).map
    (fun rs => { lineNumber := st.lineNumber + 1, collecting := false, collectString := []
                 results := st.results ++ rs })

/-- The state after a line that is only appended to the accumulator. -/
def appendLine (st : ScanState) (line : Str) : ScanState :=
  { lineNumber := st.lineNumber + 1, collecting := true
    collectString := st.collectString ++ [nl] ++ line, results := st.results }

/-- The state after a single-line extraction: the line alone is the block,
ending on the current line; nothing else changes. -/
def extractLine (filePath : Str) (config : Config) (st : ScanState) (line : Str) :
    Option ScanState :=
  (parseStringForResults line filePath st.lineNumber config).map
    (fun rs => { lineNumber := st.lineNumber + 1, collecting := st.collecting
                 collectString := st.collectString, results := st.results ++ rs })

/-- The concatenation, in line order, of the results extracted from the
lines that contain the single-line delimiter, each line being its own block;
`n` is the number of the first line. -/
def singleLineResults (filePath : Str) (config : Config) : Int → List Str → Option (List Result)
  | _, [] => some []
  | n, line :: rest =>
    if Contains line config.SingleLineDelim then
      (parseStringForResults line filePath n config).bind (fun rs =>
        (singleLineResults filePath config (n + 1) rest).map (fun rs2 => rs ++ rs2))
    else singleLineResults filePath config (n + 1) rest

/-- The characters with a special meaning in a Go regular expression. -/
def regexpMeta : Str := [(92 : Nat), 46, 43, 42, 63, 40, 41, 124, 91, 93, 123, 125, 94, 36].map Char.ofNat

/-- A label that is a non-empty literal: it contains no regular-expression
metacharacter, so that `label + "(.*)"` matches the label verbatim. -/
def IsLiteral (label : Str) : Prop := label ≠ [] ∧ ∀ c ∈ label, c ∉ regexpMeta

instance (label : Str) : Decidable (IsLiteral label) := by
  unfold IsLiteral
  exact inferInstance

/-- The match of `label` on one line: the text from the first instance of
the label to the end of the line; `none` when the line does not contain the
label. -/
def lineMatch (label line : Str) : Option Str :=
  (Cut label line).map (fun p => label ++ p.2)

/-- The accumulator after the lines `ls` were appended to the empty
accumulator: every line preceded by a line break. -/
def accumulated (ls : List Str) : Str := (ls.map (fun l => nl :: l)).flatten

/-- Invariant of the scanner after the lines `pre`: the line counter is the
number of the next line; the accumulator holds the lines `s`, ..., up to the
last one read (none when the scanner is idle); the line numbers of the
results lie in the part of the file read so far. -/
def ScanInv (pre : List Str) (st : ScanState) (s : Nat) : Prop :=
  st.lineNumber = (pre.length : Int) + 1 ∧ 1 ≤ s ∧ s ≤ pre.length + 1 ∧
  (st.collecting = false → s = pre.length + 1) ∧
  st.collectString = accumulated (pre.drop (s - 1)) ∧
  ∀ r ∈ st.results, 1 ≤ r.lineNumber ∧ r.lineNumber ≤ (pre.length : Int)

/-- The configuration `config` with the labels `labels`. -/
def withLabels (config : Config) (labels : List Str) : Config :=
  { config with Labels := labels }

/-- The sample configuration: `//`, `/*`, `*/` and the label `TODO`. -/
def sampleConfig : Config :=
  { Labels := ["TODO".toList]
    FileExtensions := []
    SingleLineDelim := "//".toList
    MultiLineDelimStart := "/*".toList
    MultiLineDelimEnd := "*/".toList }

/-! ## `getResults`: the file filter -/

/-- The dot of a file name. -/
def dot : Char := Char.ofNat 46

/-- The keys of the map `extensions` built by `getResults`: every configured
extension with its dots removed. -/
def extensionKeys (config : Config) : List Str :=
  config.FileExtensions.map (fun extension => Replace extension [dot] [] (-1))

/-- The closure that `getResults` builds and passes as the argument that
decides which files are scanned.  `strings.Split` returns at least one
piece, so the index `len(filenamePieces)-1` is in range. -/
def includeFile (config : Config) (filename : Str) : Bool :=
  if config.FileExtensions.length = 0 then true
  else
    let filenamePieces := Split filename [dot]
    let extension := filenamePieces.getLastD []
    decide (extension ∈ extensionKeys config)

/-- The substring after the last dot of a file name, in the words of the
specification; the whole name when it has no dot. -/
def afterLastDot (filename : Str) : Str :=
  (filename.reverse.takeWhile (fun c => c != dot)).reverse

/-- A configured extension without a leading dot, in the words of the
specification. -/
def withoutLeadingDot (extension : Str) : Str :=
  match extension with
  | [] => []
  | c :: rest => if c = dot then rest else c :: rest

/-- A configured extension with all its dots removed. -/
def withoutDots (extension : Str) : Str := extension.filter (fun c => c != dot)

/-! ## `ResultSlice`: the order of the report -/

/-- Go `len(s)`: the number of bytes of the string. -/
def len (s : Str) : Nat := (s.map Char.utf8Size).sum

/-- Go `strings.Compare(a, b)`: the lexicographic comparison, -1, 0 or 1.
For UTF-8 text the order of the bytes is the order of the characters. -/
def Compare : Str → Str → Int
  | [], [] => 0
  | [], _ :: _ => -1
  | _ :: _, [] => 1
  | a :: as, b :: bs => if a < b then -1 else if b < a then 1 else Compare as bs

/-- Go `ResultSlice.Less`, on the elements `a[i]` and `a[j]`. -/
def Less (ai aj : Result) : Bool :=
  let filenameLengthCompare : Int := (len ai.filename : Int) - (len aj.filename : Int)
  if filenameLengthCompare < 0 then true
  else if filenameLengthCompare > 0 then false
  else
    let filenameCompare := Compare ai.filename aj.filename
    if filenameCompare < 0 then true
    else if filenameCompare > 0 then false
    else
      let labelCompare := Compare ai.label aj.label
      if labelCompare < 0 then true
      else if labelCompare > 0 then false
      else decide (ai.lineNumber < aj.lineNumber)

/-- The sort key of the specification: length of the file name, file name,
label, line number. -/
def sortKey (r : Result) : Nat × Str × Str × Int :=
  (len r.filename, r.filename, r.label, r.lineNumber)

/-- The strict lexicographic order of sort keys; strings are compared
lexicographically. -/
def keyLt (k1 k2 : Nat × Str × Str × Int) : Prop :=
  k1.1 < k2.1 ∨ (k1.1 = k2.1 ∧
    (List.Lex (fun a b : Char => a < b) k1.2.1 k2.2.1 ∨ (k1.2.1 = k2.2.1 ∧
      (List.Lex (fun a b : Char => a < b) k1.2.2.1 k2.2.2.1 ∨ (k1.2.2.1 = k2.2.2.1 ∧
        k1.2.2.2 < k2.2.2.2)))))

/-- The part of a result the order looks at: file name, label and line
number. -/
def reportKey (r : Result) : Str × Str × Int := (r.filename, r.label, r.lineNumber)

/-- Go `sort.IsSorted`: no element is less than its predecessor. -/
def IsSorted (s : List Result) : Prop := s.Chain' (fun x y => Less y x = false)

/-- The contract of `sort.Sort(ResultSlice(results))`: the slice is
rearranged in place into a sorted order; equal elements may come in any
order. -/
def SortedBy (input output : List Result) : Prop := output.Perm input ∧ IsSorted output


/-- The sort key that belongs to file name, label and line number. -/
def fullKey (k : Str × Str × Int) : Nat × Str × Str × Int := (len k.1, k.1, k.2.1, k.2.2)

/-- The key `k1` may stand before the key `k2` in a sorted list: `k2` is not
smaller than `k1`. -/
def keyNotAfter (k1 k2 : Str × Str × Int) : Prop := ¬ keyLt (fullKey k2) (fullKey k1)


/-! ## `crawlAndCollect`: the directory walk -/

mutual
/-- An entry of a directory: a file with the lines it holds, or a
subdirectory with its own entries. -/
inductive Entry where
  | file (name : Str) (lines : List Str) : Entry
  | dir (name : Str) (entries : Entries) : Entry
/-- The entries of a directory, in the order `ioutil.ReadDir` lists them. -/
inductive Entries where
  | nil : Entries
  | cons (entry : Entry) (rest : Entries) : Entries
end

/-- The path `strings.Join([]string{directory, filename}, "/")`. -/
def joinPath (directory filename : Str) : Str := directory ++ [Char.ofNat 47] ++ filename

/-- First loop of `crawlAndCollect`: every file of the directory whose name
satisfies `incl` is scanned, under its joined path; subdirectories are only
put aside. -/
def crawlFiles (directory : Str) (incl : Str → Bool) (config : Config) :
    Entries → Option (List Result)
  | Entries.nil => some []
  | Entries.cons (Entry.file name lines) rest =>
    if incl name then
      match parseFileForResults (joinPath directory name) config lines with
      | none => none
      | some rs => (crawlFiles directory incl config rest).map (fun rs2 => rs ++ rs2)
    else crawlFiles directory incl config rest
  | Entries.cons (Entry.dir _ _) rest => crawlFiles directory incl config rest

mutual
/-- One iteration of the second loop of `crawlAndCollect`: the recursive call
on a subdirectory put aside by the first loop, that is the first loop and
the second loop on its entries. -/
def crawlDir (directory : Str) (incl : Str → Bool) (config : Config) :
    Entry → Option (List Result)
  | Entry.file _ _ => some []
  | Entry.dir name entries =>
    match crawlFiles (joinPath directory name) incl config entries with
    | none => none
    | some rs =>
      (crawlDirs (joinPath directory name) incl config entries).map (fun rs2 => rs ++ rs2)
/-- Second loop of `crawlAndCollect`, over the subdirectories in the order
of the listing. -/
def crawlDirs (directory : Str) (incl : Str → Bool) (config : Config) :
    Entries → Option (List Result)
  | Entries.nil => some []
  | Entries.cons entry rest =>
    match crawlDir directory incl config entry with
    | none => none
    | some rs => (crawlDirs directory incl config rest).map (fun rs2 => rs ++ rs2)
end

/-- Go `crawlAndCollect`, on a directory with the entries `entries`. -/
def crawlAndCollect (directory : Str) (incl : Str → Bool) (config : Config)
    (entries : Entries) : Option (List Result) :=
  match crawlFiles directory incl config entries with
  | none => none
  | some rs => (crawlDirs directory incl config entries).map (fun rs2 => rs ++ rs2)

/-- Go `getResults`. -/
def getResults (directory : Str) (config : Config) (entries : Entries) :
    Option (List Result) :=
  crawlAndCollect directory (includeFile config) config entries

/-- A file of the tree: its path, its entry name and its lines. -/
structure TreeFile where
  path : Str
  name : Str
  lines : List Str
deriving DecidableEq, Repr

mutual
/-- The files below an entry of the directory with the path `directory`, at
any depth, each with the path the walk gives it. -/
def entryFilesAt (directory : Str) : Entry → List TreeFile
  | Entry.file name lines => [{ path := joinPath directory name, name := name, lines := lines }]
  | Entry.dir name entries => entriesFilesAt (joinPath directory name) entries
/-- The files below the entries of the directory with the path `directory`,
at any depth. -/
def entriesFilesAt (directory : Str) : Entries → List TreeFile
  | Entries.nil => []
  | Entries.cons entry rest => entryFilesAt directory entry ++ entriesFilesAt directory rest
end

/-- The path of an entry of the tree below `root`: the root path and the
entry names on the way down, joined by `/`, nothing else changed. -/
def treePath (root : Str) (names : List Str) : Str :=
  List.intercalate [Char.ofNat 47] (root :: names)

mutual
/-- The files below an entry, at any depth; `above` are the names of the
directories on the way down from the root to the entry. -/
def entryFiles (root : Str) (above : List Str) : Entry → List TreeFile
  | Entry.file name lines =>
    [{ path := treePath root (above ++ [name]), name := name, lines := lines }]
  | Entry.dir name entries => entriesFiles root (above ++ [name]) entries
/-- The files of a directory tree, at any depth, each with its path. -/
def entriesFiles (root : Str) (above : List Str) : Entries → List TreeFile
  | Entries.nil => []
  | Entries.cons entry rest => entryFiles root above entry ++ entriesFiles root above rest
end

/-- The results of scanning the files `files` one after the other. -/
def scanAll (config : Config) : List TreeFile → Option (List Result)
  | [] => some []
  | f :: rest =>
    match parseFileForResults f.path config f.lines with
    | none => none
    | some rs => (scanAll config rest).map (fun rs2 => rs ++ rs2)

/-- The files scanned by the first loop of `crawlAndCollect`, in order. -/
def listedFiles (directory : Str) (incl : Str → Bool) : Entries → List TreeFile
  | Entries.nil => []
  | Entries.cons (Entry.file name lines) rest =>
    if incl name then
      { path := joinPath directory name, name := name, lines := lines } ::
        listedFiles directory incl rest
    else listedFiles directory incl rest
  | Entries.cons (Entry.dir _ _) rest => listedFiles directory incl rest

mutual
/-- The files scanned by one iteration of the second loop, in order. -/
def subdirFiles (directory : Str) (incl : Str → Bool) : Entry → List TreeFile
  | Entry.file _ _ => []
  | Entry.dir name entries =>
    listedFiles (joinPath directory name) incl entries ++
      subdirsFiles (joinPath directory name) incl entries
/-- The files scanned by the second loop of `crawlAndCollect`, in order. -/
def subdirsFiles (directory : Str) (incl : Str → Bool) : Entries → List TreeFile
  | Entries.nil => []
  | Entries.cons entry rest =>
    subdirFiles directory incl entry ++ subdirsFiles directory incl rest
end

/-- The sample tree: `a.go`, the directory `sub.d` with `b.go` and `c.txt`,
and `d.go`. -/
def sampleTree : Entries :=
  Entries.cons (Entry.file "a.go".toList ["// TODO a".toList])
    (Entries.cons (Entry.dir "sub.d".toList
        (Entries.cons (Entry.file "b.go".toList ["// TODO b".toList])
          (Entries.cons (Entry.file "c.txt".toList ["// TODO c".toList]) Entries.nil)))
      (Entries.cons (Entry.file "d.go".toList ["// TODO d".toList]) Entries.nil))


/-! ## `prettyPrint`: the report -/

/-- The text `fmt` prints for an integer under `%d`. -/
def decimal (n : Int) : Str := (toString n).toList

/-- The loop of `prettyPrint` over the results, from the state
`currentFile`, `currentLabel`: the printed lines in order, each without the
line break that ends it. -/
def printLoop : Str → Str → List Result → List Str
  | _, _, [] => []
  | currentFile, currentLabel, result :: rest =>
    let fileChanged : Bool := currentFile != result.filename
    let currentFile1 := if fileChanged then result.filename else currentFile
    let currentLabel1 := if fileChanged then [] else currentLabel
    let fileLines := if fileChanged then [currentFile1] else []
    let labelChanged : Bool := currentLabel1 != result.label
    let currentLabel2 := if labelChanged then result.label else currentLabel1
    let labelLines := if labelChanged then [Char.ofNat 9 :: currentLabel2] else []
    fileLines ++ labelLines ++
      ([Char.ofNat 9, Char.ofNat 9] ++ decimal result.lineNumber ++ [':', ' '] ++ result.body) ::
        printLoop currentFile1 currentLabel2 rest

/-- Go `prettyPrint`, after `sort.Sort` left the results in the order
`sorted`: the printed lines. -/
def prettyPrint (sorted : List Result) : List Str := printLoop [] [] sorted

/-- A line of a report with its role: the header of a file, the header of
a label beneath a file, or a result beneath a label. -/
inductive Line where
  | file (filename : Str)
  | label (label : Str)
  | entry (lineNumber : Int) (body : Str)
deriving DecidableEq, Repr

/-- The printed text of a line of a report: the file name; the label after
one tab; line number, colon, blank and body after two tabs. -/
def Line.text : Line → Str
  | Line.file currentFile => currentFile
  | Line.label currentLabel => Char.ofNat 9 :: currentLabel
  | Line.entry lineNumber body =>
    [Char.ofNat 9, Char.ofNat 9] ++ (toString lineNumber).toList ++ [':', ' '] ++ body

/-- The lines of the report with their roles, as the loop of `prettyPrint`
writes them from the state `currentFile`, `currentLabel`. -/
def layoutLoop : Str → Str → List Result → List Line
  | _, _, [] => []
  | currentFile, currentLabel, result :: rest =>
    let fileChanged : Bool := currentFile != result.filename
    let currentFile1 := if fileChanged then result.filename else currentFile
    let currentLabel1 := if fileChanged then [] else currentLabel
    let fileLines := if fileChanged then [Line.file currentFile1] else []
    let labelChanged : Bool := currentLabel1 != result.label
    let currentLabel2 := if labelChanged then result.label else currentLabel1
    let labelLines := if labelChanged then [Line.label currentLabel2] else []
    fileLines ++ labelLines ++
      Line.entry result.lineNumber result.body :: layoutLoop currentFile1 currentLabel2 rest

/-- The file names that stand in the header lines of a report, in order. -/
def fileHeaders : List Line → List Str
  | [] => []
  | Line.file filename :: out => filename :: fileHeaders out
  | Line.label _ :: out => fileHeaders out
  | Line.entry _ _ :: out => fileHeaders out

/-- The label headers of a report, in order, each with the file header it
stands beneath; `current` is the last file header read, `none` before the
first one. -/
def labelHeaders : Option Str → List Line → List (Option Str × Str)
  | _, [] => []
  | _, Line.file filename :: out => labelHeaders (some filename) out
  | current, Line.label label :: out => (current, label) :: labelHeaders current out
  | current, Line.entry _ _ :: out => labelHeaders current out

/-- The result lines of a report, in order, each with the last file header
and the last label header before it; a file header ends the label header
before it. -/
def entriesUnder : Option Str → Option Str → List Line →
    List (Option Str × Option Str × Int × Str)
  | _, _, [] => []
  | _, _, Line.file filename :: out => entriesUnder (some filename) none out
  | file, _, Line.label label :: out => entriesUnder file (some label) out
  | file, label, Line.entry lineNumber body :: out =>
    (file, label, lineNumber, body) :: entriesUnder file label out

/-- The header read so far stands for the loop variable `current`: it is
that text, or nothing was read and the variable is still empty. -/
def Tracks (current : Str) (header : Option Str) : Prop :=
  header = some current ∨ (header = none ∧ current = [])

/-- Three results in two files. -/
def sampleResults : List Result :=
  [{ label := "FIXME".toList, body := "x".toList, filename := "a.go".toList, lineNumber := 3 },
   { label := "TODO".toList, body := "y".toList, filename := "a.go".toList, lineNumber := 1 },
   { label := "TODO".toList, body := "z".toList, filename := "bb.go".toList, lineNumber := 2 }]


/-! ## Facts about `Cut` -/

theorem Cut_nil (sep : Str) : Cut sep [] = if sep = [] then some ([], []) else none := rfl

theorem Cut_cons_pos {sep : Str} {c : Char} {s : Str} (h : sep <+: c :: s) :
    Cut sep (c :: s) = some ([], (c :: s).drop sep.length) := by
  have hp : sep.isPrefixOf (c :: s) = true := List.isPrefixOf_iff_prefix.mpr h
  rw [Cut, if_pos hp]

theorem Cut_cons_neg {sep : Str} {c : Char} {s : Str} (h : ¬ sep <+: c :: s) :
    Cut sep (c :: s) = (Cut sep s).map (fun p => (c :: p.1, p.2)) := by
  have hp : ¬ sep.isPrefixOf (c :: s) = true := fun hp => h (List.isPrefixOf_iff_prefix.mp hp)
  rw [Cut, if_neg hp]
  cases Cut sep s with
  | none => rfl
  | some p => rfl

theorem Cut_nil_sep (s : Str) : Cut [] s = some ([], s) := by
  cases s with
  | nil => rfl
  | cons c s => rw [Cut_cons_pos (List.nil_prefix)]; rfl

theorem Cut_eq_some_append {sep : Str} : ∀ {s a b : Str}, Cut sep s = some (a, b) →
    s = a ++ sep ++ b := by
  intro s
  induction s with
  | nil =>
    intro a b h
    rw [Cut_nil] at h
    by_cases hs : sep = []
    · rw [if_pos hs] at h
      cases h
      simp [hs]
    · rw [if_neg hs] at h
      cases h
  | cons c s ih =>
    intro a b h
    by_cases hp : sep <+: c :: s
    · rw [Cut_cons_pos hp] at h
      cases h
      obtain ⟨t, ht⟩ := hp
      rw [← ht]
      simp
    · rw [Cut_cons_neg hp] at h
      cases hc : Cut sep s with
      | none => rw [hc] at h; cases h
      | some p =>
        rw [hc] at h
        cases h
        have := ih (a := p.1) (b := p.2) hc
        simp [this]

theorem Cut_eq_none_iff {sep : Str} : ∀ {s : Str}, Cut sep s = none ↔ ¬ sep <:+: s := by
  intro s
  induction s with
  | nil =>
    rw [Cut_nil]
    by_cases hs : sep = []
    · simp [hs]
    · simp [hs]
  | cons c s ih =>
    by_cases hp : sep <+: c :: s
    · rw [Cut_cons_pos hp]
      simp [hp.isInfix]
    · rw [Cut_cons_neg hp, List.infix_cons_iff, Option.map_eq_none', ih]
      simp [hp]

theorem Contains_iff {s sub : Str} : Contains s sub = true ↔ sub <:+: s := by
  unfold Contains
  rw [Option.isSome_iff_ne_none, Ne, Cut_eq_none_iff, not_not]

theorem Contains_eq_false_iff {s sub : Str} : Contains s sub = false ↔ ¬ sub <:+: s := by
  rw [← Contains_iff]; simp

/-- When no instance of `sep` in `x ++ y` starts inside `x`, cutting `x ++ y`
is cutting `y`. -/
theorem Cut_skip {sep : Str} : ∀ (x y : Str),
    (∀ a t, a ++ sep ++ t = x ++ y → x.length ≤ a.length) →
    Cut sep (x ++ y) = (Cut sep y).map (fun p => (x ++ p.1, p.2)) := by
  intro x
  induction x with
  | nil =>
    intro y _
    cases h : Cut sep y with
    | none => simp [h]
    | some p => simp [h]
  | cons c x ih =>
    intro y h
    have hp : ¬ sep <+: c :: (x ++ y) := by
      intro hp
      obtain ⟨t, ht⟩ := hp
      have := h [] t (by simpa using ht)
      simp at this
    have ih' := ih y (by
      intro a t hat
      have := h (c :: a) t (by simp [← hat])
      simpa using this)
    rw [List.cons_append, Cut_cons_neg hp, ih']
    cases Cut sep y with
    | none => rfl
    | some p => rfl

theorem Cut_self_append {sep : Str} (hsep : sep ≠ []) (b : Str) :
    Cut sep (sep ++ b) = some ([], b) := by
  cases hs : sep with
  | nil => exact absurd hs hsep
  | cons c s =>
    have hp : (c :: s) <+: c :: (s ++ b) := List.prefix_append (c :: s) b
    rw [List.cons_append, Cut_cons_pos hp]
    simp

/-- Cutting at the first instance of `sep`. -/
theorem Cut_first {sep : Str} (hsep : sep ≠ []) (a b : Str)
    (h : ∀ a' t, a' ++ sep ++ t = a ++ (sep ++ b) → a.length ≤ a'.length) :
    Cut sep (a ++ sep ++ b) = some (a, b) := by
  rw [List.append_assoc, Cut_skip a (sep ++ b) h, Cut_self_append hsep]
  simp

/-- The instance found by `Cut` is the first one. -/
theorem Cut_eq_some_first {sep : Str} : ∀ {s a b : Str}, Cut sep s = some (a, b) →
    ∀ a' t, a' ++ sep ++ t = s → a.length ≤ a'.length := by
  intro s
  induction s with
  | nil =>
    intro a b h a' t _
    rw [Cut_nil] at h
    by_cases hs : sep = []
    · rw [if_pos hs] at h
      cases h
      simp
    · rw [if_neg hs] at h
      cases h
  | cons c s ih =>
    intro a b h a' t hat
    by_cases hp : sep <+: c :: s
    · rw [Cut_cons_pos hp] at h
      cases h
      simp
    · rw [Cut_cons_neg hp] at h
      cases hc : Cut sep s with
      | none => rw [hc] at h; cases h
      | some p =>
        rw [hc] at h
        cases h
        cases a' with
        | nil =>
          exfalso
          apply hp
          exact ⟨t, by simpa using hat⟩
        | cons d a' =>
          simp only [List.cons_append, List.cons.injEq] at hat
          have := ih (a := p.1) (b := p.2) hc a' t (by simpa using hat.2)
          simpa using this

theorem Cut_length_lt {sep s a b : Str} (hsep : sep ≠ []) (h : Cut sep s = some (a, b)) :
    b.length < s.length := by
  have hs := Cut_eq_some_append h
  have : 0 < sep.length := List.length_pos.mpr hsep
  rw [hs]
  simp only [List.length_append]
  omega

/-! ## Unfolding the fuelled loops -/

theorem splitLoop_fuel {sep : Str} (hsep : sep ≠ []) : ∀ (f g : Nat) (s : Str),
    s.length ≤ f → s.length ≤ g → splitLoop sep f s = splitLoop sep g s := by
  intro f
  induction f with
  | zero =>
    intro g s hf _
    have hs : s = [] := List.length_eq_zero.mp (Nat.le_zero.mp hf)
    subst hs
    cases g with
    | zero => rfl
    | succ g => simp [splitLoop, Cut_nil, hsep]
  | succ f ih =>
    intro g s hf hg
    cases g with
    | zero =>
      have hs : s = [] := List.length_eq_zero.mp (Nat.le_zero.mp hg)
      subst hs
      simp [splitLoop, Cut_nil, hsep]
    | succ g =>
      simp only [splitLoop]
      cases hc : Cut sep s with
      | none => rfl
      | some p =>
        have hlt := Cut_length_lt (a := p.1) (b := p.2) hsep hc
        simp only
        rw [ih g p.2 (by omega) (by omega)]

theorem Split_of_ne {sep : Str} (hsep : sep ≠ []) (s : Str) :
    Split s sep = splitLoop sep s.length s := by
  unfold Split
  rw [if_neg hsep]

theorem Split_eq {sep : Str} (hsep : sep ≠ []) (s : Str) :
    Split s sep = match Cut sep s with
      | none => [s]
      | some (a, b) => a :: Split b sep := by
  simp only [Split_of_ne hsep]
  cases hl : s.length with
  | zero =>
    have hs : s = [] := List.length_eq_zero.mp hl
    subst hs
    simp [splitLoop, Cut_nil, hsep]
  | succ n =>
    simp only [splitLoop]
    cases hc : Cut sep s with
    | none => rfl
    | some p =>
      have hlt := Cut_length_lt (a := p.1) (b := p.2) hsep hc
      simp only
      rw [splitLoop_fuel hsep n p.2.length p.2 (by omega) (le_refl _)]

theorem findAllLoop_fuel {label : Str} (hl : label ≠ []) : ∀ (f g : Nat) (s : Str),
    s.length ≤ f → s.length ≤ g → findAllLoop label f s = findAllLoop label g s := by
  intro f
  induction f with
  | zero =>
    intro g s hf _
    have hs : s = [] := List.length_eq_zero.mp (Nat.le_zero.mp hf)
    subst hs
    cases g with
    | zero => rfl
    | succ g => simp [findAllLoop, Cut_nil, hl]
  | succ f ih =>
    intro g s hf hg
    cases g with
    | zero =>
      have hs : s = [] := List.length_eq_zero.mp (Nat.le_zero.mp hg)
      subst hs
      simp [findAllLoop, Cut_nil, hl]
    | succ g =>
      simp only [findAllLoop]
      cases hc : Cut label s with
      | none => rfl
      | some p =>
        have hlt := Cut_length_lt (a := p.1) (b := p.2) hl hc
        have hd : (p.2.dropWhile (fun c => c != nl)).length ≤ p.2.length :=
          (List.dropWhile_sublist _).length_le
        simp only
        rw [ih g _ (by omega) (by omega)]

theorem FindAllString_eq {label : Str} (hl : label ≠ []) (s : Str) :
    FindAllString label s = match Cut label s with
      | none => []
      | some (_, b) =>
        (label ++ b.takeWhile (fun c => c != nl)) ::
          FindAllString label (b.dropWhile (fun c => c != nl)) := by
  unfold FindAllString
  cases hn : s.length with
  | zero =>
    have hs : s = [] := List.length_eq_zero.mp hn
    subst hs
    simp [findAllLoop, Cut_nil, hl]
  | succ n =>
    simp only [findAllLoop]
    cases hc : Cut label s with
    | none => rfl
    | some p =>
      have hlt := Cut_length_lt (a := p.1) (b := p.2) hl hc
      have hd : (p.2.dropWhile (fun c => c != nl)).length ≤ p.2.length :=
        (List.dropWhile_sublist _).length_le
      simp only
      rw [findAllLoop_fuel hl n _ _ (by omega) (le_refl _)]

theorem replaceLoop_none_fuel {old : Str} (hold : old ≠ []) : ∀ (f g : Nat) (s : Str),
    s.length ≤ f → s.length ≤ g →
    replaceLoop old [] f none s = replaceLoop old [] g none s := by
  intro f
  induction f with
  | zero =>
    intro g s hf _
    have hs : s = [] := List.length_eq_zero.mp (Nat.le_zero.mp hf)
    subst hs
    cases g with
    | zero => rfl
    | succ g => simp [replaceLoop, Cut_nil, hold]
  | succ f ih =>
    intro g s hf hg
    cases g with
    | zero =>
      have hs : s = [] := List.length_eq_zero.mp (Nat.le_zero.mp hg)
      subst hs
      simp [replaceLoop, Cut_nil, hold]
    | succ g =>
      simp only [replaceLoop]
      cases hc : Cut old s with
      | none => rfl
      | some p =>
        have hlt := Cut_length_lt (a := p.1) (b := p.2) hold hc
        simp only [Option.map_none', reduceCtorEq, if_false]
        rw [ih g p.2 (by omega) (by omega)]

theorem Replace_all_of_ne {old : Str} (hold : old ≠ []) (s : Str) :
    Replace s old [] (-1) = replaceLoop old [] s.length none s := by
  unfold Replace
  have h1 : ¬ (old = [] ∨ (-1 : Int) = 0) := by simp [hold]
  rw [if_neg h1]
  simp [hold]

/-- Removal of every instance of a non-empty `old`, as `strings.Replace(s, old, "", -1)`
does it. -/
theorem Replace_all_eq {old : Str} (hold : old ≠ []) (s : Str) :
    Replace s old [] (-1) = match Cut old s with
      | none => s
      | some (a, b) => a ++ Replace b old [] (-1) := by
  simp only [Replace_all_of_ne hold]
  cases hn : s.length with
  | zero =>
    have hs : s = [] := List.length_eq_zero.mp hn
    subst hs
    simp [replaceLoop, Cut_nil, hold]
  | succ n =>
    simp only [replaceLoop]
    cases hc : Cut old s with
    | none => rfl
    | some p =>
      have hlt := Cut_length_lt (a := p.1) (b := p.2) hold hc
      simp only [Option.map_none', reduceCtorEq, if_false, List.append_nil]
      rw [replaceLoop_none_fuel hold n p.2.length p.2 (by omega) (le_refl _)]

theorem replaceLoop_zero (old new : Str) (f : Nat) (s : Str) :
    replaceLoop old new f (some 0) s = s := by
  cases f with
  | zero => rfl
  | succ f => simp [replaceLoop]

/-- Removal of the first instance of a non-empty `old`, as
`strings.Replace(s, old, "", 1)` does it. -/
theorem Replace_one_eq {old : Str} (hold : old ≠ []) (s : Str) :
    Replace s old [] 1 = match Cut old s with
      | none => s
      | some (a, b) => a ++ b := by
  unfold Replace
  have h1 : ¬ (old = [] ∨ (1 : Int) = 0) := by simp [hold]
  rw [if_neg h1]
  simp only [if_neg hold]
  cases hn : s.length with
  | zero =>
    have hs : s = [] := List.length_eq_zero.mp hn
    subst hs
    simp [replaceLoop, Cut_nil, hold]
  | succ n =>
    simp only [replaceLoop]
    cases hc : Cut old s with
    | none => simp
    | some p =>
      simp [replaceLoop_zero]

theorem Replace_of_not_infix {old : Str} (s : Str) (n : Int) (h : ¬ old <:+: s) :
    Replace s old [] n = s := by
  have hold : old ≠ [] := by
    intro h0
    apply h
    rw [h0]
    exact List.nil_infix
  have hc : Cut old s = none := Cut_eq_none_iff.mpr h
  unfold Replace
  by_cases h1 : old = [] ∨ n = 0
  · rw [if_pos h1]
  · rw [if_neg h1]
    simp only [if_neg hold]
    cases hn : s.length with
    | zero => rfl
    | succ m =>
      simp only [replaceLoop, hc]
      simp

theorem Replace_nil_old (s : Str) (n : Int) : Replace s [] [] n = s := by
  simp [Replace]

theorem countLoop_nl : ∀ (f : Nat) (s : Str), s.length ≤ f →
    countLoop [nl] f s = s.count nl := by
  intro f
  induction f with
  | zero =>
    intro s hf
    have hs : s = [] := List.length_eq_zero.mp (Nat.le_zero.mp hf)
    subst hs
    rfl
  | succ f ih =>
    intro s hf
    simp only [countLoop]
    cases hc : Cut [nl] s with
    | none =>
      have := Cut_eq_none_iff.mp hc
      simp only
      symm
      rw [List.count_eq_zero]
      intro hmem
      apply this
      obtain ⟨u, v, huv⟩ := List.append_of_mem hmem
      exact ⟨u, v, by rw [huv]; simp⟩
    | some p =>
      have hlt := Cut_length_lt (a := p.1) (b := p.2) (by simp) hc
      have happ := Cut_eq_some_append hc
      have hfirst := Cut_eq_some_first hc
      have hnot : nl ∉ p.1 := by
        intro hmem
        obtain ⟨u, v, huv⟩ := List.append_of_mem hmem
        have := hfirst u (v ++ [nl] ++ p.2) (by rw [happ, huv]; simp)
        rw [huv] at this
        simp at this
      simp only
      rw [ih p.2 (by omega), happ]
      simp [List.count_eq_zero.mpr hnot]

/-- The number of line breaks, as `strings.Count(s, "\n")` gives it. -/
theorem Count_nl (s : Str) : Count s [nl] = s.count nl := by
  unfold Count
  rw [if_neg (by simp)]
  exact countLoop_nl _ _ (le_refl _)

/-! ## The loops of `parseStringForResults` -/

theorem matchLoop_acc (pr fp : Str) (e : Int) (cfg : Config) (label : Str) :
    ∀ (ms : List Str) (acc : List Result),
    matchLoop pr fp e cfg label ms acc =
      (matchLoop pr fp e cfg label ms []).map (fun rs => acc ++ rs) := by
  intro ms
  induction ms with
  | nil => intro acc; simp [matchLoop]
  | cons m ms ih =>
    intro acc
    simp only [matchLoop]
    cases matchResult pr fp e cfg label m with
    | none => rfl
    | some r =>
      simp only [List.nil_append]
      rw [ih (acc ++ [r]), ih [r]]
      cases matchLoop pr fp e cfg label ms [] with
      | none => rfl
      | some rs => simp

theorem matchLoop_cons (pr fp : Str) (e : Int) (cfg : Config) (label m : Str) (ms : List Str) :
    matchLoop pr fp e cfg label (m :: ms) [] =
      (matchResult pr fp e cfg label m).bind (fun r =>
        (matchLoop pr fp e cfg label ms []).map (fun rs => r :: rs)) := by
  simp only [matchLoop]
  cases matchResult pr fp e cfg label m with
  | none => rfl
  | some r =>
    simp only [List.nil_append, Option.some_bind]
    rw [matchLoop_acc]
    rfl

theorem labelLoop_acc (pr fp : Str) (e : Int) (cfg : Config) :
    ∀ (ls : List Str) (acc : List Result),
    labelLoop pr fp e cfg ls acc =
      (labelLoop pr fp e cfg ls []).map (fun rs => acc ++ rs) := by
  intro ls
  induction ls with
  | nil => intro acc; simp [labelLoop]
  | cons l ls ih =>
    intro acc
    simp only [labelLoop]
    rw [matchLoop_acc pr fp e cfg l _ acc]
    cases matchLoop pr fp e cfg l (FindAllString l pr) [] with
    | none => rfl
    | some rs =>
      simp only [Option.map_some']
      rw [ih (acc ++ rs), ih rs]
      cases labelLoop pr fp e cfg ls [] with
      | none => rfl
      | some rs2 => simp

theorem labelLoop_cons (pr fp : Str) (e : Int) (cfg : Config) (l : Str) (ls : List Str) :
    labelLoop pr fp e cfg (l :: ls) [] =
      (matchLoop pr fp e cfg l (FindAllString l pr) []).bind (fun rs =>
        (labelLoop pr fp e cfg ls []).map (fun rs2 => rs ++ rs2)) := by
  simp only [labelLoop]
  cases matchLoop pr fp e cfg l (FindAllString l pr) [] with
  | none => rfl
  | some rs =>
    simp only [Option.some_bind]
    rw [labelLoop_acc]

theorem labelLoop_append (pr fp : Str) (e : Int) (cfg : Config) :
    ∀ (l1 l2 : List Str),
    labelLoop pr fp e cfg (l1 ++ l2) [] =
      (labelLoop pr fp e cfg l1 []).bind (fun r1 =>
        (labelLoop pr fp e cfg l2 []).map (fun r2 => r1 ++ r2)) := by
  intro l1
  induction l1 with
  | nil =>
    intro l2
    simp only [List.nil_append, labelLoop, Option.some_bind]
    cases labelLoop pr fp e cfg l2 [] with
    | none => rfl
    | some r => simp
  | cons l l1 ih =>
    intro l2
    rw [List.cons_append, labelLoop_cons, labelLoop_cons, ih l2]
    cases matchLoop pr fp e cfg l (FindAllString l pr) [] with
    | none => rfl
    | some rs =>
      simp only [Option.some_bind]
      cases labelLoop pr fp e cfg l1 [] with
      | none => rfl
      | some r1 =>
        simp only [Option.some_bind, Option.map_some']
        cases labelLoop pr fp e cfg l2 [] with
        | none => rfl
        | some r2 => simp

/-- The configured labels are read by the outer loop only. -/
theorem matchResult_congr (pr fp : Str) (e : Int) (cfg cfg2 : Config)
    (h : cfg.MultiLineDelimEnd = cfg2.MultiLineDelimEnd) (label m : Str) :
    matchResult pr fp e cfg label m = matchResult pr fp e cfg2 label m := by
  unfold matchResult
  rw [h]

theorem matchLoop_congr (pr fp : Str) (e : Int) (cfg cfg2 : Config)
    (h : cfg.MultiLineDelimEnd = cfg2.MultiLineDelimEnd) (label : Str) :
    ∀ (ms : List Str) (acc : List Result),
    matchLoop pr fp e cfg label ms acc = matchLoop pr fp e cfg2 label ms acc := by
  intro ms
  induction ms with
  | nil => intro acc; rfl
  | cons m ms ih =>
    intro acc
    simp only [matchLoop]
    rw [matchResult_congr pr fp e cfg cfg2 h]
    cases matchResult pr fp e cfg2 label m with
    | none => rfl
    | some r => exact ih _

theorem labelLoop_congr (pr fp : Str) (e : Int) (cfg cfg2 : Config)
    (h : cfg.MultiLineDelimEnd = cfg2.MultiLineDelimEnd) :
    ∀ (ls : List Str) (acc : List Result),
    labelLoop pr fp e cfg ls acc = labelLoop pr fp e cfg2 ls acc := by
  intro ls
  induction ls with
  | nil => intro acc; rfl
  | cons l ls ih =>
    intro acc
    simp only [labelLoop]
    rw [matchLoop_congr pr fp e cfg cfg2 h]
    cases matchLoop pr fp e cfg2 l (FindAllString l pr) acc with
    | none => rfl
    | some r => exact ih _

theorem parseStringForResults_withLabels (pr fp : Str) (e : Int) (cfg : Config)
    (ls : List Str) :
    parseStringForResults pr fp e (withLabels cfg ls) = labelLoop pr fp e cfg ls [] := by
  unfold parseStringForResults
  exact labelLoop_congr pr fp e (withLabels cfg ls) cfg rfl ls []

/-- C7: extraction goes label by label, in the order of the configuration:
the results for the labels `l1 ++ l2` are the results for `l1` followed by
the results for `l2` (a panic for either list is a panic for both). -/
theorem parseStringForResults_labels_append (possibleResults filePath : Str)
    (endingLineNumber : Int) (config : Config) (l1 l2 : List Str) :
    parseStringForResults possibleResults filePath endingLineNumber (withLabels config (l1 ++ l2))
      = (parseStringForResults possibleResults filePath endingLineNumber
            (withLabels config l1)).bind (fun r1 =>
          (parseStringForResults possibleResults filePath endingLineNumber
            (withLabels config l2)).map (fun r2 => r1 ++ r2)) := by
  simp only [parseStringForResults_withLabels]
  exact labelLoop_append _ _ _ _ l1 l2

/-! ## The block scanner -/

theorem scanStep_idle_single (fp : Str) (cfg : Config) (st : ScanState) (line : Str)
    (hidle : st.collecting = false) (hs : Contains line cfg.SingleLineDelim = true) :
    scanStep fp cfg st line = extractLine fp cfg st line := by
  unfold scanStep extractLine
  simp only [hidle, hs, Bool.not_false, Bool.and_self, if_true]
  cases parseStringForResults line fp st.lineNumber cfg with
  | none => rfl
  | some rs => simp [hidle]

theorem scanStep_idle_start (fp : Str) (cfg : Config) (st : ScanState) (line : Str)
    (hidle : st.collecting = false) (hs : Contains line cfg.SingleLineDelim = false)
    (hm : Contains line cfg.MultiLineDelimStart = true) :
    scanStep fp cfg st line = some (appendLine st line) := by
  unfold scanStep appendLine
  simp [hidle, hs, hm]

theorem scanStep_idle_none (fp : Str) (cfg : Config) (st : ScanState) (line : Str)
    (hidle : st.collecting = false) (hs : Contains line cfg.SingleLineDelim = false)
    (hm : Contains line cfg.MultiLineDelimStart = false) :
    scanStep fp cfg st line = some { st with lineNumber := st.lineNumber + 1 } := by
  unfold scanStep
  simp [hidle, hs, hm]

theorem scanStep_collecting (fp : Str) (cfg : Config) (st : ScanState) (line : Str)
    (hcol : st.collecting = true) :
    scanStep fp cfg st line =
      if (!Contains line cfg.MultiLineDelimStart && Contains line cfg.MultiLineDelimEnd) = true
      then closeBlock fp cfg st line
      else some (appendLine st line) := by
  unfold scanStep closeBlock appendLine
  simp only [hcol, Bool.not_true, Bool.false_and, Bool.true_and]
  cases hm : Contains line cfg.MultiLineDelimStart with
  | true => simp
  | false =>
    cases he : Contains line cfg.MultiLineDelimEnd with
    | true =>
      simp only [Bool.false_eq_true, if_false, if_true, Bool.not_false, Bool.and_self]
      cases parseStringForResults (st.collectString ++ [nl] ++ line) fp st.lineNumber cfg with
      | none => rfl
      | some rs => rfl
    | false => simp

theorem scanLoop_single_only (fp : Str) (cfg : Config) : ∀ (lines : List Str) (st : ScanState),
    st.collecting = false →
    (∀ l ∈ lines, Contains l cfg.SingleLineDelim = true ∨
      Contains l cfg.MultiLineDelimStart = false) →
    scanLoop fp cfg st lines =
      (singleLineResults fp cfg st.lineNumber lines).map (fun rs =>
        { lineNumber := st.lineNumber + lines.length, collecting := false
          collectString := st.collectString, results := st.results ++ rs }) := by
  intro lines
  induction lines with
  | nil =>
    intro st hidle _
    cases st
    simp only at hidle
    simp [scanLoop, singleLineResults, hidle]
  | cons line rest ih =>
    intro st hidle h
    have hrest : ∀ l ∈ rest, Contains l cfg.SingleLineDelim = true ∨
        Contains l cfg.MultiLineDelimStart = false :=
      fun l hl => h l (List.mem_cons_of_mem _ hl)
    cases hs : Contains line cfg.SingleLineDelim with
    | true =>
      simp only [scanLoop, singleLineResults, hs, if_true]
      rw [scanStep_idle_single fp cfg st line hidle hs]
      unfold extractLine
      cases parseStringForResults line fp st.lineNumber cfg with
      | none => rfl
      | some rs =>
        simp only [Option.map_some', Option.some_bind]
        rw [ih ⟨st.lineNumber + 1, st.collecting, st.collectString, st.results ++ rs⟩
          hidle hrest]
        simp only
        cases singleLineResults fp cfg (st.lineNumber + 1) rest with
        | none => rfl
        | some rs2 =>
          simp only [Option.map_some', List.length_cons, Nat.cast_add, Nat.cast_one,
            List.append_assoc, Option.some.injEq, ScanState.mk.injEq, and_true, true_and]
          omega
    | false =>
      have hm : Contains line cfg.MultiLineDelimStart = false := by
        rcases h line (List.mem_cons_self _ _) with h1 | h1
        · rw [hs] at h1; cases h1
        · exact h1
      simp only [scanLoop, singleLineResults, hs, Bool.false_eq_true, if_false]
      rw [scanStep_idle_none fp cfg st line hidle hs hm]
      simp only
      rw [ih ⟨st.lineNumber + 1, st.collecting, st.collectString, st.results⟩
        hidle hrest]
      simp only
      cases singleLineResults fp cfg (st.lineNumber + 1) rest with
      | none => rfl
      | some rs2 =>
        simp only [Option.map_some', List.length_cons, Nat.cast_add, Nat.cast_one,
          Option.some.injEq, ScanState.mk.injEq, and_true, true_and]
        omega

theorem closing_step (fp : Str) (cfg : Config) (st : ScanState) (line : Str)
    (hcol : st.collecting = true) (hend : Contains line cfg.MultiLineDelimEnd = true)
    (hstart : Contains line cfg.MultiLineDelimStart = false) :
    scanStep fp cfg st line = closeBlock fp cfg st line := by
  rw [scanStep_collecting fp cfg st line hcol]
  simp [hend, hstart]

/-- C8 as stated fails: a line that contains both delimiters does not close
the block; with `//`, `/*`, `*/`, the line `*/ /*` read while collecting is
only appended to the accumulator. -/
theorem closing_line_with_start_counterexample :
    ¬ (∀ (filePath : Str) (config : Config) (st : ScanState) (line : Str),
        st.collecting = true → Contains line config.MultiLineDelimEnd = true →
        scanStep filePath config st line = closeBlock filePath config st line) := by
  intro h
  have h1 := h "f".toList sampleConfig
    { lineNumber := 2, collecting := true, collectString := nl :: "/*".toList, results := [] }
    "*/ /*".toList (by decide) (by decide)
  revert h1
  decide

/-- C8, amended: while the scanner is collecting, every line that contains
the multi-line end delimiter and not the multi-line start delimiter closes
the block: the line is appended to the accumulator, the accumulator is
extracted with the number of that line as ending line number, the
accumulator is cleared and the scanner becomes idle; whether the line
contains the single-line delimiter does not matter.  A line that contains
the multi-line start delimiter is only appended to the accumulator, and
the scanner goes on collecting, also when the line contains the end
delimiter. -/
theorem closing_line_closes_block (filePath : Str) (config : Config) (st : ScanState)
    (line : Str) (hcol : st.collecting = true) :
    (Contains line config.MultiLineDelimEnd = true →
      Contains line config.MultiLineDelimStart = false →
      scanStep filePath config st line =
        (parseStringForResults (st.collectString ++ [nl] ++ line) filePath st.lineNumber
            config).map (fun rs =>
          { lineNumber := st.lineNumber + 1, collecting := false, collectString := []
            results := st.results ++ rs })) ∧
    (Contains line config.MultiLineDelimStart = true →
      scanStep filePath config st line =
        some { lineNumber := st.lineNumber + 1, collecting := true
               collectString := st.collectString ++ [nl] ++ line
               results := st.results }) := by
  rw [scanStep_collecting filePath config st line hcol]
  constructor
  · intro hend hstart
    simp [hend, hstart, closeBlock]
  · intro hstart
    simp [hstart, appendLine]

theorem closing_line_closes_block_witness :
    scanStep "f".toList sampleConfig
        { lineNumber := 3, collecting := true
          collectString := nl :: "/* TODO first".toList ++ nl :: "   more text".toList
          results := [] } "// */".toList
      = some { lineNumber := 4, collecting := false, collectString := []
               results := [{ label := "TODO".toList, body := "first".toList
                             filename := "f".toList, lineNumber := 1 }] } ∧
    scanStep "f".toList sampleConfig
        { lineNumber := 3, collecting := true
          collectString := nl :: "/* TODO first".toList ++ nl :: "   more text".toList
          results := [] } "*/ /*".toList
      = some { lineNumber := 4, collecting := true
               collectString := nl :: "/* TODO first".toList ++ nl :: "   more text".toList ++
                 nl :: "*/ /*".toList
               results := [] } :=
  ⟨((closing_line_closes_block "f".toList sampleConfig _ "// */".toList rfl).1
      (by decide) (by decide)).trans (by decide),
   ((closing_line_closes_block "f".toList sampleConfig _ "*/ /*".toList rfl).2
      (by decide)).trans (by decide)⟩

/-- C9: an idle scanner extracts a line that contains the single-line
delimiter as a block of its own, ending on the current line, and stays idle
with the accumulator unchanged, whatever else the line contains; hence, for
a file in which every line contains the single-line delimiter or lacks the
multi-line start delimiter, the results are the concatenation in line order
of the results of the lines containing the single-line delimiter, line `i`
being extracted with ending line number `i`. -/
theorem idle_single_line_extraction (filePath : Str) (config : Config) :
    (∀ (st : ScanState) (line : Str), st.collecting = false →
      Contains line config.SingleLineDelim = true →
      scanStep filePath config st line =
        (parseStringForResults line filePath st.lineNumber config).map (fun rs =>
          { lineNumber := st.lineNumber + 1, collecting := false
            collectString := st.collectString, results := st.results ++ rs })) ∧
    (∀ (lines : List Str),
      (∀ l ∈ lines, Contains l config.SingleLineDelim = true ∨
        Contains l config.MultiLineDelimStart = false) →
      parseFileForResults filePath config lines =
        singleLineResults filePath config 1 lines) := by
  constructor
  · intro st line hidle hs
    rw [scanStep_idle_single filePath config st line hidle hs]
    unfold extractLine
    rw [hidle]
  · intro lines h
    unfold parseFileForResults
    rw [scanLoop_single_only filePath config lines initialState rfl h]
    have h1 : initialState.lineNumber = 1 := rfl
    rw [h1]
    cases singleLineResults filePath config 1 lines with
    | none => rfl
    | some rs => simp [initialState]

theorem idle_single_line_extraction_witness :
    scanStep "f".toList sampleConfig
        { lineNumber := 5, collecting := false, collectString := [], results := [] }
        "/* x */ // TODO both".toList
      = some { lineNumber := 6, collecting := false, collectString := []
               results := [{ label := "TODO".toList, body := "both".toList
                             filename := "f".toList, lineNumber := 5 }] } ∧
    parseFileForResults "f".toList sampleConfig
        ["// TODO one".toList, "plain".toList, "x // TODO two /*".toList]
      = some [{ label := "TODO".toList, body := "one".toList
                filename := "f".toList, lineNumber := 1 },
              { label := "TODO".toList, body := "two /*".toList
                filename := "f".toList, lineNumber := 3 }] :=
  ⟨((idle_single_line_extraction "f".toList sampleConfig).1 _ _ rfl (by decide)).trans
      (by decide),
   ((idle_single_line_extraction "f".toList sampleConfig).2 _ (by decide)).trans (by decide)⟩

/-- C10: while the scanner is collecting, a line containing the single-line
delimiter causes no single-line extraction: the line is appended to the
accumulator after a line break, and unless the line closes the block (it
contains the multi-line end delimiter and not the start delimiter) nothing
else happens; results are produced, and the scanner returns to idle, only
on a line that contains the multi-line end delimiter, and then by extracting
the whole accumulator. -/
theorem collecting_ignores_single_line_delim (filePath : Str) (config : Config)
    (st : ScanState) (line : Str) (hcol : st.collecting = true)
    (_hsingle : Contains line config.SingleLineDelim = true) :
    scanStep filePath config st line =
      (if (!Contains line config.MultiLineDelimStart &&
            Contains line config.MultiLineDelimEnd) = true
        then closeBlock filePath config st line
        else some (appendLine st line)) ∧
    (Contains line config.MultiLineDelimEnd = false →
      scanStep filePath config st line = some (appendLine st line)) ∧
    (∀ st2, scanStep filePath config st line = some st2 →
      st2.collecting = false ∨ st2.results ≠ st.results →
      Contains line config.MultiLineDelimEnd = true) := by
  have hstep := scanStep_collecting filePath config st line hcol
  refine ⟨hstep, ?_, ?_⟩
  · intro he
    rw [hstep, he]
    simp
  · intro st2 h2 hch
    rw [hstep] at h2
    cases he : Contains line config.MultiLineDelimEnd with
    | true => rfl
    | false =>
      rw [he] at h2
      simp only [Bool.and_false, Bool.false_eq_true, if_false, Option.some.injEq] at h2
      subst h2
      simp [appendLine] at hch

theorem collecting_ignores_single_line_delim_witness :
    scanStep "f".toList sampleConfig
        { lineNumber := 2, collecting := true, collectString := nl :: "/*".toList
          results := [] } "// TODO inside".toList
      = some { lineNumber := 3, collecting := true
               collectString := nl :: "/*".toList ++ nl :: "// TODO inside".toList
               results := [] } :=
  ((collecting_ignores_single_line_delim "f".toList sampleConfig _ "// TODO inside".toList rfl
    (by decide)).2.1 (by decide)).trans (by decide)

/-! ## Extraction from one block -/

theorem takeWhile_ne_nl {s : Str} (h : nl ∉ s) : s.takeWhile (fun c => c != nl) = s := by
  rw [List.takeWhile_eq_self_iff]
  intro c hc
  simp only [bne_iff_ne, ne_eq]
  intro hcn
  exact h (hcn ▸ hc)

theorem dropWhile_ne_nl {s : Str} (h : nl ∉ s) : s.dropWhile (fun c => c != nl) = [] := by
  rw [List.dropWhile_eq_nil_iff]
  intro c hc
  simp only [bne_iff_ne, ne_eq]
  intro hcn
  exact h (hcn ▸ hc)

theorem FindAllString_nil {label : Str} (hl : label ≠ []) : FindAllString label [] = [] := by
  rw [FindAllString_eq hl, Cut_nil, if_neg hl]

theorem Split_nil {sep : Str} (hsep : sep ≠ []) : Split [] sep = [[]] := by
  rw [Split_eq hsep, Cut_nil, if_neg hsep]

/-- An instance of `sep` that ends `a ++ sep` and is the only one in it is the
first instance in `a ++ sep ++ b`. -/
theorem first_of_not_infix_dropLast {sep a : Str} (h : ¬ sep <:+: a ++ sep.dropLast)
    (b a2 t : Str) (heq : a2 ++ sep ++ t = a ++ (sep ++ b)) : a.length ≤ a2.length := by
  by_contra hlt
  apply h
  have hsep : sep ≠ [] := by
    intro h0
    apply h
    rw [h0]
    exact List.nil_infix
  have hlen : 0 < sep.length := List.length_pos.mpr hsep
  have h1 : a2 ++ sep <+: a ++ (sep ++ b) := ⟨t, heq⟩
  have h2 : a ++ sep.dropLast <+: a ++ (sep ++ b) := by
    refine ⟨[sep.getLast hsep] ++ b, ?_⟩
    rw [List.append_assoc, ← List.append_assoc sep.dropLast, List.dropLast_append_getLast]
  have h3 : (a2 ++ sep).length ≤ (a ++ sep.dropLast).length := by
    simp only [List.length_append, List.length_dropLast]
    omega
  have h4 := List.prefix_of_prefix_length_le h1 h2 h3
  exact (List.suffix_append a2 sep).isInfix.trans h4.isInfix

/-- The result built for a match, from the pieces `strings.Split` gives. -/
theorem matchResult_of_split {pr fp : Str} {e : Int} {cfg : Config} {label m m2 l0 l1 : Str}
    {ls : List Str} (hrep : Replace m cfg.MultiLineDelimEnd [] (-1) = m2)
    (hsplit : Split pr m2 = l0 :: l1 :: ls) :
    matchResult pr fp e cfg label m =
      some { label := label, body := TrimSpace (Replace m2 label [] 1), filename := fp
             lineNumber := e - (l1.count nl : Nat) } := by
  unfold matchResult
  simp only [hrep, hsplit, List.length_cons, gt_iff_lt, Nat.zero_lt_succ, if_true,
    List.get?_cons_succ, List.get?_cons_zero, Option.map_some', Count_nl]

/-- The results of a configuration with one label whose only match is `m`. -/
theorem parseStringForResults_one {pr fp : Str} {e : Int} {cfg : Config} {label m : Str}
    {r : Result} (hfind : FindAllString label pr = [m])
    (hres : matchResult pr fp e cfg label m = some r) :
    parseStringForResults pr fp e (withLabels cfg [label]) = some [r] := by
  rw [parseStringForResults_withLabels]
  simp [labelLoop, hfind, matchLoop, hres]

theorem infix_of_append_infix_right {x a b : Str} (h : x <:+: b) : x <:+: a ++ b :=
  h.trans (List.suffix_append a b).isInfix

theorem infix_of_append_infix_left {x a b : Str} (h : x <:+: a) : x <:+: a ++ b :=
  h.trans (List.prefix_append a b).isInfix

/-- The block `pre ++ label ++ rest` on one line, the label first occurring
after `pre`, without end delimiter: one match, the rest of the line. -/
theorem one_line_result {pre label rest fp : Str} {e : Int} {cfg : Config}
    (hl : label ≠ []) (hfirst : ¬ label <:+: pre ++ label.dropLast)
    (hnl : nl ∉ rest) (hend : ¬ cfg.MultiLineDelimEnd <:+: label ++ rest) :
    parseStringForResults (pre ++ label ++ rest) fp e (withLabels cfg [label]) =
      some [{ label := label, body := TrimSpace rest, filename := fp, lineNumber := e }] := by
  have hmin := first_of_not_infix_dropLast hfirst
  have hfind : FindAllString label (pre ++ label ++ rest) = [label ++ rest] := by
    rw [FindAllString_eq hl, Cut_first hl pre rest (hmin rest)]
    simp only [takeWhile_ne_nl hnl, dropWhile_ne_nl hnl, FindAllString_nil hl]
  have hm : label ++ rest ≠ [] := by simp [hl]
  have hrep : Replace (label ++ rest) cfg.MultiLineDelimEnd [] (-1) = label ++ rest :=
    Replace_of_not_infix _ _ hend
  have hsplit : Split (pre ++ label ++ rest) (label ++ rest) = [pre, []] := by
    have hc : Cut (label ++ rest) (pre ++ (label ++ rest) ++ []) = some (pre, []) := by
      apply Cut_first hm
      intro a2 t heq
      apply hmin rest a2 (rest ++ t)
      simpa [List.append_assoc] using heq
    rw [Split_eq hm]
    have hb : pre ++ label ++ rest = pre ++ (label ++ rest) ++ [] := by simp
    rw [hb, hc]
    simp only [Split_nil hm]
  have hbody : Replace (label ++ rest) label [] 1 = rest := by
    rw [Replace_one_eq hl, Cut_self_append hl]
    rfl
  apply parseStringForResults_one hfind
  rw [matchResult_of_split hrep hsplit, hbody]
  simp

/-- C1, the failing input: in the block of the lines `/* TODO a`, `TODO a`,
`*/`, ending on line 3, the label occurs on lines 1 and 2 with the same
text; both results get line 2, the first one too, although two line breaks
follow its match. -/
theorem duplicate_annotation_line_numbers :
    parseStringForResults (nl :: "/* TODO a".toList ++ nl :: "TODO a".toList ++ nl :: "*/".toList)
        "f".toList 3 sampleConfig
      = some [{ label := "TODO".toList, body := "a".toList, filename := "f".toList
                lineNumber := 2 },
              { label := "TODO".toList, body := "a".toList, filename := "f".toList
                lineNumber := 2 }] ∧
    parseFileForResults "f".toList sampleConfig
        ["/* TODO a".toList, "TODO a".toList, "*/".toList]
      = some [{ label := "TODO".toList, body := "a".toList, filename := "f".toList
                lineNumber := 2 },
              { label := "TODO".toList, body := "a".toList, filename := "f".toList
                lineNumber := 2 }] := by
  constructor <;> decide

/-- C3 as stated fails twice.  With the label `XXX` after the prefix `// X`,
the prefix does not contain the label, but the leftmost match starts one
character earlier and the body is `X fix`, not `fix`.  And when the label
occurs in `pre ++ label` at the end only, the end delimiter can still lie
across label and rest although neither piece contains it: with the end
delimiter `O f`, the line `// TODO fix` gives no result at all. -/
theorem single_line_comment_counterexample :
    ¬ (∀ (pre label rest filePath : Str) (endingLineNumber : Int) (config : Config),
        IsLiteral label → ¬ label <:+: pre →
        (nl ∉ pre ∧ nl ∉ label ∧ nl ∉ rest) →
        (¬ config.MultiLineDelimEnd <:+: pre ∧ ¬ config.MultiLineDelimEnd <:+: label ∧
          ¬ config.MultiLineDelimEnd <:+: rest) →
        parseStringForResults (pre ++ label ++ rest) filePath endingLineNumber
            (withLabels config [label])
          = some [{ label := label, body := TrimSpace rest, filename := filePath
                    lineNumber := endingLineNumber }]) ∧
    ¬ (∀ (pre label rest filePath : Str) (endingLineNumber : Int) (config : Config),
        IsLiteral label → ¬ label <:+: pre ++ label.dropLast →
        (nl ∉ pre ∧ nl ∉ label ∧ nl ∉ rest) →
        (¬ config.MultiLineDelimEnd <:+: pre ∧ ¬ config.MultiLineDelimEnd <:+: label ∧
          ¬ config.MultiLineDelimEnd <:+: rest) →
        parseStringForResults (pre ++ label ++ rest) filePath endingLineNumber
            (withLabels config [label])
          = some [{ label := label, body := TrimSpace rest, filename := filePath
                    lineNumber := endingLineNumber }]) := by
  constructor
  · intro h
    have h1 := h "// X".toList "XXX".toList " fix".toList "f".toList 1 sampleConfig
      (by decide) (Contains_eq_false_iff.mp (by decide)) (by decide)
      ⟨Contains_eq_false_iff.mp (by decide), Contains_eq_false_iff.mp (by decide),
        Contains_eq_false_iff.mp (by decide)⟩
    revert h1
    decide
  · intro h
    have h1 := h "// ".toList "TODO".toList " fix".toList "f".toList 1
      { sampleConfig with MultiLineDelimEnd := "O f".toList }
      (by decide) (Contains_eq_false_iff.mp (by decide)) (by decide)
      ⟨Contains_eq_false_iff.mp (by decide), Contains_eq_false_iff.mp (by decide),
        Contains_eq_false_iff.mp (by decide)⟩
    revert h1
    decide

/-- C3, amended: for a one-line block `pre ++ label ++ rest` in which the
label is a non-empty literal that occurs in `pre ++ label` at the end only,
no piece contains a line break, and the text `label ++ rest` does not
contain the multi-line end delimiter (the prefix may contain it, or a part
of it), extraction with that single label returns exactly one result: that
label, the body `rest` with surrounding white space trimmed, and the ending
line number as line number. -/
theorem single_line_comment_result (pre label rest filePath : Str) (endingLineNumber : Int)
    (config : Config) (hlit : IsLiteral label)
    (hfirst : ¬ label <:+: pre ++ label.dropLast)
    (hnl : nl ∉ pre ∧ nl ∉ label ∧ nl ∉ rest)
    (hend : ¬ config.MultiLineDelimEnd <:+: label ++ rest) :
    parseStringForResults (pre ++ label ++ rest) filePath endingLineNumber
        (withLabels config [label])
      = some [{ label := label, body := TrimSpace rest, filename := filePath
                lineNumber := endingLineNumber }] :=
  one_line_result hlit.1 hfirst hnl.2.2 hend

theorem single_line_comment_result_witness :
    parseStringForResults ("// ".toList ++ "TODO".toList ++ " fix this".toList) "f".toList 7
        (withLabels sampleConfig ["TODO".toList])
      = some [{ label := "TODO".toList, body := "fix this".toList, filename := "f".toList
                lineNumber := 7 }] ∧
    parseStringForResults ("x *".toList ++ "/TODO".toList ++ " fix".toList) "f".toList 7
        (withLabels sampleConfig ["/TODO".toList])
      = some [{ label := "/TODO".toList, body := "fix".toList, filename := "f".toList
                lineNumber := 7 }] :=
  ⟨(single_line_comment_result "// ".toList "TODO".toList " fix this".toList "f".toList 7
      sampleConfig (by decide) (Contains_eq_false_iff.mp (by decide)) (by decide)
      (Contains_eq_false_iff.mp (by decide))).trans (by decide),
   (single_line_comment_result "x *".toList "/TODO".toList " fix".toList "f".toList 7
      sampleConfig (by decide) (Contains_eq_false_iff.mp (by decide)) (by decide)
      (Contains_eq_false_iff.mp (by decide))).trans (by decide)⟩

/-- C5, the failing input: the line `// TODO */**//` with the end delimiter
`*/`; one pass of removal turns the match `TODO */**//` into `TODO */`, and
the body of the result is `*/`. -/
theorem body_contains_end_delimiter :
    parseStringForResults "// TODO */**//".toList "f".toList 1 sampleConfig
      = some [{ label := "TODO".toList, body := "*/".toList, filename := "f".toList
                lineNumber := 1 }] ∧
    parseFileForResults "f".toList sampleConfig ["// TODO */**//".toList]
      = some [{ label := "TODO".toList, body := "*/".toList, filename := "f".toList
                lineNumber := 1 }] := by
  constructor <;> decide

/-! ## Matches and lines -/

theorem Cut_append_of_some {sep : Str} : ∀ {s a b : Str} (t : Str),
    Cut sep s = some (a, b) → Cut sep (s ++ t) = some (a, b ++ t) := by
  intro s
  induction s with
  | nil =>
    intro a b t h
    rw [Cut_nil] at h
    by_cases hs : sep = []
    · rw [if_pos hs] at h
      cases h
      rw [hs]
      exact Cut_nil_sep t
    · rw [if_neg hs] at h
      cases h
  | cons c s ih =>
    intro a b t h
    by_cases hp : sep <+: c :: s
    · rw [Cut_cons_pos hp] at h
      cases h
      have hp2 : sep <+: c :: (s ++ t) := hp.trans (List.prefix_append (c :: s) t)
      rw [List.cons_append, Cut_cons_pos hp2, ← List.cons_append,
        List.drop_append_of_le_length hp.length_le]
    · rw [Cut_cons_neg hp] at h
      cases hc : Cut sep s with
      | none => rw [hc] at h; cases h
      | some p =>
        rw [hc] at h
        cases h
        have hlen : sep.length ≤ (c :: s).length := by
          have h1 := Cut_eq_some_append (a := p.1) (b := p.2) hc
          rw [h1]
          simp only [List.length_cons, List.length_append]
          omega
        have hp2 : ¬ sep <+: c :: (s ++ t) := by
          intro hp2
          apply hp
          exact List.prefix_of_prefix_length_le hp2 (List.prefix_append (c :: s) t) hlen
        rw [List.cons_append, Cut_cons_neg hp2, ih (a := p.1) (b := p.2) t hc]
        rfl

theorem Cut_nl_some {s l rest : Str} (h : Cut [nl] s = some (l, rest)) :
    nl ∉ l ∧ s = l ++ nl :: rest := by
  have happ := Cut_eq_some_append h
  have hfirst := Cut_eq_some_first h
  refine ⟨?_, by simpa using happ⟩
  intro hmem
  obtain ⟨u, v, huv⟩ := List.append_of_mem hmem
  have := hfirst u (v ++ [nl] ++ rest) (by rw [happ, huv]; simp)
  rw [huv] at this
  simp at this

theorem Cut_nl_none {s : Str} (h : Cut [nl] s = none) : nl ∉ s := by
  intro hmem
  obtain ⟨u, v, huv⟩ := List.append_of_mem hmem
  exact Cut_eq_none_iff.mp h ⟨u, v, by rw [huv]; simp⟩

theorem Cut_nl_of_not_mem {l : Str} (rest : Str) (h : nl ∉ l) :
    Cut [nl] (l ++ nl :: rest) = some (l, rest) := by
  have := @Cut_first [nl] (by simp) l rest (by
    intro a t heq
    rw [List.append_assoc] at heq
    rcases List.append_eq_append_iff.mp heq with ⟨m, hm, hm2⟩ | ⟨m, hm, _⟩
    · cases m with
      | nil => simp [hm]
      | cons d m =>
        exfalso
        apply h
        simp only [List.cons_append, List.singleton_append, List.cons.injEq] at hm2
        rw [hm, hm2.1]
        simp
    · rw [hm]
      simp)
  simpa using this

/-- An instance of a text without line break, in `l ++ nl :: rest`, that
starts inside `l` lies inside `l`. -/
theorem infix_line_of_lt {sep l rest a t : Str} (hsep : nl ∉ sep)
    (heq : a ++ sep ++ t = l ++ nl :: rest) (hlt : a.length < l.length) :
    ∃ k, l = a ++ sep ++ k := by
  rw [List.append_assoc] at heq
  rcases List.append_eq_append_iff.mp heq with ⟨m, hm, hm2⟩ | ⟨m, hm, _⟩
  · rcases List.append_eq_append_iff.mp hm2 with ⟨k, hk, _⟩ | ⟨k, hk, hk2⟩
    · exact ⟨k, by rw [hm, hk, List.append_assoc]⟩
    · cases k with
      | nil =>
        refine ⟨[], ?_⟩
        rw [hm, hk]
        simp
      | cons d k =>
        exfalso
        apply hsep
        simp only [List.cons_append, List.cons.injEq] at hk2
        rw [hk, hk2.1]
        simp
  · rw [hm] at hlt
    simp at hlt

theorem FindAllString_congr {label : Str} (hl : label ≠ []) {s1 s2 : Str}
    (h : (Cut label s1).map Prod.snd = (Cut label s2).map Prod.snd) :
    FindAllString label s1 = FindAllString label s2 := by
  rw [FindAllString_eq hl s1, FindAllString_eq hl s2]
  cases h1 : Cut label s1 with
  | none =>
    cases h2 : Cut label s2 with
    | none => rfl
    | some p2 => rw [h1, h2] at h; cases h
  | some p1 =>
    cases h2 : Cut label s2 with
    | none => rw [h1, h2] at h; cases h
    | some p2 =>
      rw [h1, h2] at h
      simp only [Option.map_some', Option.some.injEq] at h
      simp only [h]

theorem not_prefix_nl_cons {label : Str} (hl : label ≠ []) (hnl : nl ∉ label) (rest : Str) :
    ¬ label <+: nl :: rest := by
  intro hp
  cases label with
  | nil => exact hl rfl
  | cons c label =>
    obtain ⟨t, ht⟩ := hp
    simp only [List.cons_append, List.cons.injEq] at ht
    apply hnl
    rw [ht.1]
    simp

theorem FindAllString_nl_cons {label : Str} (hl : label ≠ []) (hnl : nl ∉ label) (rest : Str) :
    FindAllString label (nl :: rest) = FindAllString label rest := by
  apply FindAllString_congr hl
  rw [Cut_cons_neg (not_prefix_nl_cons hl hnl rest)]
  cases Cut label rest with
  | none => rfl
  | some p => rfl

/-- The matches on a block of one line. -/
theorem FindAllString_line {label : Str} (hl : label ≠ []) {l : Str} (h : nl ∉ l) :
    FindAllString label l = (lineMatch label l).toList := by
  rw [FindAllString_eq hl]
  unfold lineMatch
  cases hc : Cut label l with
  | none => rfl
  | some p =>
    have happ := Cut_eq_some_append (a := p.1) (b := p.2) hc
    have hb : nl ∉ p.2 := by
      intro hmem
      apply h
      rw [happ]
      exact List.mem_append_right _ hmem
    simp only [takeWhile_ne_nl hb, dropWhile_ne_nl hb, FindAllString_nil hl, Option.map_some',
      Option.toList_some]

/-- The matches on a block are those of its first line followed by those of
the rest. -/
theorem FindAllString_line_cons {label : Str} (hl : label ≠ []) (hnl : nl ∉ label) {l : Str}
    (rest : Str) (h : nl ∉ l) :
    FindAllString label (l ++ nl :: rest) =
      (lineMatch label l).toList ++ FindAllString label rest := by
  unfold lineMatch
  cases hc : Cut label l with
  | none =>
    have hnot := Cut_eq_none_iff.mp hc
    have hskip := @Cut_skip label l (nl :: rest) (by
      intro a t heq
      by_contra hlt
      obtain ⟨k, hk⟩ := infix_line_of_lt hnl heq (by omega)
      exact hnot ⟨a, k, hk.symm⟩)
    have : FindAllString label (l ++ nl :: rest) = FindAllString label (nl :: rest) := by
      apply FindAllString_congr hl
      rw [hskip]
      cases Cut label (nl :: rest) with
      | none => rfl
      | some p => rfl
    rw [this, FindAllString_nl_cons hl hnl]
    rfl
  | some p =>
    have happ := Cut_eq_some_append (a := p.1) (b := p.2) hc
    have hb : nl ∉ p.2 := by
      intro hmem
      apply h
      rw [happ]
      exact List.mem_append_right _ hmem
    have hc2 := Cut_append_of_some (a := p.1) (b := p.2) (nl :: rest) hc
    rw [FindAllString_eq hl, hc2]
    have ht : (p.2 ++ nl :: rest).takeWhile (fun c => c != nl) = p.2 := by
      rw [List.takeWhile_append_of_pos]
      · simp [List.takeWhile]
      · intro c hcm
        simp only [bne_iff_ne, ne_eq]
        intro hcn
        exact hb (hcn ▸ hcm)
    have hd : (p.2 ++ nl :: rest).dropWhile (fun c => c != nl) = nl :: rest := by
      rw [List.dropWhile_append_of_pos]
      · simp [List.dropWhile]
      · intro c hcm
        simp only [bne_iff_ne, ne_eq]
        intro hcn
        exact hb (hcn ▸ hcm)
    simp only [ht, hd, FindAllString_nl_cons hl hnl, Option.map_some', Option.toList_some,
      List.singleton_append]

theorem Split_nl_line {l : Str} (h : nl ∉ l) : Split l [nl] = [l] := by
  have hc : Cut [nl] l = none := by
    rw [Cut_eq_none_iff]
    intro hinf
    apply h
    obtain ⟨u, v, huv⟩ := hinf
    rw [← huv]
    simp
  rw [Split_eq (by simp), hc]

theorem Split_nl_cons {l : Str} (rest : Str) (h : nl ∉ l) :
    Split (l ++ nl :: rest) [nl] = l :: Split rest [nl] := by
  rw [Split_eq (by simp), Cut_nl_of_not_mem rest h]

theorem Split_nl_no_nl : ∀ (n : Nat) (block : Str), block.length ≤ n →
    ∀ l ∈ Split block [nl], nl ∉ l := by
  intro n
  induction n with
  | zero =>
    intro block hlen l hmem
    have hb : block = [] := List.length_eq_zero.mp (Nat.le_zero.mp hlen)
    subst hb
    rw [Split_nil (by simp)] at hmem
    simp only [List.mem_singleton] at hmem
    rw [hmem]
    simp
  | succ n ih =>
    intro block hlen l hmem
    cases hc : Cut [nl] block with
    | none =>
      have hno := Cut_nl_none hc
      rw [Split_nl_line hno] at hmem
      simp only [List.mem_singleton] at hmem
      rw [hmem]
      exact hno
    | some p =>
      obtain ⟨hno, hb⟩ := @Cut_nl_some block p.1 p.2 hc
      have hlen2 : p.2.length ≤ n := by
        rw [hb] at hlen
        simp only [List.length_append, List.length_cons] at hlen
        omega
      rw [hb, Split_nl_cons p.2 hno] at hmem
      rcases List.mem_cons.mp hmem with h1 | h1
      · rw [h1]; exact hno
      · exact ih p.2 hlen2 l h1

/-- The matches of a label without line break are, line by line, the text
from the first instance of the label on the line to the end of the line. -/
theorem FindAllString_lines {label : Str} (hl : label ≠ []) (hnl : nl ∉ label) :
    ∀ (n : Nat) (block : Str), block.length ≤ n →
    FindAllString label block = (Split block [nl]).filterMap (lineMatch label) := by
  intro n
  induction n with
  | zero =>
    intro block hlen
    have hb : block = [] := List.length_eq_zero.mp (Nat.le_zero.mp hlen)
    subst hb
    rw [FindAllString_nil hl, Split_nil (by simp)]
    simp [lineMatch, Cut_nil, hl]
  | succ n ih =>
    intro block hlen
    cases hc : Cut [nl] block with
    | none =>
      have hno := Cut_nl_none hc
      rw [FindAllString_line hl hno, Split_nl_line hno]
      cases hm : lineMatch label block with
      | none => simp [List.filterMap_cons, hm]
      | some m => simp [List.filterMap_cons, hm]
    | some p =>
      obtain ⟨hno, hb⟩ := @Cut_nl_some block p.1 p.2 hc
      have hlen2 : p.2.length ≤ n := by
        rw [hb] at hlen
        simp only [List.length_append, List.length_cons] at hlen
        omega
      rw [hb, FindAllString_line_cons hl hnl p.2 hno, Split_nl_cons p.2 hno, ih p.2 hlen2]
      cases hm : lineMatch label p.1 with
      | none => simp [List.filterMap_cons, hm]
      | some m => simp [List.filterMap_cons, hm]

theorem lineMatch_isSome (label line : Str) :
    (lineMatch label line).isSome = Contains line label := by
  unfold lineMatch Contains
  cases Cut label line with
  | none => rfl
  | some p => rfl

theorem filterMap_lineMatch_length (label : Str) : ∀ (ls : List Str),
    (ls.filterMap (lineMatch label)).length = (ls.filter (fun l => Contains l label)).length := by
  intro ls
  induction ls with
  | nil => rfl
  | cons l ls ih =>
    have h := lineMatch_isSome label l
    cases hm : lineMatch label l with
    | none =>
      rw [hm] at h
      simp only [List.filterMap_cons, hm]
      rw [List.filter_cons_of_neg (by simp [← h]), ih]
    | some m =>
      rw [hm] at h
      simp only [List.filterMap_cons, hm]
      rw [List.filter_cons_of_pos (by simp [← h])]
      simp [ih]

theorem matchLoop_length {pr fp : Str} {e : Int} {cfg : Config} {label : Str} :
    ∀ (ms : List Str) (rs : List Result),
    matchLoop pr fp e cfg label ms [] = some rs → rs.length = ms.length := by
  intro ms
  induction ms with
  | nil =>
    intro rs h
    simp only [matchLoop, Option.some.injEq] at h
    subst h
    rfl
  | cons m ms ih =>
    intro rs h
    rw [matchLoop_cons] at h
    cases hr : matchResult pr fp e cfg label m with
    | none => rw [hr] at h; cases h
    | some r =>
      rw [hr, Option.some_bind] at h
      cases hrest : matchLoop pr fp e cfg label ms [] with
      | none => rw [hrest] at h; cases h
      | some rs2 =>
        rw [hrest] at h
        simp only [Option.map_some', Option.some.injEq] at h
        rw [← h]
        simp [ih rs2 hrest]

theorem parseStringForResults_single_label (pr fp : Str) (e : Int) (cfg : Config)
    (label : Str) :
    parseStringForResults pr fp e (withLabels cfg [label]) =
      matchLoop pr fp e cfg label (FindAllString label pr) [] := by
  rw [parseStringForResults_withLabels, labelLoop_cons]
  cases matchLoop pr fp e cfg label (FindAllString label pr) [] with
  | none => rfl
  | some rs => simp [labelLoop]

/-- C6 as stated fails for a literal label that contains a line break: the
label of the two characters `a`, `b` separated by a line break occurs in the
block of the lines `a` and `b`, and gives one result, but no line of the
block contains it. -/
theorem results_per_line_counterexample :
    ¬ (∀ (label block filePath : Str) (endingLineNumber : Int) (config : Config)
        (rs : List Result), IsLiteral label →
        parseStringForResults block filePath endingLineNumber (withLabels config [label])
          = some rs →
        rs.length = ((Split block [nl]).filter (fun l => Contains l label)).length) := by
  intro h
  have h1 := h ['a', nl, 'b'] ['a', nl, 'b'] "f".toList 2 sampleConfig
    [{ label := ['a', nl, 'b'], body := [], filename := "f".toList
       lineNumber := 2 }] (by decide) (by decide)
  revert h1
  decide

/-- C6, amended: for a label that is a non-empty literal without line break,
the matches in a block are, in order, one per line of the block that
contains the label, each running from the first instance of the label on
that line to the end of that line; no match contains a line break; when
extraction completes, the number of results equals the number of lines that
contain the label; and a block without the label gives no result. -/
theorem results_per_line (label block filePath : Str) (endingLineNumber : Int)
    (config : Config) (hlit : IsLiteral label) (hnl : nl ∉ label) :
    FindAllString label block = (Split block [nl]).filterMap (lineMatch label) ∧
    (∀ m ∈ FindAllString label block, nl ∉ m) ∧
    (∀ rs, parseStringForResults block filePath endingLineNumber (withLabels config [label])
        = some rs →
      rs.length = ((Split block [nl]).filter (fun l => Contains l label)).length) ∧
    (Contains block label = false →
      parseStringForResults block filePath endingLineNumber (withLabels config [label])
        = some []) := by
  have hl := hlit.1
  have hfind := FindAllString_lines hl hnl block.length block (le_refl _)
  refine ⟨hfind, ?_, ?_, ?_⟩
  · intro m hm
    rw [hfind, List.mem_filterMap] at hm
    obtain ⟨line, hline, hmatch⟩ := hm
    have hno := Split_nl_no_nl block.length block (le_refl _) line hline
    unfold lineMatch at hmatch
    cases hc : Cut label line with
    | none => rw [hc] at hmatch; cases hmatch
    | some p =>
      rw [hc] at hmatch
      simp only [Option.map_some', Option.some.injEq] at hmatch
      have happ := Cut_eq_some_append (a := p.1) (b := p.2) hc
      rw [← hmatch]
      intro hmem
      rcases List.mem_append.mp hmem with h1 | h1
      · exact hnl h1
      · apply hno
        rw [happ]
        exact List.mem_append_right _ h1
  · intro rs hrs
    rw [parseStringForResults_single_label] at hrs
    rw [matchLoop_length _ _ hrs, hfind, filterMap_lineMatch_length]
  · intro hc
    rw [parseStringForResults_single_label, FindAllString_eq hl]
    have : Cut label block = none := by
      unfold Contains at hc
      cases hcut : Cut label block with
      | none => rfl
      | some p => rw [hcut] at hc; cases hc
    rw [this]
    rfl

theorem results_per_line_witness :
    FindAllString "TODO".toList
        ("a TODO x".toList ++ nl :: "b".toList ++ nl :: "TODO y TODO z".toList)
      = ["TODO x".toList, "TODO y TODO z".toList] ∧
    (∀ rs, parseStringForResults
        ("a TODO x".toList ++ nl :: "b".toList ++ nl :: "TODO y TODO z".toList) "f".toList 3
        (withLabels sampleConfig ["TODO".toList]) = some rs → rs.length = 2) :=
  ⟨(results_per_line "TODO".toList
      ("a TODO x".toList ++ nl :: "b".toList ++ nl :: "TODO y TODO z".toList) "f".toList 3
      sampleConfig (by decide) (by decide)).1.trans (by decide),
   fun rs hrs => ((results_per_line "TODO".toList
      ("a TODO x".toList ++ nl :: "b".toList ++ nl :: "TODO y TODO z".toList) "f".toList 3
      sampleConfig (by decide) (by decide)).2.2.1 rs hrs).trans (by decide)⟩

/-! ## Line numbers stay inside the block -/

theorem Split_head_infix {sep : Str} (hsep : sep ≠ []) (b : Str) :
    ∃ y ys, Split b sep = y :: ys ∧ y <:+: b := by
  rw [Split_eq hsep]
  cases hc : Cut sep b with
  | none => exact ⟨b, [], rfl, List.infix_refl b⟩
  | some p =>
    have happ := Cut_eq_some_append (a := p.1) (b := p.2) hc
    refine ⟨p.1, Split p.2 sep, rfl, ?_⟩
    rw [happ, List.append_assoc]
    exact (List.prefix_append p.1 _).isInfix

/-- The text whose line breaks `matchResult` counts lies in the block, after
its first character. -/
theorem matchResult_offset {pr fp : Str} {e : Int} {cfg : Config} {label m : Str} {r : Result}
    (h : matchResult pr fp e cfg label m = some r) :
    ∃ y : Str, y <:+: pr.tail ∧ r.lineNumber = e - (y.count nl : Nat) := by
  simp only [matchResult] at h
  by_cases hm2 : Replace m cfg.MultiLineDelimEnd [] (-1) = []
  · simp only [hm2] at h
    cases pr with
    | nil =>
      simp only [Split, if_true, List.map_nil, List.length_nil, gt_iff_lt, lt_self_iff_false,
        if_false, Option.some.injEq] at h
      refine ⟨[], List.infix_refl _, ?_⟩
      rw [← h]
      simp
    | cons c pr =>
      cases pr with
      | nil =>
        simp [Split] at h
      | cons d pr =>
        simp only [Split, if_true, List.map_cons, List.length_cons, gt_iff_lt,
          Nat.zero_lt_succ, List.get?_cons_succ, List.get?_cons_zero, Option.map_some',
          Option.some.injEq, Count_nl] at h
        refine ⟨[d], ?_, ?_⟩
        · exact (List.prefix_append [d] pr).isInfix
        · rw [← h]
  · rw [Split_eq hm2] at h
    cases hc : Cut (Replace m cfg.MultiLineDelimEnd [] (-1)) pr with
    | none =>
      rw [hc] at h
      simp at h
    | some p =>
      rw [hc] at h
      have happ := Cut_eq_some_append (a := p.1) (b := p.2) hc
      obtain ⟨y, ys, hy, hinf⟩ := Split_head_infix hm2 p.2
      simp only [hy, List.length_cons, gt_iff_lt, Nat.zero_lt_succ, if_true,
        List.get?_cons_succ, List.get?_cons_zero, Option.map_some', Option.some.injEq,
        Count_nl] at h
      refine ⟨y, ?_, ?_⟩
      · have htail : p.2 <:+: pr.tail := by
          have hne : p.1 ++ Replace m cfg.MultiLineDelimEnd [] (-1) ≠ [] := by
            simp [hm2]
          rw [happ]
          cases hw : p.1 ++ Replace m cfg.MultiLineDelimEnd [] (-1) with
          | nil => exact absurd hw hne
          | cons c w =>
            simp only [List.cons_append, List.tail_cons]
            exact (List.suffix_append w p.2).isInfix
        exact hinf.trans htail
      · rw [← h]

theorem matchLoop_mem {pr fp : Str} {e : Int} {cfg : Config} {label : Str} :
    ∀ (ms : List Str) (rs : List Result), matchLoop pr fp e cfg label ms [] = some rs →
    ∀ r ∈ rs, ∃ m, matchResult pr fp e cfg label m = some r := by
  intro ms
  induction ms with
  | nil =>
    intro rs h r hr
    simp only [matchLoop, Option.some.injEq] at h
    subst h
    cases hr
  | cons m ms ih =>
    intro rs h r hr
    rw [matchLoop_cons] at h
    cases hres : matchResult pr fp e cfg label m with
    | none => rw [hres] at h; cases h
    | some r0 =>
      rw [hres, Option.some_bind] at h
      cases hrest : matchLoop pr fp e cfg label ms [] with
      | none => rw [hrest] at h; cases h
      | some rs2 =>
        rw [hrest] at h
        simp only [Option.map_some', Option.some.injEq] at h
        subst h
        rcases List.mem_cons.mp hr with h1 | h1
        · exact ⟨m, by rw [h1]; exact hres⟩
        · exact ih rs2 hrest r h1

theorem labelLoop_mem {pr fp : Str} {e : Int} {cfg : Config} :
    ∀ (ls : List Str) (rs : List Result), labelLoop pr fp e cfg ls [] = some rs →
    ∀ r ∈ rs, ∃ label m, matchResult pr fp e cfg label m = some r := by
  intro ls
  induction ls with
  | nil =>
    intro rs h r hr
    simp only [labelLoop, Option.some.injEq] at h
    subst h
    cases hr
  | cons l ls ih =>
    intro rs h r hr
    rw [labelLoop_cons] at h
    cases hres : matchLoop pr fp e cfg l (FindAllString l pr) [] with
    | none => rw [hres] at h; cases h
    | some rs1 =>
      rw [hres, Option.some_bind] at h
      cases hrest : labelLoop pr fp e cfg ls [] with
      | none => rw [hrest] at h; cases h
      | some rs2 =>
        rw [hrest] at h
        simp only [Option.map_some', Option.some.injEq] at h
        subst h
        rcases List.mem_append.mp hr with h1 | h1
        · obtain ⟨m, hm⟩ := matchLoop_mem _ rs1 hres r h1
          exact ⟨l, m, hm⟩
        · exact ih rs2 hrest r h1

/-- Every line number of a block lies between the ending line number minus
the number of line breaks after the first character of the block, and the
ending line number. -/
theorem parseStringForResults_bound {pr fp : Str} {e : Int} {cfg : Config} {rs : List Result}
    (h : parseStringForResults pr fp e cfg = some rs) :
    ∀ r ∈ rs, e - (pr.tail.count nl : Nat) ≤ r.lineNumber ∧ r.lineNumber ≤ e := by
  intro r hr
  obtain ⟨label, m, hm⟩ := labelLoop_mem _ rs h r hr
  obtain ⟨y, hy, hline⟩ := matchResult_offset hm
  have hle : y.count nl ≤ pr.tail.count nl := hy.sublist.count_le nl
  rw [hline]
  omega

theorem accumulated_append (a b : List Str) :
    accumulated (a ++ b) = accumulated a ++ accumulated b := by
  simp [accumulated]

theorem accumulated_singleton (l : Str) : accumulated [l] = nl :: l := by
  simp [accumulated]

theorem accumulated_count : ∀ (ls : List Str), (∀ l ∈ ls, nl ∉ l) →
    (accumulated ls).count nl = ls.length := by
  intro ls
  induction ls with
  | nil => intro _; rfl
  | cons l ls ih =>
    intro h
    have h1 : nl ∉ l := h l (List.mem_cons_self _ _)
    have h2 := ih (fun x hx => h x (List.mem_cons_of_mem _ hx))
    have h3 : accumulated (l :: ls) = nl :: (l ++ accumulated ls) := by
      simp [accumulated]
    rw [h3, List.count_cons_self, List.count_append, List.count_eq_zero.mpr h1, h2]
    simp

theorem accumulated_tail_count (ls : List Str) (h : ∀ l ∈ ls, nl ∉ l) :
    (accumulated ls).tail.count nl = ls.length - 1 := by
  cases ls with
  | nil => rfl
  | cons l ls =>
    have h3 : accumulated (l :: ls) = nl :: (l ++ accumulated ls) := by
      simp [accumulated]
    have h1 : nl ∉ l := h l (List.mem_cons_self _ _)
    have h2 := accumulated_count ls (fun x hx => h x (List.mem_cons_of_mem _ hx))
    rw [h3, List.tail_cons, List.count_append, List.count_eq_zero.mpr h1, h2]
    simp

theorem scanLoop_append (fp : Str) (cfg : Config) : ∀ (a b : List Str) (st : ScanState),
    scanLoop fp cfg st (a ++ b) =
      (scanLoop fp cfg st a).bind (fun st2 => scanLoop fp cfg st2 b) := by
  intro a
  induction a with
  | nil => intro b st; rfl
  | cons l a ih =>
    intro b st
    simp only [List.cons_append, scanLoop]
    cases scanStep fp cfg st l with
    | none => rfl
    | some st2 => exact ih b st2

/-- One step of the scanner keeps the invariant `ScanInv`, and the results it
adds have line numbers between the first line of the block and the current
line. -/
theorem scanStep_inv {fp : Str} {cfg : Config} {pre : List Str} {line : Str}
    {st st2 : ScanState} {s : Nat} (hinv : ScanInv pre st s)
    (hpre : ∀ l ∈ pre, nl ∉ l) (hline : nl ∉ line)
    (hstep : scanStep fp cfg st line = some st2) :
    ∃ new : List Result, st2.results = st.results ++ new ∧
      (∀ r ∈ new, (s : Int) ≤ r.lineNumber ∧ r.lineNumber ≤ (pre.length : Int) + 1) ∧
      ∃ s2, ScanInv (pre ++ [line]) st2 s2 := by
  obtain ⟨hln, hs1, hs2, hidle, hacc, hres⟩ := hinv
  have hold : ∀ r ∈ st.results, 1 ≤ r.lineNumber ∧
      r.lineNumber ≤ ((pre ++ [line]).length : Int) := by
    intro r hr
    have := hres r hr
    simp only [List.length_append, List.length_singleton, Nat.cast_add, Nat.cast_one]
    omega
  cases hcol : st.collecting with
  | false =>
    have hs := hidle hcol
    have hacc0 : st.collectString = [] := by
      rw [hacc, hs]
      simp [accumulated]
    cases hsingle : Contains line cfg.SingleLineDelim with
    | true =>
      rw [scanStep_idle_single fp cfg st line hcol hsingle] at hstep
      unfold extractLine at hstep
      cases hp : parseStringForResults line fp st.lineNumber cfg with
      | none => rw [hp] at hstep; cases hstep
      | some rs =>
        rw [hp] at hstep
        simp only [Option.map_some', Option.some.injEq] at hstep
        subst hstep
        have hb := parseStringForResults_bound hp
        have htail : line.tail.count nl = 0 := by
          rw [List.count_eq_zero]
          intro hmem
          exact hline (List.mem_of_mem_tail hmem)
        have hnew : ∀ r ∈ rs, r.lineNumber = (pre.length : Int) + 1 := by
          intro r hr
          have := hb r hr
          rw [htail] at this
          simp only [Nat.cast_zero, sub_zero] at this
          omega
        refine ⟨rs, rfl, ?_, pre.length + 2, ?_⟩
        · intro r hr
          rw [hnew r hr, hs]
          simp
        · refine ⟨?_, by omega, ?_, ?_, ?_, ?_⟩
          · simp only [List.length_append, List.length_singleton, Nat.cast_add, Nat.cast_one]
            omega
          · simp
          · intro _
            simp
          · simp only [hacc0]
            simp [accumulated]
          · intro r hr
            rcases List.mem_append.mp hr with h1 | h1
            · exact hold r h1
            · rw [hnew r h1]
              simp only [List.length_append, List.length_singleton, Nat.cast_add, Nat.cast_one]
              omega
    | false =>
      cases hstart : Contains line cfg.MultiLineDelimStart with
      | true =>
        rw [scanStep_idle_start fp cfg st line hcol hsingle hstart] at hstep
        simp only [Option.some.injEq] at hstep
        subst hstep
        refine ⟨[], by simp [appendLine], by simp, pre.length + 1, ?_⟩
        refine ⟨?_, by omega, ?_, ?_, ?_, ?_⟩
        · simp only [appendLine, List.length_append, List.length_singleton, Nat.cast_add,
            Nat.cast_one]
          omega
        · simp
        · intro h
          simp [appendLine] at h
        · simp only [appendLine, hacc0]
          simp [accumulated]
        · exact hold
      | false =>
        rw [scanStep_idle_none fp cfg st line hcol hsingle hstart] at hstep
        simp only [Option.some.injEq] at hstep
        subst hstep
        refine ⟨[], by simp, by simp, pre.length + 2, ?_⟩
        refine ⟨?_, by omega, ?_, ?_, ?_, ?_⟩
        · simp only [List.length_append, List.length_singleton, Nat.cast_add, Nat.cast_one]
          omega
        · simp
        · intro _
          simp
        · simp only [hacc0]
          simp [accumulated]
        · exact hold
  | true =>
    have hdrop : (pre ++ [line]).drop (s - 1) = pre.drop (s - 1) ++ [line] :=
      List.drop_append_of_le_length (by omega)
    have hacc2 : st.collectString ++ [nl] ++ line = accumulated ((pre ++ [line]).drop (s - 1)) := by
      rw [hdrop, accumulated_append, accumulated_singleton, hacc]
      simp
    rw [scanStep_collecting fp cfg st line hcol] at hstep
    split at hstep
    · unfold closeBlock at hstep
      cases hp : parseStringForResults (st.collectString ++ [nl] ++ line) fp st.lineNumber cfg with
      | none => rw [hp] at hstep; cases hstep
      | some rs =>
        rw [hp] at hstep
        simp only [Option.map_some', Option.some.injEq] at hstep
        subst hstep
        have hb := parseStringForResults_bound hp
        have hfree : ∀ l ∈ (pre ++ [line]).drop (s - 1), nl ∉ l := by
          intro l hl
          rcases List.mem_append.mp (List.mem_of_mem_drop hl) with h1 | h1
          · exact hpre l h1
          · rw [List.mem_singleton.mp h1]; exact hline
        have htail : (st.collectString ++ [nl] ++ line).tail.count nl = pre.length + 1 - s := by
          rw [hacc2, accumulated_tail_count _ hfree, List.length_drop]
          simp only [List.length_append, List.length_singleton]
          omega
        have hnew : ∀ r ∈ rs, (s : Int) ≤ r.lineNumber ∧ r.lineNumber ≤ (pre.length : Int) + 1 := by
          intro r hr
          have := hb r hr
          rw [htail] at this
          omega
        refine ⟨rs, rfl, hnew, pre.length + 2, ?_⟩
        refine ⟨?_, by omega, ?_, ?_, ?_, ?_⟩
        · simp only [List.length_append, List.length_singleton, Nat.cast_add, Nat.cast_one]
          omega
        · simp
        · intro _
          simp
        · simp [accumulated]
        · intro r hr
          rcases List.mem_append.mp hr with h1 | h1
          · exact hold r h1
          · have := hnew r h1
            simp only [List.length_append, List.length_singleton, Nat.cast_add, Nat.cast_one]
            omega
    · simp only [Option.some.injEq] at hstep
      subst hstep
      refine ⟨[], by simp [appendLine], by simp, s, ?_⟩
      refine ⟨?_, hs1, ?_, ?_, ?_, ?_⟩
      · simp only [appendLine, List.length_append, List.length_singleton, Nat.cast_add,
          Nat.cast_one]
        omega
      · simp only [List.length_append, List.length_singleton]
        omega
      · intro h
        simp [appendLine] at h
      · simp only [appendLine]
        exact hacc2
      · exact hold

theorem ScanInv_initial : ScanInv [] initialState 1 := by
  refine ⟨rfl, le_refl _, le_refl _, fun _ => rfl, rfl, ?_⟩
  intro r hr
  cases hr

/-- Every state reached from the initial state satisfies the invariant. -/
theorem scanLoop_inv (fp : Str) (cfg : Config) : ∀ (pre : List Str) (st : ScanState),
    (∀ l ∈ pre, nl ∉ l) → scanLoop fp cfg initialState pre = some st →
    ∃ s, ScanInv pre st s := by
  intro pre
  induction pre using List.reverseRecOn with
  | nil =>
    intro st _ h
    simp only [scanLoop, Option.some.injEq] at h
    subst h
    exact ⟨1, ScanInv_initial⟩
  | append_singleton pre line ih =>
    intro st hfree h
    rw [scanLoop_append] at h
    cases hpre : scanLoop fp cfg initialState pre with
    | none => rw [hpre] at h; cases h
    | some st1 =>
      rw [hpre, Option.some_bind] at h
      simp only [scanLoop] at h
      cases hstep : scanStep fp cfg st1 line with
      | none => rw [hstep] at h; cases h
      | some st2 =>
        rw [hstep] at h
        simp only [Option.some.injEq] at h
        subst h
        have hfree1 : ∀ l ∈ pre, nl ∉ l := fun l hl => hfree l (List.mem_append_left _ hl)
        have hline : nl ∉ line := hfree line (by simp)
        obtain ⟨s, hinv⟩ := ih st1 hfree1 hpre
        obtain ⟨_, _, _, s2, hinv2⟩ := scanStep_inv hinv hfree1 hline hstep
        exact ⟨s2, hinv2⟩

/-- C4: every result of `parseFileForResults` has a line number inside the
line range of the block it came from.  After the lines `pre` the accumulator
holds the lines `s`, ..., `pre.length` (and `s = pre.length + 1`, no line,
when the scanner is idle); the results added when the next line is read have
line numbers between `s` and the number of that line, so exactly that number
for a single-line candidate; and all line numbers of a file lie between 1
and the number of its lines. -/
theorem line_numbers_within_block (filePath : Str) (config : Config)
    (_hlit : ∀ l ∈ config.Labels, IsLiteral l) :
    (∀ (pre : List Str) (line : Str) (st st2 : ScanState),
      (∀ l ∈ pre ++ [line], nl ∉ l) →
      scanLoop filePath config initialState pre = some st →
      scanStep filePath config st line = some st2 →
      ∃ (s : Nat) (new : List Result),
        1 ≤ s ∧ s ≤ pre.length + 1 ∧ (st.collecting = false → s = pre.length + 1) ∧
        st.collectString = accumulated (pre.drop (s - 1)) ∧
        st2.results = st.results ++ new ∧
        ∀ r ∈ new, (s : Int) ≤ r.lineNumber ∧ r.lineNumber ≤ (pre.length : Int) + 1) ∧
    (∀ (lines : List Str) (rs : List Result), (∀ l ∈ lines, nl ∉ l) →
      parseFileForResults filePath config lines = some rs →
      ∀ r ∈ rs, 1 ≤ r.lineNumber ∧ r.lineNumber ≤ (lines.length : Int)) := by
  constructor
  · intro pre line st st2 hfree hpre hstep
    have hfree1 : ∀ l ∈ pre, nl ∉ l := fun l hl => hfree l (List.mem_append_left _ hl)
    have hline : nl ∉ line := hfree line (by simp)
    obtain ⟨s, hinv⟩ := scanLoop_inv filePath config pre st hfree1 hpre
    obtain ⟨new, hnew, hbound, _⟩ := scanStep_inv hinv hfree1 hline hstep
    exact ⟨s, new, hinv.2.1, hinv.2.2.1, hinv.2.2.2.1, hinv.2.2.2.2.1, hnew, hbound⟩
  · intro lines rs hfree h
    unfold parseFileForResults at h
    cases hst : scanLoop filePath config initialState lines with
    | none => rw [hst] at h; cases h
    | some st =>
      rw [hst] at h
      simp only [Option.map_some', Option.some.injEq] at h
      subst h
      obtain ⟨s, hinv⟩ := scanLoop_inv filePath config lines st hfree hst
      exact hinv.2.2.2.2.2

theorem line_numbers_within_block_witness :
    parseFileForResults "f".toList sampleConfig
        ["// TODO one".toList, "/* x".toList, "TODO two".toList, "*/".toList]
      = some [{ label := "TODO".toList, body := "one".toList, filename := "f".toList
                lineNumber := 1 },
              { label := "TODO".toList, body := "two".toList, filename := "f".toList
                lineNumber := 3 }] ∧
    ((1 : Int) ≤ 3 ∧ (3 : Int) ≤ (4 : Nat)) :=
  ⟨by decide,
   (line_numbers_within_block "f".toList sampleConfig (by decide)).2
     ["// TODO one".toList, "/* x".toList, "TODO two".toList, "*/".toList]
     [{ label := "TODO".toList, body := "one".toList, filename := "f".toList, lineNumber := 1 },
      { label := "TODO".toList, body := "two".toList, filename := "f".toList, lineNumber := 3 }]
     (by decide) (by decide)
     { label := "TODO".toList, body := "two".toList, filename := "f".toList, lineNumber := 3 }
     (by simp)⟩

/-! ## Files without results -/

theorem scanLoop_no_delimiter (fp : Str) (cfg : Config) : ∀ (lines : List Str) (st : ScanState),
    st.collecting = false →
    (∀ l ∈ lines, Contains l cfg.SingleLineDelim = false ∧
      Contains l cfg.MultiLineDelimStart = false) →
    scanLoop fp cfg st lines =
      some { st with lineNumber := st.lineNumber + lines.length } := by
  intro lines
  induction lines with
  | nil =>
    intro st _ _
    simp [scanLoop]
  | cons line rest ih =>
    intro st hidle h
    obtain ⟨h1, h2⟩ := h line (List.mem_cons_self _ _)
    simp only [scanLoop]
    rw [scanStep_idle_none fp cfg st line hidle h1 h2]
    simp only
    rw [ih ⟨st.lineNumber + 1, st.collecting, st.collectString, st.results⟩ hidle
      (fun l hl => h l (List.mem_cons_of_mem _ hl))]
    simp only [List.length_cons, Nat.cast_add, Nat.cast_one, Option.some.injEq,
      ScanState.mk.injEq, and_true]
    omega

/-- C12: a file in which no line contains the single-line delimiter, the
multi-line start delimiter or the multi-line end delimiter gives no result,
whatever the labels are and wherever they occur. -/
theorem no_delimiter_no_result (filePath : Str) (config : Config) (lines : List Str)
    (h : ∀ l ∈ lines, Contains l config.SingleLineDelim = false ∧
      Contains l config.MultiLineDelimStart = false ∧
      Contains l config.MultiLineDelimEnd = false) :
    parseFileForResults filePath config lines = some [] := by
  unfold parseFileForResults
  rw [scanLoop_no_delimiter filePath config lines initialState rfl
    (fun l hl => ⟨(h l hl).1, (h l hl).2.1⟩)]
  rfl

theorem no_delimiter_no_result_witness :
    parseFileForResults "f".toList sampleConfig
      ["TODO first".toList, "x := 1 / 2 * 3 TODO".toList, "".toList] = some [] :=
  no_delimiter_no_result "f".toList sampleConfig _ (by decide)

/-- While no line closes the block, a collecting scanner only accumulates. -/
theorem scanLoop_unterminated (fp : Str) (cfg : Config) : ∀ (lines : List Str) (st : ScanState),
    st.collecting = true →
    (∀ l ∈ lines, Contains l cfg.MultiLineDelimStart = true ∨
      Contains l cfg.MultiLineDelimEnd = false) →
    ∃ st2, scanLoop fp cfg st lines = some st2 ∧ st2.collecting = true ∧
      st2.results = st.results := by
  intro lines
  induction lines with
  | nil =>
    intro st hcol _
    exact ⟨st, rfl, hcol, rfl⟩
  | cons line rest ih =>
    intro st hcol h
    have hline := h line (List.mem_cons_self _ _)
    have hstep : scanStep fp cfg st line = some (appendLine st line) := by
      rw [scanStep_collecting fp cfg st line hcol]
      rcases hline with h1 | h1
      · simp [h1]
      · simp [h1]
    obtain ⟨st2, h2, h3, h4⟩ := ih (appendLine st line) rfl
      (fun l hl => h l (List.mem_cons_of_mem _ hl))
    refine ⟨st2, ?_, h3, ?_⟩
    · simp only [scanLoop, hstep]
      exact h2
    · rw [h4]
      rfl

/-- C11: when the scanner is idle after the lines `pre`, the next line opens
a multi-line block and no later line closes it, the file gives exactly the
results of `pre`, the results produced before the block was opened, and
every line number is smaller than the number of the line that opened the
block. -/
theorem unterminated_block_discarded (filePath : Str) (config : Config) (pre : List Str)
    (opening : Str) (rest : List Str) (st : ScanState)
    (hfree : ∀ l ∈ pre, nl ∉ l)
    (hpre : scanLoop filePath config initialState pre = some st)
    (hidle : st.collecting = false)
    (hsingle : Contains opening config.SingleLineDelim = false)
    (hstart : Contains opening config.MultiLineDelimStart = true)
    (hrest : ∀ l ∈ rest, Contains l config.MultiLineDelimStart = true ∨
      Contains l config.MultiLineDelimEnd = false) :
    parseFileForResults filePath config (pre ++ opening :: rest) = some st.results ∧
    parseFileForResults filePath config pre = some st.results ∧
    ∀ r ∈ st.results, r.lineNumber < (pre.length : Int) + 1 := by
  refine ⟨?_, ?_, ?_⟩
  · unfold parseFileForResults
    rw [scanLoop_append, hpre, Option.some_bind]
    simp only [scanLoop]
    rw [scanStep_idle_start filePath config st opening hidle hsingle hstart]
    obtain ⟨st2, h2, _, h4⟩ := scanLoop_unterminated filePath config rest
      (appendLine st opening) rfl hrest
    simp only [h2, Option.map_some', h4]
    rfl
  · unfold parseFileForResults
    rw [hpre]
    rfl
  · intro r hr
    obtain ⟨s, hinv⟩ := scanLoop_inv filePath config pre st hfree hpre
    have := hinv.2.2.2.2.2 r hr
    omega

theorem unterminated_block_discarded_witness :
    parseFileForResults "f".toList sampleConfig
        ["// TODO one".toList, "/* TODO two".toList, "TODO three".toList, "// TODO four".toList]
      = some [{ label := "TODO".toList, body := "one".toList, filename := "f".toList
                lineNumber := 1 }] :=
  (unterminated_block_discarded "f".toList sampleConfig ["// TODO one".toList]
    "/* TODO two".toList ["TODO three".toList, "// TODO four".toList]
    { lineNumber := 2, collecting := false, collectString := []
      results := [{ label := "TODO".toList, body := "one".toList, filename := "f".toList
                    lineNumber := 1 }] }
    (by decide) (by decide) rfl (by decide) (by decide) (by decide)).1

/-- C19, the failing input: on the line `// TODO a */ b` the match is
`TODO a */ b`; without the end delimiter it is `TODO a  b`, which does not
occur in the block, so `strings.Split` gives one piece and `lines[1]` is out
of range: the program panics. -/
theorem split_index_out_of_range :
    FindAllString "TODO".toList "// TODO a */ b".toList = ["TODO a */ b".toList] ∧
    Split "// TODO a */ b".toList (Replace "TODO a */ b".toList "*/".toList [] (-1))
      = ["// TODO a */ b".toList] ∧
    parseStringForResults "// TODO a */ b".toList "f".toList 1 sampleConfig = none ∧
    parseFileForResults "f".toList sampleConfig ["// TODO a */ b".toList] = none := by
  refine ⟨by decide, by decide, by decide, by decide⟩

/-! ## The file filter -/

theorem Cut_char_some {c : Char} {s l rest : Str} (h : Cut [c] s = some (l, rest)) :
    c ∉ l ∧ s = l ++ c :: rest := by
  have happ := Cut_eq_some_append h
  have hfirst := Cut_eq_some_first h
  refine ⟨?_, by simpa using happ⟩
  intro hmem
  obtain ⟨u, v, huv⟩ := List.append_of_mem hmem
  have := hfirst u (v ++ [c] ++ rest) (by rw [happ, huv]; simp)
  rw [huv] at this
  simp at this

theorem Cut_char_none {c : Char} {s : Str} (h : Cut [c] s = none) : c ∉ s := by
  intro hmem
  obtain ⟨u, v, huv⟩ := List.append_of_mem hmem
  exact Cut_eq_none_iff.mp h ⟨u, v, by rw [huv]; simp⟩

theorem filter_ne_of_not_mem {c : Char} {s : Str} (h : c ∉ s) :
    s.filter (fun x => x != c) = s := by
  rw [List.filter_eq_self]
  intro x hx
  simp only [bne_iff_ne, ne_eq]
  intro hxc
  exact h (hxc ▸ hx)

/-- Removing every dot, as `strings.Replace(extension, ".", "", -1)` does. -/
theorem Replace_dot : ∀ (n : Nat) (s : Str), s.length ≤ n →
    Replace s [dot] [] (-1) = withoutDots s := by
  intro n
  induction n with
  | zero =>
    intro s hlen
    have hs : s = [] := List.length_eq_zero.mp (Nat.le_zero.mp hlen)
    subst hs
    rfl
  | succ n ih =>
    intro s hlen
    rw [Replace_all_eq (by simp)]
    unfold withoutDots
    cases hc : Cut [dot] s with
    | none =>
      simp only
      rw [filter_ne_of_not_mem (Cut_char_none hc)]
    | some p =>
      obtain ⟨hno, hs⟩ := @Cut_char_some dot s p.1 p.2 hc
      have hlen2 : p.2.length ≤ n := by
        rw [hs] at hlen
        simp only [List.length_append, List.length_cons] at hlen
        omega
      simp only
      rw [ih p.2 hlen2, hs, List.filter_append, filter_ne_of_not_mem hno]
      simp [withoutDots]

theorem takeWhile_append_cons_stop {p : Char → Bool} {c : Char} (hc : p c = false) :
    ∀ (x y : Str), (x ++ c :: y).takeWhile p = x.takeWhile p := by
  intro x
  induction x with
  | nil =>
    intro y
    simp [List.takeWhile, hc]
  | cons d x ih =>
    intro y
    rw [List.cons_append, List.takeWhile_cons, List.takeWhile_cons, ih y]

theorem afterLastDot_append_dot (a b : Str) : afterLastDot (a ++ dot :: b) = afterLastDot b := by
  unfold afterLastDot
  have h1 : (a ++ dot :: b).reverse = b.reverse ++ dot :: a.reverse := by simp
  rw [h1, takeWhile_append_cons_stop (by simp)]

theorem afterLastDot_of_not_mem {s : Str} (h : dot ∉ s) : afterLastDot s = s := by
  unfold afterLastDot
  have h1 : s.reverse.takeWhile (fun c => c != dot) = s.reverse := by
    rw [List.takeWhile_eq_self_iff]
    intro c hc
    simp only [bne_iff_ne, ne_eq]
    intro hcd
    exact h (hcd ▸ List.mem_reverse.mp hc)
  rw [h1, List.reverse_reverse]

/-- The last piece of `strings.Split(filename, ".")` is the text after the
last dot. -/
theorem Split_dot_getLast : ∀ (n : Nat) (s : Str), s.length ≤ n →
    Split s [dot] ≠ [] ∧ (Split s [dot]).getLastD [] = afterLastDot s := by
  intro n
  induction n with
  | zero =>
    intro s hlen
    have hs : s = [] := List.length_eq_zero.mp (Nat.le_zero.mp hlen)
    subst hs
    rw [Split_nil (by simp)]
    exact ⟨by simp, rfl⟩
  | succ n ih =>
    intro s hlen
    rw [Split_eq (by simp)]
    cases hc : Cut [dot] s with
    | none =>
      simp only
      refine ⟨by simp, ?_⟩
      rw [afterLastDot_of_not_mem (Cut_char_none hc)]
      rfl
    | some p =>
      obtain ⟨_, hs⟩ := @Cut_char_some dot s p.1 p.2 hc
      have hlen2 : p.2.length ≤ n := by
        rw [hs] at hlen
        simp only [List.length_append, List.length_cons] at hlen
        omega
      obtain ⟨hne, hlast⟩ := ih p.2 hlen2
      simp only
      refine ⟨by simp, ?_⟩
      rw [hs, afterLastDot_append_dot, ← hlast]
      cases hsp : Split p.2 [dot] with
      | nil => exact absurd hsp hne
      | cons q qs => simp [List.getLastD]

theorem includeFile_iff (config : Config) (filename : Str)
    (hne : config.FileExtensions ≠ []) :
    includeFile config filename = true ↔
      afterLastDot filename ∈ config.FileExtensions.map withoutDots := by
  unfold includeFile extensionKeys
  have h0 : ¬ config.FileExtensions.length = 0 := by
    intro h
    exact hne (List.length_eq_zero.mp h)
  rw [if_neg h0]
  simp only [decide_eq_true_eq]
  rw [(Split_dot_getLast filename.length filename (le_refl _)).2]
  have hmap : config.FileExtensions.map (fun extension => Replace extension [dot] [] (-1)) =
      config.FileExtensions.map withoutDots := by
    apply List.map_congr_left
    intro e _
    exact Replace_dot e.length e (le_refl _)
  rw [hmap]

/-- C13 as stated fails for a configured extension with an inner dot: with
the extension `tar.gz` the file `a.targz` is included, although the text
after its last dot, `targz`, is not the configured extension. -/
theorem include_extension_counterexample :
    ¬ (∀ (config : Config) (filename : Str), config.FileExtensions ≠ [] →
        (includeFile config filename = true ↔
          afterLastDot filename ∈ config.FileExtensions.map withoutLeadingDot)) := by
  intro h
  have h1 := h { sampleConfig with FileExtensions := ["tar.gz".toList] } "a.targz".toList
    (by decide)
  revert h1
  decide

/-- C13, amended: when `fileExtensions` is not empty, a file name is
included if and only if the text after its last dot (the whole name when it
has no dot) is, compared exactly, one of the configured extensions with all
their dots removed. -/
theorem include_extension (config : Config) (filename : Str)
    (hne : config.FileExtensions ≠ []) :
    includeFile config filename = true ↔
      afterLastDot filename ∈ config.FileExtensions.map withoutDots :=
  includeFile_iff config filename hne

theorem include_extension_witness :
    (includeFile { sampleConfig with FileExtensions := [".go".toList, "tar.gz".toList] }
        "main.test.go".toList = true ↔
      "go".toList ∈ ["go".toList, "targz".toList]) ∧
    includeFile { sampleConfig with FileExtensions := [".go".toList, "tar.gz".toList] }
        "a.tar.gz".toList = false :=
  ⟨include_extension { sampleConfig with FileExtensions := [".go".toList, "tar.gz".toList] }
      "main.test.go".toList (by decide),
   by decide⟩

/-- C14: when `fileExtensions` is empty, every file name is included, with
or without a dot. -/
theorem include_all_when_no_extension (config : Config) (filename : Str)
    (hempty : config.FileExtensions = []) : includeFile config filename = true := by
  unfold includeFile
  rw [hempty]
  rfl

theorem include_all_when_no_extension_witness :
    includeFile sampleConfig "Makefile".toList = true ∧
    includeFile sampleConfig "a.tar.gz".toList = true :=
  ⟨include_all_when_no_extension sampleConfig "Makefile".toList rfl,
   include_all_when_no_extension sampleConfig "a.tar.gz".toList rfl⟩

/-! ## The order of the report -/

theorem Compare_neg_iff : ∀ (a b : Str),
    Compare a b < 0 ↔ List.Lex (fun x y : Char => x < y) a b := by
  intro a
  induction a with
  | nil =>
    intro b
    cases b with
    | nil =>
      simp only [Compare, lt_self_iff_false, false_iff]
      exact List.Lex.not_nil_right _ _
    | cons d bs =>
      simp only [Compare, Int.reduceNeg, Left.neg_neg_iff, zero_lt_one, true_iff]
      exact List.Lex.nil
  | cons c as ih =>
    intro b
    cases b with
    | nil =>
      simp only [Compare, false_iff]
      constructor
      · intro h; omega
      · intro h; exact absurd h (List.Lex.not_nil_right _ _)
    | cons d bs =>
      simp only [Compare]
      by_cases h1 : c < d
      · simp only [h1, if_true, Int.reduceNeg, Left.neg_neg_iff, zero_lt_one, true_iff]
        exact List.Lex.rel h1
      · by_cases h2 : d < c
        · simp only [h1, h2, if_false, if_true, false_iff]
          constructor
          · intro h; omega
          · intro h
            cases h with
            | cons h3 => exact absurd h2 (lt_irrefl _)
            | rel h3 => exact absurd h3 h1
        · have heq : c = d := le_antisymm (not_lt.mp h2) (not_lt.mp h1)
          subst heq
          simp only [h1, if_false, ih bs]
          constructor
          · intro h; exact List.Lex.cons h
          · intro h
            cases h with
            | cons h3 => exact h3
            | rel h3 => exact absurd h3 h1

theorem Compare_swap : ∀ (a b : Str), Compare b a = - Compare a b := by
  intro a
  induction a with
  | nil =>
    intro b
    cases b with
    | nil => rfl
    | cons d bs => rfl
  | cons c as ih =>
    intro b
    cases b with
    | nil => rfl
    | cons d bs =>
      simp only [Compare]
      by_cases h1 : c < d
      · have h2 : ¬ d < c := lt_asymm h1
        simp [h1, h2]
      · by_cases h2 : d < c
        · simp [h1, h2]
        · simp [h1, h2, ih bs]

theorem Compare_pos_iff (a b : Str) :
    0 < Compare a b ↔ List.Lex (fun x y : Char => x < y) b a := by
  rw [← Compare_neg_iff, Compare_swap a b]
  omega

theorem Compare_eq_zero_iff : ∀ (a b : Str), Compare a b = 0 ↔ a = b := by
  intro a
  induction a with
  | nil =>
    intro b
    cases b with
    | nil => simp [Compare]
    | cons d bs => simp [Compare]
  | cons c as ih =>
    intro b
    cases b with
    | nil => simp [Compare]
    | cons d bs =>
      simp only [Compare]
      by_cases h1 : c < d
      · simp only [h1, if_true, Int.reduceNeg, List.cons.injEq]
        constructor
        · intro h; omega
        · intro h; rw [h.1] at h1; exact absurd h1 (lt_irrefl _)
      · by_cases h2 : d < c
        · simp only [h1, h2, if_false, if_true, List.cons.injEq]
          constructor
          · intro h; omega
          · intro h; rw [h.1] at h2; exact absurd h2 (lt_irrefl _)
        · have heq : c = d := le_antisymm (not_lt.mp h2) (not_lt.mp h1)
          subst heq
          simp [h1, ih bs]

theorem Less_iff_keyLt (a b : Result) : Less a b = true ↔ keyLt (sortKey a) (sortKey b) := by
  unfold keyLt sortKey
  simp only
  rw [← Compare_neg_iff, ← Compare_neg_iff, ← Compare_eq_zero_iff, ← Compare_eq_zero_iff]
  unfold Less
  simp only
  split_ifs <;> simp only [decide_eq_true_eq, true_iff, false_iff, Bool.false_eq_true] <;> omega

theorem Lex_char_irrefl (a : Str) : ¬ List.Lex (fun x y : Char => x < y) a a := by
  intro h
  have := (Compare_neg_iff a a).mpr h
  rw [(Compare_eq_zero_iff a a).mpr rfl] at this
  omega

theorem Lex_char_asymm {a b : Str} (h : List.Lex (fun x y : Char => x < y) a b) :
    ¬ List.Lex (fun x y : Char => x < y) b a := by
  intro h2
  have h3 := (Compare_neg_iff a b).mpr h
  have h4 := (Compare_pos_iff a b).mpr h2
  omega

theorem Lex_char_trichotomy (a b : Str) :
    List.Lex (fun x y : Char => x < y) a b ∨ a = b ∨ List.Lex (fun x y : Char => x < y) b a := by
  rw [← Compare_neg_iff, ← Compare_eq_zero_iff, ← Compare_pos_iff]
  omega

theorem Lex_char_trans {a b c : Str} (h1 : List.Lex (fun x y : Char => x < y) a b)
    (h2 : List.Lex (fun x y : Char => x < y) b c) : List.Lex (fun x y : Char => x < y) a c :=
  IsTrans.trans _ _ _ h1 h2

theorem keyLt_irrefl (k : Nat × Str × Str × Int) : ¬ keyLt k k := by
  unfold keyLt
  intro h
  rcases h with h | ⟨_, h | ⟨_, h | ⟨_, h⟩⟩⟩
  · exact lt_irrefl _ h
  · exact Lex_char_irrefl _ h
  · exact Lex_char_irrefl _ h
  · exact lt_irrefl _ h

theorem keyLt_trans {k1 k2 k3 : Nat × Str × Str × Int} (h1 : keyLt k1 k2) (h2 : keyLt k2 k3) :
    keyLt k1 k3 := by
  unfold keyLt at *
  rcases h1 with h1 | ⟨e1, h1⟩
  · rcases h2 with h2 | ⟨e2, _⟩
    · exact Or.inl (lt_trans h1 h2)
    · exact Or.inl (e2 ▸ h1)
  · rcases h2 with h2 | ⟨e2, h2⟩
    · exact Or.inl (e1 ▸ h2)
    · refine Or.inr ⟨e1.trans e2, ?_⟩
      rcases h1 with h1 | ⟨f1, h1⟩
      · rcases h2 with h2 | ⟨f2, _⟩
        · exact Or.inl (Lex_char_trans h1 h2)
        · exact Or.inl (f2 ▸ h1)
      · rcases h2 with h2 | ⟨f2, h2⟩
        · exact Or.inl (f1 ▸ h2)
        · refine Or.inr ⟨f1.trans f2, ?_⟩
          rcases h1 with h1 | ⟨g1, h1⟩
          · rcases h2 with h2 | ⟨g2, _⟩
            · exact Or.inl (Lex_char_trans h1 h2)
            · exact Or.inl (g2 ▸ h1)
          · rcases h2 with h2 | ⟨g2, h2⟩
            · exact Or.inl (g1 ▸ h2)
            · exact Or.inr ⟨g1.trans g2, lt_trans h1 h2⟩

theorem keyLt_trichotomy (k1 k2 : Nat × Str × Str × Int) :
    keyLt k1 k2 ∨ k1 = k2 ∨ keyLt k2 k1 := by
  obtain ⟨n1, f1, l1, i1⟩ := k1
  obtain ⟨n2, f2, l2, i2⟩ := k2
  unfold keyLt
  simp only [Prod.mk.injEq]
  rcases lt_trichotomy n1 n2 with hn | hn | hn
  · exact Or.inl (Or.inl hn)
  · rcases Lex_char_trichotomy f1 f2 with hf | hf | hf
    · exact Or.inl (Or.inr ⟨hn, Or.inl hf⟩)
    · rcases Lex_char_trichotomy l1 l2 with hl | hl | hl
      · exact Or.inl (Or.inr ⟨hn, Or.inr ⟨hf, Or.inl hl⟩⟩)
      · rcases lt_trichotomy i1 i2 with hi | hi | hi
        · exact Or.inl (Or.inr ⟨hn, Or.inr ⟨hf, Or.inr ⟨hl, hi⟩⟩⟩)
        · exact Or.inr (Or.inl ⟨hn, hf, hl, hi⟩)
        · exact Or.inr (Or.inr (Or.inr ⟨hn.symm, Or.inr ⟨hf.symm, Or.inr ⟨hl.symm, hi⟩⟩⟩))
      · exact Or.inr (Or.inr (Or.inr ⟨hn.symm, Or.inr ⟨hf.symm, Or.inl hl⟩⟩))
    · exact Or.inr (Or.inr (Or.inr ⟨hn.symm, Or.inl hf⟩))
  · exact Or.inr (Or.inr (Or.inl hn))

theorem sortKey_eq_iff (a b : Result) : sortKey a = sortKey b ↔ reportKey a = reportKey b := by
  unfold sortKey reportKey
  simp only [Prod.mk.injEq]
  constructor
  · intro h
    exact h.2
  · intro h
    exact ⟨by rw [h.1], h⟩

theorem Less_false_iff (a b : Result) : Less a b = false ↔ ¬ keyLt (sortKey a) (sortKey b) := by
  rw [← Less_iff_keyLt]
  simp

/-- Two results are ordered in neither direction exactly when the order
cannot tell them apart. -/
theorem Less_incomparable_iff (a b : Result) :
    (Less a b = false ∧ Less b a = false) ↔ reportKey a = reportKey b := by
  rw [Less_false_iff, Less_false_iff, ← sortKey_eq_iff]
  constructor
  · intro h
    rcases keyLt_trichotomy (sortKey a) (sortKey b) with h1 | h1 | h1
    · exact absurd h1 h.1
    · exact h1
    · exact absurd h1 h.2
  · intro h
    rw [h]
    exact ⟨keyLt_irrefl _, keyLt_irrefl _⟩

/-- C15: `ResultSlice.Less` is the strict lexicographic order on the key
(length of the file name, file name, label, line number), strings being
compared lexicographically; it is irreflexive and transitive, and two
results are ordered in neither direction if and only if they have the same
file name, label and line number (the body is never compared). -/
theorem less_is_lexicographic :
    (∀ a b : Result, Less a b = true ↔ keyLt (sortKey a) (sortKey b)) ∧
    (∀ a : Result, Less a a = false) ∧
    (∀ a b c : Result, Less a b = true → Less b c = true → Less a c = true) ∧
    (∀ a b : Result, (Less a b = false ∧ Less b a = false) ↔
      (a.filename = b.filename ∧ a.label = b.label ∧ a.lineNumber = b.lineNumber)) := by
  refine ⟨Less_iff_keyLt, ?_, ?_, ?_⟩
  · intro a
    rw [Less_false_iff]
    exact keyLt_irrefl _
  · intro a b c h1 h2
    rw [Less_iff_keyLt] at *
    exact keyLt_trans h1 h2
  · intro a b
    rw [Less_incomparable_iff]
    unfold reportKey
    simp only [Prod.mk.injEq]

theorem less_is_lexicographic_witness :
    Less { label := "TODO".toList, body := "x".toList, filename := "b.go".toList, lineNumber := 9 }
      { label := "FIXME".toList, body := "y".toList, filename := "aa.go".toList, lineNumber := 1 }
      = true ∧
    Less { label := "FIXME".toList, body := "y".toList, filename := "ab.go".toList, lineNumber := 5 }
      { label := "TODO".toList, body := "x".toList, filename := "ab.go".toList, lineNumber := 2 }
      = true ∧
    Less { label := "TODO".toList, body := "x".toList, filename := "b.go".toList, lineNumber := 9 }
      { label := "TODO".toList, body := "x".toList, filename := "ab.go".toList, lineNumber := 2 }
      = true :=
  ⟨by decide, by decide,
   less_is_lexicographic.2.2.1
     { label := "TODO".toList, body := "x".toList, filename := "b.go".toList, lineNumber := 9 }
     { label := "FIXME".toList, body := "y".toList, filename := "ab.go".toList, lineNumber := 5 }
     { label := "TODO".toList, body := "x".toList, filename := "ab.go".toList, lineNumber := 2 }
     (by decide) (by decide)⟩

theorem map_eq_of_inj_on {α β : Type} (f : α → β) : ∀ (s1 s2 : List α),
    (∀ x ∈ s1, ∀ y ∈ s2, f x = f y → x = y) → s1.map f = s2.map f → s1 = s2 := by
  intro s1
  induction s1 with
  | nil =>
    intro s2 _ h
    cases s2 with
    | nil => rfl
    | cons y ys => simp at h
  | cons x xs ih =>
    intro s2 hinj h
    cases s2 with
    | nil => simp at h
    | cons y ys =>
      simp only [List.map_cons, List.cons.injEq] at h
      have hxy := hinj x (List.mem_cons_self _ _) y (List.mem_cons_self _ _) h.1
      have hrest := ih ys (fun a ha b hb =>
        hinj a (List.mem_cons_of_mem _ ha) b (List.mem_cons_of_mem _ hb)) h.2
      rw [hxy, hrest]

theorem sortKey_fullKey (r : Result) : sortKey r = fullKey (reportKey r) := rfl

theorem fullKey_injective {k1 k2 : Str × Str × Int} (h : fullKey k1 = fullKey k2) : k1 = k2 := by
  obtain ⟨f1, l1, i1⟩ := k1
  obtain ⟨f2, l2, i2⟩ := k2
  unfold fullKey at h
  simp only [Prod.mk.injEq] at h
  simp [h.2]

theorem keyNotAfter_trans {a b c : Str × Str × Int} (h1 : keyNotAfter a b)
    (h2 : keyNotAfter b c) : keyNotAfter a c := by
  unfold keyNotAfter at *
  intro h
  rcases keyLt_trichotomy (fullKey c) (fullKey b) with h3 | h3 | h3
  · exact h2 h3
  · rw [h3] at h
    exact h1 h
  · exact h1 (keyLt_trans h3 h)

theorem keyNotAfter_antisymm {a b : Str × Str × Int} (h1 : keyNotAfter a b)
    (h2 : keyNotAfter b a) : a = b := by
  unfold keyNotAfter at *
  rcases keyLt_trichotomy (fullKey a) (fullKey b) with h3 | h3 | h3
  · exact absurd h3 h2
  · exact fullKey_injective h3
  · exact absurd h3 h1

/-- The keys of a sorted list are pairwise in order. -/
theorem IsSorted_keys {s : List Result} (h : IsSorted s) :
    (s.map reportKey).Pairwise keyNotAfter := by
  haveI : IsTrans (Str × Str × Int) keyNotAfter := ⟨fun _ _ _ => keyNotAfter_trans⟩
  rw [← List.chain'_iff_pairwise, List.chain'_map]
  unfold IsSorted at h
  refine List.Chain'.imp ?_ h
  intro x y hxy
  unfold keyNotAfter
  rw [← sortKey_fullKey, ← sortKey_fullKey]
  exact (Less_false_iff y x).mp hxy

/-- C16: the sorted order does not depend on the order in which the results
were collected: when two result lists are permutations of each other, any
sorted arrangement of the one and any sorted arrangement of the other have
the same sequence of keys (file name, label, line number); and they are the
same list when no two distinct results of the input share file name, label
and line number. -/
theorem sorted_order_independent (l1 l2 s1 s2 : List Result) (hperm : l1.Perm l2)
    (h1 : SortedBy l1 s1) (h2 : SortedBy l2 s2) :
    s1.map reportKey = s2.map reportKey ∧
    ((∀ x ∈ l1, ∀ y ∈ l1, reportKey x = reportKey y → x = y) → s1 = s2) := by
  haveI : IsAntisymm (Str × Str × Int) keyNotAfter := ⟨fun _ _ => keyNotAfter_antisymm⟩
  have hp : s1.Perm s2 := (h1.1.trans hperm).trans h2.1.symm
  have hkeys : s1.map reportKey = s2.map reportKey :=
    List.eq_of_perm_of_sorted (hp.map reportKey) (IsSorted_keys h1.2) (IsSorted_keys h2.2)
  refine ⟨hkeys, ?_⟩
  intro hinj
  apply map_eq_of_inj_on reportKey s1 s2 _ hkeys
  intro x hx y hy hxy
  exact hinj x (h1.1.subset hx) y ((h2.1.trans hperm.symm).subset hy) hxy

theorem sorted_order_independent_witness :
    [({ label := "TODO".toList, body := "x".toList, filename := "a.go".toList
        lineNumber := 2 } : Result),
     { label := "TODO".toList, body := "y".toList, filename := "bb.go".toList
       lineNumber := 1 }].map reportKey
      = [({ label := "TODO".toList, body := "x".toList, filename := "a.go".toList
            lineNumber := 2 } : Result),
         { label := "TODO".toList, body := "y".toList, filename := "bb.go".toList
           lineNumber := 1 }].map reportKey :=
  (sorted_order_independent
    [{ label := "TODO".toList, body := "y".toList, filename := "bb.go".toList, lineNumber := 1 },
     { label := "TODO".toList, body := "x".toList, filename := "a.go".toList, lineNumber := 2 }]
    [{ label := "TODO".toList, body := "x".toList, filename := "a.go".toList, lineNumber := 2 },
     { label := "TODO".toList, body := "y".toList, filename := "bb.go".toList, lineNumber := 1 }]
    [{ label := "TODO".toList, body := "x".toList, filename := "a.go".toList, lineNumber := 2 },
     { label := "TODO".toList, body := "y".toList, filename := "bb.go".toList, lineNumber := 1 }]
    [{ label := "TODO".toList, body := "x".toList, filename := "a.go".toList, lineNumber := 2 },
     { label := "TODO".toList, body := "y".toList, filename := "bb.go".toList, lineNumber := 1 }]
    (List.Perm.swap _ _ _)
    ⟨List.Perm.swap _ _ _, by unfold IsSorted; simp only [List.chain'_cons, List.chain'_singleton, and_true]; decide⟩
    ⟨List.Perm.refl _, by unfold IsSorted; simp only [List.chain'_cons, List.chain'_singleton, and_true]; decide⟩).1

/-! ## The directory walk -/

theorem scanAll_append (config : Config) : ∀ (a b : List TreeFile),
    scanAll config (a ++ b) =
      (scanAll config a).bind (fun r1 => (scanAll config b).map (fun r2 => r1 ++ r2)) := by
  intro a
  induction a with
  | nil =>
    intro b
    simp only [List.nil_append, scanAll, Option.some_bind]
    cases scanAll config b with
    | none => rfl
    | some r => simp
  | cons f a ih =>
    intro b
    simp only [List.cons_append, scanAll, List.append_eq]
    cases parseFileForResults f.path config f.lines with
    | none => rfl
    | some rs =>
      simp only
      rw [ih b]
      cases scanAll config a with
      | none => rfl
      | some r1 =>
        simp only [Option.map_some', Option.some_bind]
        cases scanAll config b with
        | none => rfl
        | some r2 => simp

theorem crawlFiles_eq (directory : Str) (incl : Str → Bool) (config : Config) :
    ∀ (entries : Entries),
    crawlFiles directory incl config entries =
      scanAll config (listedFiles directory incl entries)
  | Entries.nil => rfl
  | Entries.cons (Entry.file name lines) rest => by
    simp only [crawlFiles, listedFiles]
    by_cases h : incl name = true
    · simp only [h, if_true, scanAll]
      rw [crawlFiles_eq directory incl config rest]
    · simp only [h, if_false, Bool.false_eq_true]
      exact crawlFiles_eq directory incl config rest
  | Entries.cons (Entry.dir _ _) rest => by
    simp only [crawlFiles, listedFiles]
    exact crawlFiles_eq directory incl config rest

mutual
theorem crawlDir_eq (incl : Str → Bool) (config : Config) :
    ∀ (directory : Str) (entry : Entry),
    crawlDir directory incl config entry = scanAll config (subdirFiles directory incl entry)
  | _, Entry.file _ _ => by
    simp [crawlDir, subdirFiles, scanAll]
  | directory, Entry.dir name entries => by
    simp only [crawlDir, subdirFiles]
    rw [scanAll_append, crawlFiles_eq, crawlDirs_eq incl config (joinPath directory name) entries]
    cases scanAll config (listedFiles (joinPath directory name) incl entries) with
    | none => rfl
    | some rs => rfl
theorem crawlDirs_eq (incl : Str → Bool) (config : Config) :
    ∀ (directory : Str) (entries : Entries),
    crawlDirs directory incl config entries =
      scanAll config (subdirsFiles directory incl entries)
  | _, Entries.nil => by
    simp [crawlDirs, subdirsFiles, scanAll]
  | directory, Entries.cons entry rest => by
    simp only [crawlDirs, subdirsFiles]
    rw [scanAll_append, crawlDir_eq incl config directory entry,
      crawlDirs_eq incl config directory rest]
    cases scanAll config (subdirFiles directory incl entry) with
    | none => rfl
    | some rs => rfl
end

theorem crawlAndCollect_eq (directory : Str) (incl : Str → Bool) (config : Config)
    (entries : Entries) :
    crawlAndCollect directory incl config entries =
      scanAll config (listedFiles directory incl entries ++
        subdirsFiles directory incl entries) := by
  unfold crawlAndCollect
  rw [scanAll_append, crawlFiles_eq, crawlDirs_eq]
  cases scanAll config (listedFiles directory incl entries) with
  | none => rfl
  | some rs => rfl

mutual
theorem subdirFiles_perm (incl : Str → Bool) :
    ∀ (directory : Str) (entry : Entry),
    ((match entry with
      | Entry.file name lines =>
        if incl name then
          [({ path := joinPath directory name, name := name, lines := lines } : TreeFile)]
        else []
      | Entry.dir _ _ => []) ++ subdirFiles directory incl entry).Perm
      ((entryFilesAt directory entry).filter (fun f => incl f.name))
  | directory, Entry.file name lines => by
    simp only [subdirFiles, entryFilesAt, List.append_nil]
    by_cases h : incl name = true
    · simp [h]
    · simp [h]
  | directory, Entry.dir name entries => by
    simp only [subdirFiles, entryFilesAt, List.nil_append]
    exact scanned_perm incl (joinPath directory name) entries
theorem scanned_perm (incl : Str → Bool) :
    ∀ (directory : Str) (entries : Entries),
    (listedFiles directory incl entries ++ subdirsFiles directory incl entries).Perm
      ((entriesFilesAt directory entries).filter (fun f => incl f.name))
  | _, Entries.nil => by
    simp [listedFiles, subdirsFiles, entriesFilesAt]
  | directory, Entries.cons (Entry.file name lines) rest => by
    have h1 := subdirFiles_perm incl directory (Entry.file name lines)
    have h2 := scanned_perm incl directory rest
    simp only [subdirFiles, List.append_nil] at h1
    simp only [listedFiles, subdirsFiles, subdirFiles, entriesFilesAt, List.nil_append,
      List.filter_append]
    by_cases h : incl name = true
    · simp only [h, if_true] at h1 ⊢
      have h3 := List.Perm.append h1 h2
      simpa using h3
    · simp only [h, if_false, Bool.false_eq_true] at h1 ⊢
      have h3 := List.Perm.append h1 h2
      simpa using h3
  | directory, Entries.cons (Entry.dir name sub) rest => by
    have h1 := subdirFiles_perm incl directory (Entry.dir name sub)
    have h2 := scanned_perm incl directory rest
    simp only [List.nil_append] at h1
    simp only [listedFiles, subdirsFiles, entriesFilesAt, List.filter_append]
    refine List.Perm.trans ?_ (List.Perm.append h1 h2)
    rw [← List.append_assoc, ← List.append_assoc]
    exact List.Perm.append_right _ List.perm_append_comm
end

theorem matchResult_filename {pr fp : Str} {e : Int} {cfg : Config} {label m : Str} {r : Result}
    (h : matchResult pr fp e cfg label m = some r) : r.filename = fp ∧ r.label = label := by
  simp only [matchResult] at h
  split at h
  · cases h
  · simp only [Option.some.injEq] at h
    rw [← h]
    exact ⟨rfl, rfl⟩

theorem parseStringForResults_filename {pr fp : Str} {e : Int} {cfg : Config}
    {rs : List Result} (h : parseStringForResults pr fp e cfg = some rs) :
    ∀ r ∈ rs, r.filename = fp := by
  intro r hr
  obtain ⟨label, m, hm⟩ := labelLoop_mem _ rs h r hr
  exact (matchResult_filename hm).1

theorem scanStep_filename {fp : Str} {cfg : Config} {st st2 : ScanState} {line : Str}
    (hst : ∀ r ∈ st.results, r.filename = fp) (h : scanStep fp cfg st line = some st2) :
    ∀ r ∈ st2.results, r.filename = fp := by
  unfold scanStep at h
  split at h
  · cases hp : parseStringForResults line fp st.lineNumber cfg with
    | none => rw [hp] at h; cases h
    | some rs =>
      rw [hp] at h
      simp only [Option.some.injEq] at h
      subst h
      intro r hr
      rcases List.mem_append.mp hr with h1 | h1
      · exact hst r h1
      · exact parseStringForResults_filename hp r h1
  · split at h
    · simp only [Option.some.injEq] at h
      subst h
      exact hst
    · split at h
      · cases hp : parseStringForResults (st.collectString ++ [nl] ++ line) fp st.lineNumber
            cfg with
        | none => simp only [hp] at h; cases h
        | some rs =>
          simp only [hp, Option.some.injEq] at h
          subst h
          intro r hr
          rcases List.mem_append.mp hr with h1 | h1
          · exact hst r h1
          · exact parseStringForResults_filename hp r h1
      · split at h
        · simp only [Option.some.injEq] at h
          subst h
          exact hst
        · simp only [Option.some.injEq] at h
          subst h
          exact hst

theorem scanLoop_filename {fp : Str} {cfg : Config} : ∀ (lines : List Str) (st st2 : ScanState),
    (∀ r ∈ st.results, r.filename = fp) → scanLoop fp cfg st lines = some st2 →
    ∀ r ∈ st2.results, r.filename = fp := by
  intro lines
  induction lines with
  | nil =>
    intro st st2 hst h
    simp only [scanLoop, Option.some.injEq] at h
    subst h
    exact hst
  | cons line rest ih =>
    intro st st2 hst h
    simp only [scanLoop] at h
    cases hstep : scanStep fp cfg st line with
    | none => rw [hstep] at h; cases h
    | some st1 =>
      rw [hstep] at h
      exact ih st1 st2 (scanStep_filename hst hstep) h

/-- Every result of a file carries the path the file was scanned under. -/
theorem parseFileForResults_filename {fp : Str} {cfg : Config} {lines : List Str}
    {rs : List Result} (h : parseFileForResults fp cfg lines = some rs) :
    ∀ r ∈ rs, r.filename = fp := by
  unfold parseFileForResults at h
  cases hst : scanLoop fp cfg initialState lines with
  | none => rw [hst] at h; cases h
  | some st =>
    rw [hst] at h
    simp only [Option.map_some', Option.some.injEq] at h
    subst h
    exact scanLoop_filename lines initialState st (fun r hr => by cases hr) hst

theorem scanAll_filename (config : Config) : ∀ (files : List TreeFile) (rs : List Result),
    scanAll config files = some rs → ∀ r ∈ rs, ∃ f ∈ files, r.filename = f.path := by
  intro files
  induction files with
  | nil =>
    intro rs h r hr
    simp only [scanAll, Option.some.injEq] at h
    subst h
    cases hr
  | cons f files ih =>
    intro rs h r hr
    simp only [scanAll] at h
    cases hp : parseFileForResults f.path config f.lines with
    | none => rw [hp] at h; cases h
    | some rs1 =>
      rw [hp] at h
      cases hrest : scanAll config files with
      | none => rw [hrest] at h; cases h
      | some rs2 =>
        rw [hrest] at h
        simp only [Option.map_some', Option.some.injEq] at h
        subst h
        rcases List.mem_append.mp hr with h1 | h1
        · exact ⟨f, List.mem_cons_self _ _, parseFileForResults_filename hp r h1⟩
        · obtain ⟨g, hg, hgr⟩ := ih rs2 hrest r h1
          exact ⟨g, List.mem_cons_of_mem _ hg, hgr⟩

theorem treePath_root (root : Str) : treePath root [] = root := by
  simp [treePath, List.intercalate]

theorem intercalate_concat (sep : Str) : ∀ (xs : List Str) (x0 x : Str),
    List.intercalate sep (x0 :: (xs ++ [x])) = List.intercalate sep (x0 :: xs) ++ sep ++ x := by
  intro xs
  induction xs with
  | nil =>
    intro x0 x
    simp [List.intercalate]
  | cons y ys ih =>
    intro x0 x
    have h1 : ∀ (a b : Str) (l : List Str),
        List.intercalate sep (a :: b :: l) = a ++ sep ++ List.intercalate sep (b :: l) := by
      intro a b l
      simp [List.intercalate]
    rw [List.cons_append, h1, ih y x, h1]
    simp

theorem treePath_concat (root : Str) (above : List Str) (name : Str) :
    treePath root (above ++ [name]) = joinPath (treePath root above) name := by
  unfold treePath joinPath
  exact intercalate_concat _ above root name

mutual
theorem entryFiles_eq (root : Str) :
    ∀ (above : List Str) (entry : Entry),
    entryFiles root above entry = entryFilesAt (treePath root above) entry
  | above, Entry.file name lines => by
    simp only [entryFiles, entryFilesAt, treePath_concat]
  | above, Entry.dir name entries => by
    simp only [entryFiles, entryFilesAt]
    rw [entriesFiles_eq root (above ++ [name]) entries, treePath_concat]
theorem entriesFiles_eq (root : Str) :
    ∀ (above : List Str) (entries : Entries),
    entriesFiles root above entries = entriesFilesAt (treePath root above) entries
  | _, Entries.nil => by
    simp only [entriesFiles, entriesFilesAt]
  | above, Entries.cons entry rest => by
    simp only [entriesFiles, entriesFilesAt]
    rw [entryFiles_eq root above entry, entriesFiles_eq root above rest]
end

/-- C17: on a directory tree `crawlAndCollect` scans exactly the files, at
any depth, whose entry name satisfies `incl`, each once: its result is the
concatenation of the results of a list of files that is a rearrangement of
the files of the tree with an included name (subdirectories are entered
whatever their name); every file is scanned under the root path followed by
the entry names on the way down, joined by `/`, and that path is the file
name of its results. -/
theorem crawl_scans_included_files (directory : Str) (incl : Str → Bool) (config : Config)
    (entries : Entries) :
    ∃ scanned : List TreeFile,
      scanned.Perm ((entriesFiles directory [] entries).filter (fun f => incl f.name)) ∧
      crawlAndCollect directory incl config entries = scanAll config scanned ∧
      ∀ rs, crawlAndCollect directory incl config entries = some rs →
        ∀ r ∈ rs, ∃ f ∈ entriesFiles directory [] entries, incl f.name = true ∧
          r.filename = f.path := by
  have hperm := scanned_perm incl directory entries
  rw [← treePath_root directory, ← entriesFiles_eq directory [] entries,
    treePath_root directory] at hperm
  refine ⟨listedFiles directory incl entries ++ subdirsFiles directory incl entries,
    hperm, crawlAndCollect_eq directory incl config entries, ?_⟩
  intro rs hrs r hr
  rw [crawlAndCollect_eq] at hrs
  obtain ⟨f, hf, hfr⟩ := scanAll_filename config _ rs hrs r hr
  have hmem := hperm.subset hf
  rw [List.mem_filter] at hmem
  exact ⟨f, hmem.1, hmem.2, hfr⟩

theorem crawl_scans_included_files_witness :
    getResults ".".toList { sampleConfig with FileExtensions := ["go".toList] } sampleTree
      = some [{ label := "TODO".toList, body := "a".toList, filename := "./a.go".toList
                lineNumber := 1 },
              { label := "TODO".toList, body := "d".toList, filename := "./d.go".toList
                lineNumber := 1 },
              { label := "TODO".toList, body := "b".toList, filename := "./sub.d/b.go".toList
                lineNumber := 1 }] ∧
    (entriesFiles ".".toList [] sampleTree).map (fun f => f.path)
      = ["./a.go".toList, "./sub.d/b.go".toList, "./sub.d/c.txt".toList, "./d.go".toList] ∧
    ∃ scanned : List TreeFile,
      scanned.Perm ((entriesFiles ".".toList [] sampleTree).filter
        (fun f => includeFile { sampleConfig with FileExtensions := ["go".toList] } f.name)) ∧
      crawlAndCollect ".".toList
          (includeFile { sampleConfig with FileExtensions := ["go".toList] })
          { sampleConfig with FileExtensions := ["go".toList] } sampleTree
        = scanAll { sampleConfig with FileExtensions := ["go".toList] } scanned ∧
      ∀ rs, crawlAndCollect ".".toList
          (includeFile { sampleConfig with FileExtensions := ["go".toList] })
          { sampleConfig with FileExtensions := ["go".toList] } sampleTree = some rs →
        ∀ r ∈ rs, ∃ f ∈ entriesFiles ".".toList [] sampleTree,
          includeFile { sampleConfig with FileExtensions := ["go".toList] } f.name = true ∧
          r.filename = f.path :=
  ⟨by decide, by decide,
   crawl_scans_included_files ".".toList
     (includeFile { sampleConfig with FileExtensions := ["go".toList] })
     { sampleConfig with FileExtensions := ["go".toList] } sampleTree⟩

/-! ## Blocks of several lines -/

theorem accumulated_cons (l : Str) (ls : List Str) :
    accumulated (l :: ls) = nl :: (l ++ accumulated ls) := by
  simp [accumulated]

theorem accumulated_nil : accumulated [] = [] := rfl

/-- A text without line break that occurs in `l ++ nl :: z` occurs in `l` or
in `z`. -/
theorem infix_append_nl {sep l z : Str} (hsep : nl ∉ sep) (h : sep <:+: l ++ nl :: z) :
    sep <:+: l ∨ sep <:+: z := by
  by_cases hs0 : sep = []
  · rw [hs0]
    exact Or.inl List.nil_infix
  obtain ⟨a, t, heq⟩ := h
  rw [List.append_assoc] at heq
  rcases List.append_eq_append_iff.mp heq with ⟨m, hm, hm2⟩ | ⟨m, hm, hm2⟩
  · left
    rcases List.append_eq_append_iff.mp hm2 with ⟨k, hk, _⟩ | ⟨k, hk, hk2⟩
    · exact ⟨a, k, by rw [hm, hk, List.append_assoc]⟩
    · cases k with
      | nil =>
        refine ⟨a, [], ?_⟩
        rw [hm, hk]
        simp
      | cons d k =>
        exfalso
        apply hsep
        simp only [List.cons_append, List.cons.injEq] at hk2
        rw [hk, hk2.1]
        simp
  · right
    cases m with
    | nil =>
      exfalso
      simp only [List.nil_append] at hm2
      cases sep with
      | nil => exact hs0 rfl
      | cons c sep =>
        simp only [List.cons_append, List.cons.injEq] at hm2
        apply hsep
        rw [← hm2.1]
        simp
    | cons d m =>
      simp only [List.cons_append, List.cons.injEq] at hm2
      exact ⟨m, t, by rw [hm2.2, List.append_assoc]⟩

/-- A text without line break that occurs in `l` followed by accumulated
lines occurs in `l` or in one of the lines. -/
theorem infix_append_accumulated {sep : Str} (hsep : nl ∉ sep) (_hne : sep ≠ []) :
    ∀ (ls : List Str) (l : Str), sep <:+: l ++ accumulated ls →
    sep <:+: l ∨ ∃ x ∈ ls, sep <:+: x := by
  intro ls
  induction ls with
  | nil =>
    intro l h
    rw [accumulated_nil, List.append_nil] at h
    exact Or.inl h
  | cons l1 ls ih =>
    intro l h
    rw [accumulated_cons] at h
    rcases infix_append_nl hsep h with h1 | h1
    · exact Or.inl h1
    · rcases ih l1 h1 with h2 | ⟨x, hx, h2⟩
      · exact Or.inr ⟨l1, List.mem_cons_self _ _, h2⟩
      · exact Or.inr ⟨x, List.mem_cons_of_mem _ hx, h2⟩

theorem infix_accumulated {sep : Str} (hsep : nl ∉ sep) (hne : sep ≠ []) (ls : List Str)
    (h : sep <:+: accumulated ls) : ∃ x ∈ ls, sep <:+: x := by
  rcases infix_append_accumulated hsep hne ls [] (by simpa using h) with h1 | h1
  · exact absurd (List.eq_nil_of_infix_nil h1) hne
  · exact h1

theorem Split_append_accumulated : ∀ (ls : List Str) (l : Str), nl ∉ l →
    (∀ x ∈ ls, nl ∉ x) → Split (l ++ accumulated ls) [nl] = l :: ls := by
  intro ls
  induction ls with
  | nil =>
    intro l hl _
    rw [accumulated_nil, List.append_nil, Split_nl_line hl]
  | cons l1 ls ih =>
    intro l hl h
    rw [accumulated_cons, Split_nl_cons _ hl,
      ih l1 (h l1 (List.mem_cons_self _ _)) (fun x hx => h x (List.mem_cons_of_mem _ hx))]

/-- The matches in an accumulated block are those of its lines, in order. -/
theorem FindAllString_accumulated {label : Str} (hl : label ≠ []) (hnl : nl ∉ label)
    (ls : List Str) (h : ∀ x ∈ ls, nl ∉ x) :
    FindAllString label (accumulated ls) = ls.filterMap (lineMatch label) := by
  have h1 := FindAllString_lines hl hnl (accumulated ls).length (accumulated ls) (le_refl _)
  have h2 := Split_append_accumulated ls [] (by simp) h
  rw [List.nil_append] at h2
  rw [h1, h2, List.filterMap_cons]
  have h3 : lineMatch label [] = none := by
    unfold lineMatch
    rw [Cut_nil, if_neg hl]
    rfl
  rw [h3]

theorem lineMatch_none {label line : Str} (h : ¬ label <:+: line) :
    lineMatch label line = none := by
  unfold lineMatch
  rw [Cut_eq_none_iff.mpr h]
  rfl

theorem filterMap_lineMatch_nil {label : Str} (ls : List Str) (h : ∀ x ∈ ls, ¬ label <:+: x) :
    ls.filterMap (lineMatch label) = [] := by
  rw [List.filterMap_eq_nil_iff]
  intro x hx
  exact lineMatch_none (h x hx)

theorem lineMatch_first {label a rest : Str} (hl : label ≠ [])
    (hfirst : ¬ label <:+: a ++ label.dropLast) :
    lineMatch label (a ++ label ++ rest) = some (label ++ rest) := by
  unfold lineMatch
  rw [Cut_first hl a rest (first_of_not_infix_dropLast hfirst rest)]
  rfl

/-- The text before the label in the block of the lines `b1`, then the line
`a ++ label ++ rest`: the label does not occur earlier. -/
theorem block_first_label {label a : Str} {b1 : List Str} (hl : label ≠ []) (hnl : nl ∉ label)
    (hb1 : ∀ x ∈ b1, ¬ label <:+: x) (hfirst : ¬ label <:+: a ++ label.dropLast) :
    ¬ label <:+: (accumulated b1 ++ nl :: a) ++ label.dropLast := by
  intro h
  have heq : (accumulated b1 ++ nl :: a) ++ label.dropLast =
      accumulated (b1 ++ [a ++ label.dropLast]) := by
    rw [accumulated_append, accumulated_singleton]
    simp
  rw [heq] at h
  obtain ⟨x, hx, hinf⟩ := infix_accumulated hnl hl _ h
  rcases List.mem_append.mp hx with h1 | h1
  · exact hb1 x h1 hinf
  · rw [List.mem_singleton.mp h1] at hinf
    exact hfirst hinf

/-- What removing the end delimiter leaves of a match in which the
delimiter occurs at most as a suffix, after the label: the match without that
suffix. -/
theorem strip_suffix_delimiter {label rest dEnd : Str} (hl : label ≠ [])
    (hEnd : ∀ x y, x ++ dEnd ++ y = label ++ rest → y = [] ∧ label.length ≤ x.length) :
    ∃ r2 e2 : Str, Replace (label ++ rest) dEnd [] (-1) = label ++ r2 ∧
      label ++ rest = (label ++ r2) ++ e2 ∧ (e2 = [] ∨ e2 = dEnd) := by
  by_cases hinf : dEnd <:+: label ++ rest
  · obtain ⟨x, y, hxy⟩ := hinf
    obtain ⟨hy, hlen⟩ := hEnd x y hxy
    subst hy
    rw [List.append_nil] at hxy
    have hne : dEnd ≠ [] := by
      intro h0
      have := hEnd [] (label ++ rest) (by rw [h0]; simp)
      have h2 := this.1
      simp only [List.append_eq_nil] at h2
      exact hl h2.1
    have hpre : label <+: x := by
      apply List.prefix_of_prefix_length_le (List.prefix_append label rest) _ hlen
      rw [← hxy]
      exact List.prefix_append x dEnd
    obtain ⟨r2, hr2⟩ := hpre
    refine ⟨r2, dEnd, ?_, ?_, Or.inr rfl⟩
    · rw [Replace_all_eq hne]
      have hcut : Cut dEnd (label ++ rest) = some (x, []) := by
        have := Cut_first hne x [] (by
          intro a2 t2 heq
          have h3 := hEnd a2 t2 (by rw [heq, List.append_nil, hxy])
          have h4 := congrArg List.length heq
          rw [h3.1] at h4
          simp only [List.length_append, List.length_nil] at h4
          omega)
        rw [List.append_nil, hxy] at this
        exact this
      rw [hcut]
      simp only
      rw [Replace_all_eq hne, Cut_nil, if_neg hne, List.append_nil, hr2]
    · rw [hr2, hxy]
  · refine ⟨rest, [], Replace_of_not_infix _ _ hinf, by simp, Or.inl rfl⟩

theorem count_nl_eq_zero {y w : Str} (h : y <:+: w) (hw : nl ∉ w) : y.count nl = 0 := by
  rw [List.count_eq_zero]
  intro hmem
  exact hw (h.subset hmem)

/-- Extraction from the block of the lines `b1`, the line `a ++ label ++ rest`
and the lines `b2`, when the label occurs on that line only and the end
delimiter follows the label at most as a suffix of the line: one result,
on the line of the label. -/
theorem block_one_label_result {label a rest fp : Str} {e : Int} {cfg : Config}
    {b1 b2 : List Str} (hl : label ≠ [])
    (hfree : ∀ x ∈ b1 ++ [a ++ label ++ rest] ++ b2, nl ∉ x)
    (hb1 : ∀ x ∈ b1, ¬ label <:+: x) (hb2 : ∀ x ∈ b2, ¬ label <:+: x)
    (hfirst : ¬ label <:+: a ++ label.dropLast)
    (hEnd : ∀ x y, x ++ cfg.MultiLineDelimEnd ++ y = label ++ rest →
      y = [] ∧ label.length ≤ x.length)
    (hclose : b2 ≠ [] → ∃ x ∈ b2, cfg.MultiLineDelimEnd <:+: x) :
    ∃ body : Str,
      parseStringForResults (accumulated (b1 ++ [a ++ label ++ rest] ++ b2)) fp e
          (withLabels cfg [label])
        = some [{ label := label, body := body, filename := fp
                  lineNumber := e - (b2.length : Nat) }] := by
  have hline : nl ∉ a ++ label ++ rest := hfree _ (by simp)
  have hnl : nl ∉ label := fun h =>
    hline (List.mem_append_left _ (List.mem_append_right _ h))
  have hrestnl : nl ∉ rest := fun h => hline (List.mem_append_right _ h)
  have hb2free : ∀ x ∈ b2, nl ∉ x := fun x hx => hfree x (List.mem_append_right _ hx)
  -- the matches
  have hfind : FindAllString label (accumulated (b1 ++ [a ++ label ++ rest] ++ b2)) =
      [label ++ rest] := by
    rw [FindAllString_accumulated hl hnl _ hfree, List.filterMap_append, List.filterMap_append,
      filterMap_lineMatch_nil b1 hb1, filterMap_lineMatch_nil b2 hb2]
    simp only [List.filterMap_cons, List.filterMap_nil, lineMatch_first hl hfirst,
      List.nil_append, List.append_nil]
  -- the match without end delimiter
  obtain ⟨r2, e2, hrep, hm, he2⟩ := strip_suffix_delimiter hl hEnd
  have he2nl : nl ∉ e2 := by
    intro h
    apply hnl.elim
    exfalso
    have h5 : nl ∈ label ++ rest := by
      rw [hm]
      exact List.mem_append_right _ h
    rcases List.mem_append.mp h5 with h6 | h6
    · exact hnl h6
    · exact hrestnl h6
  have ht : label ++ r2 ≠ [] := by simp [hl]
  -- the block around the first instance
  have hblock : accumulated (b1 ++ [a ++ label ++ rest] ++ b2) =
      (accumulated b1 ++ nl :: a) ++ (label ++ r2) ++ (e2 ++ accumulated b2) := by
    rw [accumulated_append, accumulated_append, accumulated_singleton]
    have : a ++ label ++ rest = a ++ ((label ++ r2) ++ e2) := by
      rw [← hm, List.append_assoc]
    rw [this]
    simp
  have hminl := first_of_not_infix_dropLast (block_first_label hl hnl hb1 hfirst)
  have hcut : Cut (label ++ r2) (accumulated (b1 ++ [a ++ label ++ rest] ++ b2)) =
      some (accumulated b1 ++ nl :: a, e2 ++ accumulated b2) := by
    rw [hblock]
    apply Cut_first ht
    intro a2 t2 heq
    apply hminl (r2 ++ (e2 ++ accumulated b2)) a2 (r2 ++ t2)
    simpa [List.append_assoc] using heq
  -- the second piece
  obtain ⟨y, ys, hy, hyinf⟩ := Split_head_infix ht (e2 ++ accumulated b2)
  have hcount : y.count nl = b2.length := by
    by_cases hb2e : b2 = []
    · subst hb2e
      rw [accumulated_nil, List.append_nil] at hyinf
      rw [count_nl_eq_zero hyinf he2nl]
      rfl
    · have hnot : ¬ (label ++ r2) <:+: e2 ++ accumulated b2 := by
        intro hinf
        have hlab : label <:+: e2 ++ accumulated b2 :=
          (List.prefix_append label r2).isInfix.trans hinf
        rcases infix_append_accumulated hnl hl b2 e2 hlab with h1 | ⟨x, hx, h1⟩
        · rcases he2 with h2 | h2
          · rw [h2] at h1
            exact hl (List.eq_nil_of_infix_nil h1)
          · obtain ⟨x, hx, hxe⟩ := hclose hb2e
            rw [h2] at h1
            exact hb2 x hx (h1.trans hxe)
        · exact hb2 x hx h1
      rw [Split_eq ht, Cut_eq_none_iff.mpr hnot] at hy
      simp only [List.cons.injEq] at hy
      rw [← hy.1, List.count_append, accumulated_count b2 hb2free,
        List.count_eq_zero.mpr he2nl]
      simp
  have hsplit : Split (accumulated (b1 ++ [a ++ label ++ rest] ++ b2)) (label ++ r2) =
      (accumulated b1 ++ nl :: a) :: y :: ys := by
    rw [Split_eq ht, hcut]
    simp only [hy]
  refine ⟨TrimSpace (Replace (label ++ r2) label [] 1), ?_⟩
  apply parseStringForResults_one hfind
  rw [matchResult_of_split hrep hsplit, hcount]

theorem withLabels_self {cfg : Config} {ls : List Str} (h : cfg.Labels = ls) :
    withLabels cfg ls = cfg := by
  cases cfg
  simp only at h
  subst h
  rfl

/-- Lines that do not close the block are appended to the accumulator. -/
theorem scanLoop_collect (fp : Str) (cfg : Config) : ∀ (mid : List Str) (st : ScanState),
    st.collecting = true →
    (∀ l ∈ mid, Contains l cfg.MultiLineDelimStart = true ∨
      Contains l cfg.MultiLineDelimEnd = false) →
    scanLoop fp cfg st mid =
      some { lineNumber := st.lineNumber + mid.length, collecting := true
             collectString := st.collectString ++ accumulated mid, results := st.results } := by
  intro mid
  induction mid with
  | nil =>
    intro st hcol _
    cases st
    simp only at hcol
    simp [scanLoop, accumulated_nil, hcol]
  | cons line rest ih =>
    intro st hcol h
    have hline := h line (List.mem_cons_self _ _)
    have hstep : scanStep fp cfg st line = some (appendLine st line) := by
      rw [scanStep_collecting fp cfg st line hcol]
      rcases hline with h1 | h1
      · simp [h1]
      · simp [h1]
    simp only [scanLoop, hstep]
    rw [ih (appendLine st line) rfl (fun l hl => h l (List.mem_cons_of_mem _ hl))]
    simp only [appendLine, accumulated_cons, List.length_cons, Nat.cast_add, Nat.cast_one,
      Option.some.injEq, ScanState.mk.injEq, true_and, and_true]
    constructor
    · omega
    · simp

/-- The scanner on a block: an opening line read while idle, lines that are
only accumulated, and a closing line. -/
theorem scanLoop_block (fp : Str) (cfg : Config) (st : ScanState) (opening closing : Str)
    (mid : List Str) (hidle : st.collecting = false) (hacc : st.collectString = [])
    (hopen1 : Contains opening cfg.SingleLineDelim = false)
    (hopen2 : Contains opening cfg.MultiLineDelimStart = true)
    (hmid : ∀ l ∈ mid, Contains l cfg.MultiLineDelimStart = false ∧
      Contains l cfg.MultiLineDelimEnd = false)
    (hclose1 : Contains closing cfg.MultiLineDelimStart = false)
    (hclose2 : Contains closing cfg.MultiLineDelimEnd = true) :
    scanLoop fp cfg st (opening :: mid ++ [closing]) =
      (parseStringForResults (accumulated (opening :: mid ++ [closing])) fp
          (st.lineNumber + 1 + mid.length) cfg).map (fun rs =>
        { lineNumber := st.lineNumber + 1 + mid.length + 1, collecting := false
          collectString := [], results := st.results ++ rs }) := by
  have h1 : opening :: mid ++ [closing] = [opening] ++ mid ++ [closing] := by simp
  rw [h1, scanLoop_append, scanLoop_append]
  simp only [scanLoop, scanStep_idle_start fp cfg st opening hidle hopen1 hopen2,
    Option.some_bind]
  rw [scanLoop_collect fp cfg mid (appendLine st opening) rfl
    (fun l hl => Or.inr (hmid l hl).2)]
  simp only [Option.some_bind]
  rw [closing_step]
  · simp only [closeBlock, appendLine, hacc, List.nil_append]
    have h2 : [nl] ++ opening ++ accumulated mid ++ [nl] ++ closing =
        accumulated ([opening] ++ mid ++ [closing]) := by
      rw [accumulated_append, accumulated_append, accumulated_singleton,
        accumulated_singleton]
      simp
    rw [h2]
    cases parseStringForResults (accumulated ([opening] ++ mid ++ [closing])) fp
      (st.lineNumber + 1 + mid.length) cfg with
    | none => rfl
    | some rs => rfl
  · rfl
  · exact hclose2
  · exact hclose1

theorem getLast_mem_of_block {b1 b2 mid : List Str} {lk opening closing : Str}
    (hblock : b1 ++ [lk] ++ b2 = opening :: mid ++ [closing]) (hb2 : b2 ≠ []) :
    closing ∈ b2 := by
  have h1 : (b1 ++ [lk] ++ b2).getLast? = b2.getLast? :=
    List.getLast?_append_of_ne_nil _ hb2
  have h2 : (opening :: mid ++ [closing]).getLast? = some closing := by
    have h3 : opening :: mid ++ [closing] = (opening :: mid) ++ [closing] := rfl
    rw [h3]
    exact List.getLast?_concat _
  rw [hblock, h2] at h1
  exact List.mem_of_getLast?_eq_some h1.symm

/-- C2 as stated fails when the end delimiter overlaps the label: with the
end delimiter `DO` and the label `TODO`, the block of the lines `/* TO` and
`TODO` has the label on line 2 only, where the text from the label onward
contains the end delimiter as a suffix only; but the result gets line 1. -/
theorem multi_line_block_counterexample :
    ¬ (∀ (filePath : Str) (config : Config) (label : Str) (pre b1 b2 mid : List Str)
        (a rest opening closing : Str) (st : ScanState),
        config.Labels = [label] → IsLiteral label →
        (∀ l ∈ pre ++ (b1 ++ [a ++ label ++ rest] ++ b2), nl ∉ l) →
        scanLoop filePath config initialState pre = some st → st.collecting = false →
        b1 ++ [a ++ label ++ rest] ++ b2 = opening :: mid ++ [closing] →
        Contains opening config.SingleLineDelim = false →
        Contains opening config.MultiLineDelimStart = true →
        (∀ l ∈ mid, Contains l config.MultiLineDelimStart = false ∧
          Contains l config.MultiLineDelimEnd = false) →
        Contains closing config.MultiLineDelimStart = false →
        Contains closing config.MultiLineDelimEnd = true →
        (∀ l ∈ b1, ¬ label <:+: l) → (∀ l ∈ b2, ¬ label <:+: l) →
        ¬ label <:+: a ++ label.dropLast →
        (∀ x y, x ++ config.MultiLineDelimEnd ++ y = label ++ rest → y = []) →
        ∃ r : Result, r.label = label ∧ r.filename = filePath ∧
          r.lineNumber = (pre.length : Int) + (b1.length : Int) + 1 ∧
          scanLoop filePath config initialState (pre ++ (b1 ++ [a ++ label ++ rest] ++ b2))
            = some { lineNumber := (pre.length : Int) + ((b1.length + 1 + b2.length : Nat) : Int) + 1
                     collecting := false, collectString := []
                     results := st.results ++ [r] }) := by
  intro h
  have h1 := h ['f']
    { Labels := [['T', 'O', 'D', 'O']], FileExtensions := [], SingleLineDelim := ['/', '/']
      MultiLineDelimStart := ['/', '*'], MultiLineDelimEnd := ['D', 'O'] }
    ['T', 'O', 'D', 'O'] [] [['/', '*', ' ', 'T', 'O']] [] [] [] []
    ['/', '*', ' ', 'T', 'O'] ['T', 'O', 'D', 'O'] initialState
    rfl (by decide) (by decide) rfl rfl rfl (by decide) (by decide) (by decide) (by decide)
    (by decide) (by
      intro l hl
      rw [List.mem_singleton.mp hl]
      exact Contains_eq_false_iff.mp (by decide)) (by
      intro l hl
      cases hl) (Contains_eq_false_iff.mp (by decide)) (by
      intro x y hxy
      rcases x with _ | ⟨c1, _ | ⟨c2, _ | ⟨c3, x⟩⟩⟩
      · simp at hxy
      · simp at hxy
      · simp only [List.cons_append, List.nil_append, List.append_nil, List.cons.injEq] at hxy
        exact hxy.2.2.2.2.symm ▸ rfl
      · have h2 := congrArg List.length hxy
        simp only [List.cons_append, List.length_cons, List.length_append, List.length_nil,
          List.nil_append, List.append_nil] at h2
        omega)
  obtain ⟨r, _, _, hline, hscan⟩ := h1
  have hactual : scanLoop ['f']
      { Labels := [['T', 'O', 'D', 'O']], FileExtensions := [], SingleLineDelim := ['/', '/']
        MultiLineDelimStart := ['/', '*'], MultiLineDelimEnd := ['D', 'O'] }
      initialState ([] ++ ([['/', '*', ' ', 'T', 'O']] ++ [[] ++ ['T', 'O', 'D', 'O'] ++ []] ++ []))
      = some { lineNumber := 3, collecting := false, collectString := []
               results := [{ label := ['T', 'O', 'D', 'O'], body := ['T', 'O']
                             filename := ['f'], lineNumber := 1 }] } := by
    decide
  rw [hactual] at hscan
  simp only [Option.some.injEq, ScanState.mk.injEq] at hscan
  have hr := hscan.2.2.2
  simp only [initialState, List.nil_append, List.cons.injEq, and_true] at hr
  rw [← hr] at hline
  simp at hline

/-- C2, amended: when the scanner is idle after the lines `pre`, the next
lines are a multi-line block (an opening line with the start delimiter and
without the single-line delimiter, lines without start and end delimiter, and
a closing line with the end delimiter and without the start delimiter), the
only configured label is a non-empty literal that occurs on exactly one
line of the block, and on that line the text from the first instance of the
label onward contains the end delimiter at most as a suffix that lies after
the label, then the block gives exactly one result and its line number is
the number of the line of the label. -/
theorem multi_line_block_line_number (filePath : Str) (config : Config) (label : Str)
    (pre b1 b2 mid : List Str) (a rest opening closing : Str) (st : ScanState)
    (hlabels : config.Labels = [label]) (hlit : IsLiteral label)
    (hfree : ∀ l ∈ pre ++ (b1 ++ [a ++ label ++ rest] ++ b2), nl ∉ l)
    (hpre : scanLoop filePath config initialState pre = some st)
    (hidle : st.collecting = false)
    (hblock : b1 ++ [a ++ label ++ rest] ++ b2 = opening :: mid ++ [closing])
    (hopen1 : Contains opening config.SingleLineDelim = false)
    (hopen2 : Contains opening config.MultiLineDelimStart = true)
    (hmid : ∀ l ∈ mid, Contains l config.MultiLineDelimStart = false ∧
      Contains l config.MultiLineDelimEnd = false)
    (hclose1 : Contains closing config.MultiLineDelimStart = false)
    (hclose2 : Contains closing config.MultiLineDelimEnd = true)
    (hb1 : ∀ l ∈ b1, ¬ label <:+: l) (hb2 : ∀ l ∈ b2, ¬ label <:+: l)
    (hfirst : ¬ label <:+: a ++ label.dropLast)
    (hEnd : ∀ x y, x ++ config.MultiLineDelimEnd ++ y = label ++ rest →
      y = [] ∧ label.length ≤ x.length) :
    ∃ r : Result, r.label = label ∧ r.filename = filePath ∧
      r.lineNumber = (pre.length : Int) + (b1.length : Int) + 1 ∧
      scanLoop filePath config initialState (pre ++ (b1 ++ [a ++ label ++ rest] ++ b2))
        = some { lineNumber := (pre.length : Int) + ((b1.length + 1 + b2.length : Nat) : Int) + 1
                 collecting := false, collectString := []
                 results := st.results ++ [r] } := by
  have hfreePre : ∀ l ∈ pre, nl ∉ l := fun l hl => hfree l (List.mem_append_left _ hl)
  have hfreeBlock : ∀ l ∈ b1 ++ [a ++ label ++ rest] ++ b2, nl ∉ l :=
    fun l hl => hfree l (List.mem_append_right _ hl)
  obtain ⟨s, hinv⟩ := scanLoop_inv filePath config pre st hfreePre hpre
  obtain ⟨hln, _, _, hs, hacc, _⟩ := hinv
  have hacc0 : st.collectString = [] := by
    rw [hacc, hs hidle]
    simp [accumulated]
  have hlen : b1.length + 1 + b2.length = mid.length + 2 := by
    have := congrArg List.length hblock
    simp only [List.length_append, List.length_cons, List.length_nil] at this
    omega
  have hclose : b2 ≠ [] → ∃ x ∈ b2, config.MultiLineDelimEnd <:+: x := by
    intro hne
    exact ⟨closing, getLast_mem_of_block hblock hne, Contains_iff.mp hclose2⟩
  obtain ⟨body, hres⟩ := @block_one_label_result label a rest filePath
    (st.lineNumber + 1 + mid.length) config b1 b2 hlit.1 hfreeBlock hb1 hb2 hfirst hEnd hclose
  rw [withLabels_self hlabels] at hres
  refine ⟨{ label := label, body := body, filename := filePath
            lineNumber := st.lineNumber + 1 + mid.length - (b2.length : Nat) }, rfl, rfl, ?_, ?_⟩
  · simp only
    rw [hln]
    have h2 : (mid.length : Int) = (b1.length : Int) + (b2.length : Int) - 1 := by omega
    rw [h2]
    omega
  · rw [scanLoop_append, hpre, Option.some_bind, hblock,
      scanLoop_block filePath config st opening closing mid hidle hacc0 hopen1 hopen2 hmid
        hclose1 hclose2, ← hblock, hres]
    simp only [Option.map_some', Option.some.injEq, ScanState.mk.injEq, true_and, and_true]
    rw [hln]
    have h2 : (mid.length : Int) = (b1.length : Int) + (b2.length : Int) - 1 := by omega
    rw [h2]
    push_cast
    omega

theorem multi_line_block_line_number_witness :
    parseFileForResults "f".toList sampleConfig
        ["/* TODO first".toList, "   more text".toList, "*/".toList]
      = some [{ label := "TODO".toList, body := "first".toList, filename := "f".toList
                lineNumber := 1 }] ∧
    ∃ r : Result, r.label = "TODO".toList ∧ r.filename = "f".toList ∧
      r.lineNumber = (([] : List Str).length : Int) + (([] : List Str).length : Int) + 1 ∧
      scanLoop "f".toList sampleConfig initialState
          ([] ++ ([] ++ ["/* ".toList ++ "TODO".toList ++ " first".toList] ++
            ["   more text".toList, "*/".toList]))
        = some { lineNumber := (([] : List Str).length : Int) +
                   (((([] : List Str).length + 1 +
                     ["   more text".toList, "*/".toList].length : Nat)) : Int) + 1
                 collecting := false, collectString := []
                 results := initialState.results ++ [r] } :=
  ⟨by decide,
   multi_line_block_line_number "f".toList sampleConfig "TODO".toList [] []
     ["   more text".toList, "*/".toList] ["   more text".toList]
     "/* ".toList " first".toList "/* TODO first".toList "*/".toList initialState
     rfl (by decide) (by decide) rfl rfl (by decide) (by decide) (by decide) (by decide)
     (by decide) (by decide) (by intro l hl; cases hl)
     (by
       intro l hl
       apply Contains_eq_false_iff.mp
       revert l
       decide)
     (Contains_eq_false_iff.mp (by decide))
     (by
       intro x y hxy
       exfalso
       have hc : Contains ("TODO".toList ++ " first".toList) sampleConfig.MultiLineDelimEnd
           = false := by decide
       exact Contains_eq_false_iff.mp hc ⟨x, y, hxy⟩)⟩

/-! ## A text that occurs twice in a block -/

theorem matchLoop_append (pr fp : Str) (e : Int) (cfg : Config) (label : Str) :
    ∀ (ms1 ms2 : List Str),
    matchLoop pr fp e cfg label (ms1 ++ ms2) [] =
      (matchLoop pr fp e cfg label ms1 []).bind (fun a =>
        (matchLoop pr fp e cfg label ms2 []).map (fun b => a ++ b)) := by
  intro ms1
  induction ms1 with
  | nil =>
    intro ms2
    simp only [List.nil_append, matchLoop, Option.some_bind]
    cases matchLoop pr fp e cfg label ms2 [] with
    | none => rfl
    | some b => rfl
  | cons m ms1 ih =>
    intro ms2
    rw [List.cons_append, matchLoop_cons, matchLoop_cons, ih ms2]
    cases matchResult pr fp e cfg label m with
    | none => rfl
    | some r =>
      cases matchLoop pr fp e cfg label ms1 [] with
      | none => rfl
      | some a =>
        cases matchLoop pr fp e cfg label ms2 [] with
        | none => rfl
        | some b => rfl

/-- Splitting a block on a text that occurs on the lines `uj ++ t ++ vj`
and `uk ++ t ++ vk` and on no line before or between them: the second piece
runs from the first instance to the second one. -/
theorem Split_two_occurrences {t uj vj uk vk : Str} {P Q R : List Str}
    (hfree : ∀ x ∈ P ++ [uj ++ t ++ vj] ++ Q ++ [uk ++ t ++ vk] ++ R, nl ∉ x)
    (hP : ∀ x ∈ P, ¬ t <:+: x) (hQ : ∀ x ∈ Q, ¬ t <:+: x)
    (hj : ¬ t <:+: uj ++ t.dropLast) (hvj : ¬ t <:+: vj)
    (hk : ¬ t <:+: uk ++ t.dropLast) :
    ∃ y ys, Split (accumulated (P ++ [uj ++ t ++ vj] ++ Q ++ [uk ++ t ++ vk] ++ R)) t =
        (accumulated P ++ nl :: uj) :: y :: ys ∧ y.count nl = Q.length + 1 := by
  have ht : t ≠ [] := by
    intro h0
    apply hvj
    rw [h0]
    exact List.nil_infix
  have hlj : nl ∉ uj ++ t ++ vj := hfree _ (by simp)
  have hlk : nl ∉ uk ++ t ++ vk := hfree _ (by simp)
  have hnlt : nl ∉ t := fun h => hlj (List.mem_append_left _ (List.mem_append_right _ h))
  have hvjnl : nl ∉ vj := fun h => hlj (List.mem_append_right _ h)
  have huknl : nl ∉ uk := fun h => hlk (List.mem_append_left _ (List.mem_append_left _ h))
  have hQfree : ∀ x ∈ Q, nl ∉ x := fun x hx => hfree x (by simp [hx])
  have hblock : accumulated (P ++ [uj ++ t ++ vj] ++ Q ++ [uk ++ t ++ vk] ++ R) =
      (accumulated P ++ nl :: uj) ++ t ++
        ((vj ++ accumulated Q ++ nl :: uk) ++ t ++ (vk ++ accumulated R)) := by
    simp only [accumulated_append, accumulated_singleton]
    simp
  have hcut1 : Cut t (accumulated (P ++ [uj ++ t ++ vj] ++ Q ++ [uk ++ t ++ vk] ++ R)) =
      some (accumulated P ++ nl :: uj,
        (vj ++ accumulated Q ++ nl :: uk) ++ t ++ (vk ++ accumulated R)) := by
    rw [hblock]
    exact Cut_first ht _ _ (first_of_not_infix_dropLast (block_first_label ht hnlt hP hj) _)
  have hmin2 : ¬ t <:+: (vj ++ accumulated Q ++ nl :: uk) ++ t.dropLast := by
    intro h
    have heq : (vj ++ accumulated Q ++ nl :: uk) ++ t.dropLast =
        vj ++ accumulated (Q ++ [uk ++ t.dropLast]) := by
      rw [accumulated_append, accumulated_singleton]
      simp
    rw [heq] at h
    rcases infix_append_accumulated hnlt ht _ vj h with h1 | ⟨x, hx, h1⟩
    · exact hvj h1
    · rcases List.mem_append.mp hx with h2 | h2
      · exact hQ x h2 h1
      · rw [List.mem_singleton.mp h2] at h1
        exact hk h1
  have hcut2 : Cut t ((vj ++ accumulated Q ++ nl :: uk) ++ t ++ (vk ++ accumulated R)) =
      some (vj ++ accumulated Q ++ nl :: uk, vk ++ accumulated R) :=
    Cut_first ht _ _ (first_of_not_infix_dropLast hmin2 _)
  refine ⟨vj ++ accumulated Q ++ nl :: uk, Split (vk ++ accumulated R) t, ?_, ?_⟩
  · rw [Split_eq ht, hcut1]
    simp only
    rw [Split_eq ht, hcut2]
  · rw [List.count_append, List.count_append, List.count_cons_self,
      List.count_eq_zero.mpr hvjnl, List.count_eq_zero.mpr huknl, accumulated_count Q hQfree]
    omega

/-- C20: for a label that is a non-empty literal: when the text of an
annotation (the label and the rest of its line, without the end delimiter)
occurs on the two lines j < k of a block, once on line j, and on no line
before or between them, each of the two matches gets the line number
`endingLineNumber - (k - j)`, where `k - j` is the number of lines between
them plus one; `parseStringForResults` with that one label returns the
results of the lines before, one such result, the results of the lines
between, the same result again, and the results of the lines after. -/
theorem two_occurrences_line_number (config : Config) (label filePath : Str)
    (endingLineNumber : Int) (t aj rj ak rk uj vj uk vk : Str) (P Q R : List Str)
    (hlit : IsLiteral label)
    (hfree : ∀ x ∈ P ++ [uj ++ t ++ vj] ++ Q ++ [uk ++ t ++ vk] ++ R, nl ∉ x)
    (hlj : aj ++ label ++ rj = uj ++ t ++ vj) (hlk : ak ++ label ++ rk = uk ++ t ++ vk)
    (haj : ¬ label <:+: aj ++ label.dropLast) (hak : ¬ label <:+: ak ++ label.dropLast)
    (htj : Replace (label ++ rj) config.MultiLineDelimEnd [] (-1) = t)
    (htk : Replace (label ++ rk) config.MultiLineDelimEnd [] (-1) = t)
    (hP : ∀ x ∈ P, ¬ t <:+: x) (hQ : ∀ x ∈ Q, ¬ t <:+: x)
    (hj : ¬ t <:+: uj ++ t.dropLast) (hvj : ¬ t <:+: vj)
    (hk : ¬ t <:+: uk ++ t.dropLast) :
    matchResult (accumulated (P ++ [uj ++ t ++ vj] ++ Q ++ [uk ++ t ++ vk] ++ R)) filePath
        endingLineNumber config label (label ++ rj)
      = some { label := label, body := TrimSpace (Replace t label [] 1), filename := filePath
               lineNumber := endingLineNumber - ((Q.length + 1 : Nat) : Int) } ∧
    matchResult (accumulated (P ++ [uj ++ t ++ vj] ++ Q ++ [uk ++ t ++ vk] ++ R)) filePath
        endingLineNumber config label (label ++ rk)
      = some { label := label, body := TrimSpace (Replace t label [] 1), filename := filePath
               lineNumber := endingLineNumber - ((Q.length + 1 : Nat) : Int) } ∧
    parseStringForResults (accumulated (P ++ [uj ++ t ++ vj] ++ Q ++ [uk ++ t ++ vk] ++ R))
        filePath endingLineNumber (withLabels config [label])
      = (matchLoop (accumulated (P ++ [uj ++ t ++ vj] ++ Q ++ [uk ++ t ++ vk] ++ R)) filePath
          endingLineNumber config label (P.filterMap (lineMatch label)) []).bind (fun rp =>
        (matchLoop (accumulated (P ++ [uj ++ t ++ vj] ++ Q ++ [uk ++ t ++ vk] ++ R)) filePath
          endingLineNumber config label (Q.filterMap (lineMatch label)) []).bind (fun rq =>
        (matchLoop (accumulated (P ++ [uj ++ t ++ vj] ++ Q ++ [uk ++ t ++ vk] ++ R)) filePath
          endingLineNumber config label (R.filterMap (lineMatch label)) []).map (fun rr =>
          rp ++ [{ label := label, body := TrimSpace (Replace t label [] 1)
                   filename := filePath
                   lineNumber := endingLineNumber - ((Q.length + 1 : Nat) : Int) }] ++
          rq ++ [{ label := label, body := TrimSpace (Replace t label [] 1)
                   filename := filePath
                   lineNumber := endingLineNumber - ((Q.length + 1 : Nat) : Int) }] ++ rr))) := by
  have hl : label ≠ [] := hlit.1
  obtain ⟨y, ys, hsplit, hcount⟩ := @Split_two_occurrences t uj vj uk vk P Q R hfree hP hQ hj hvj hk
  have hmj := @matchResult_of_split _ filePath endingLineNumber config label (label ++ rj) t _ y ys
    htj hsplit
  have hmk := @matchResult_of_split _ filePath endingLineNumber config label (label ++ rk) t _ y ys
    htk hsplit
  rw [hcount] at hmj hmk
  refine ⟨hmj, hmk, ?_⟩
  have hnl : nl ∉ label := by
    intro h
    have h1 : nl ∈ aj ++ label ++ rj :=
      List.mem_append_left _ (List.mem_append_right _ h)
    rw [hlj] at h1
    exact hfree _ (by simp) h1
  have hfind : FindAllString label
      (accumulated (P ++ [uj ++ t ++ vj] ++ Q ++ [uk ++ t ++ vk] ++ R)) =
      P.filterMap (lineMatch label) ++ ((label ++ rj) :: (Q.filterMap (lineMatch label) ++
        ((label ++ rk) :: R.filterMap (lineMatch label)))) := by
    rw [FindAllString_accumulated hl hnl _ hfree]
    simp only [List.filterMap_append, List.filterMap_cons, List.filterMap_nil]
    rw [← hlj, ← hlk, lineMatch_first hl haj, lineMatch_first hl hak]
    simp
  rw [parseStringForResults_single_label, hfind]
  generalize accumulated (P ++ [uj ++ t ++ vj] ++ Q ++ [uk ++ t ++ vk] ++ R) = block at hmj hmk
  rw [matchLoop_append, matchLoop_cons, hmj, Option.some_bind, matchLoop_append, matchLoop_cons,
    hmk, Option.some_bind]
  cases matchLoop block filePath endingLineNumber config label
      (List.filterMap (lineMatch label) P) [] with
  | none => rfl
  | some rp =>
    cases matchLoop block filePath endingLineNumber config label
        (List.filterMap (lineMatch label) Q) [] with
    | none => rfl
    | some rq =>
      cases matchLoop block filePath endingLineNumber config label
          (List.filterMap (lineMatch label) R) [] with
      | none => rfl
      | some rr => simp

theorem two_occurrences_line_number_witness :
    parseStringForResults
        (accumulated ["/* TODO a".toList, "x".toList, "TODO a".toList, "*/".toList])
        "f".toList 4 sampleConfig
      = some [{ label := "TODO".toList, body := "a".toList, filename := "f".toList
                lineNumber := 2 },
              { label := "TODO".toList, body := "a".toList, filename := "f".toList
                lineNumber := 2 }] ∧
    matchResult
        (accumulated ([] ++ ["/* ".toList ++ "TODO a".toList ++ []] ++ ["x".toList] ++
          [[] ++ "TODO a".toList ++ []] ++ ["*/".toList]))
        "f".toList 4 sampleConfig "TODO".toList ("TODO".toList ++ " a".toList)
      = some { label := "TODO".toList
               body := TrimSpace (Replace "TODO a".toList "TODO".toList [] 1)
               filename := "f".toList
               lineNumber := 4 - (((["x".toList] : List Str).length + 1 : Nat) : Int) } :=
  ⟨by decide,
   (two_occurrences_line_number sampleConfig "TODO".toList "f".toList 4 "TODO a".toList
     "/* ".toList " a".toList [] " a".toList "/* ".toList [] [] [] [] ["x".toList]
     ["*/".toList] (by decide) (by decide) (by decide) (by decide)
     (Contains_eq_false_iff.mp (by decide)) (Contains_eq_false_iff.mp (by decide))
     (by decide) (by decide) (by intro x hx; cases hx)
     (by
       intro x hx
       rw [List.mem_singleton.mp hx]
       exact Contains_eq_false_iff.mp (by decide))
     (Contains_eq_false_iff.mp (by decide)) (Contains_eq_false_iff.mp (by decide))
     (Contains_eq_false_iff.mp (by decide))).1⟩

/-! ## The report -/

theorem layoutLoop_cons (cf cl : Str) (r : Result) (rest : List Result) :
    layoutLoop cf cl (r :: rest) =
      (if cf = r.filename then [] else [Line.file r.filename]) ++
      (if (if cf = r.filename then cl else []) = r.label then [] else [Line.label r.label]) ++
      Line.entry r.lineNumber r.body :: layoutLoop r.filename r.label rest := by
  by_cases h1 : cf = r.filename
  · by_cases h2 : cl = r.label
    · simp [layoutLoop, h1, h2]
    · simp [layoutLoop, h1, h2]
  · by_cases h2 : ([] : Str) = r.label
    · simp [layoutLoop, h1, ← h2]
    · simp [layoutLoop, h1, h2]

theorem fileHeaders_layoutLoop_cons (cf cl : Str) (r : Result) (rest : List Result) :
    fileHeaders (layoutLoop cf cl (r :: rest)) =
      (if cf = r.filename then [] else [r.filename]) ++
        fileHeaders (layoutLoop r.filename r.label rest) := by
  rw [layoutLoop_cons]
  by_cases h1 : cf = r.filename
  · by_cases h2 : cl = r.label
    · simp [h1, h2, fileHeaders]
    · simp [h1, h2, fileHeaders]
  · by_cases h2 : ([] : Str) = r.label
    · simp [h1, h2, fileHeaders]
    · simp [h1, h2, fileHeaders]

theorem Tracks_some {cur : Str} {o : Option Str} (h : Tracks cur o) (hne : cur ≠ []) :
    o = some cur := by
  rcases h with h | ⟨_, h⟩
  · exact h
  · exact absurd h hne

theorem labelHeaders_layoutLoop_cons (cf cl : Str) (fo : Option Str) (r : Result)
    (rest : List Result) (hf : r.filename ≠ []) (hl : r.label ≠ []) (htr : Tracks cf fo) :
    labelHeaders fo (layoutLoop cf cl (r :: rest)) =
      (if cf = r.filename ∧ cl = r.label then [] else [(some r.filename, r.label)]) ++
        labelHeaders (some r.filename) (layoutLoop r.filename r.label rest) := by
  rw [layoutLoop_cons]
  by_cases h1 : cf = r.filename
  · have hfo : fo = some r.filename := by
      rw [← h1]
      exact Tracks_some htr (by rw [h1]; exact hf)
    by_cases h2 : cl = r.label
    · simp [h1, h2, labelHeaders, hfo]
    · simp [h1, h2, labelHeaders, hfo]
  · have h2 : ¬ ([] : Str) = r.label := fun h => hl h.symm
    simp [h1, h2, labelHeaders]

theorem entriesUnder_layoutLoop : ∀ (rs : List Result) (cf cl : Str) (fo lo : Option Str),
    (∀ r ∈ rs, r.filename ≠ [] ∧ r.label ≠ []) → Tracks cf fo → Tracks cl lo →
    entriesUnder fo lo (layoutLoop cf cl rs) =
      rs.map (fun r => (some r.filename, some r.label, r.lineNumber, r.body)) := by
  intro rs
  induction rs with
  | nil =>
    intro cf cl fo lo _ _ _
    rfl
  | cons r rest ih =>
    intro cf cl fo lo hne hf hl
    obtain ⟨hrf, hrl⟩ := hne r (List.mem_cons_self _ _)
    have hne2 : ∀ x ∈ rest, x.filename ≠ [] ∧ x.label ≠ [] :=
      fun x hx => hne x (List.mem_cons_of_mem _ hx)
    have hrest := ih r.filename r.label (some r.filename) (some r.label) hne2
      (Or.inl rfl) (Or.inl rfl)
    rw [layoutLoop_cons]
    by_cases h1 : cf = r.filename
    · have hfo : fo = some r.filename := by
        rw [← h1]
        exact Tracks_some hf (by rw [h1]; exact hrf)
      by_cases h2 : cl = r.label
      · have hlo : lo = some r.label := by
          rw [← h2]
          exact Tracks_some hl (by rw [h2]; exact hrl)
        simp [h1, h2, entriesUnder, hfo, hlo, hrest]
      · simp [h1, h2, entriesUnder, hfo, hrest]
    · have h2 : ¬ ([] : Str) = r.label := fun h => hrl h.symm
      simp [h1, h2, entriesUnder, hrest]

/-- Between two keys with the same file name, in a sorted order, stands a
key with that file name. -/
theorem filename_between {a b c : Str × Str × Int} (h1 : keyNotAfter a b)
    (h2 : keyNotAfter b c) (h : c.1 = a.1) : b.1 = a.1 := by
  obtain ⟨fa, la, na⟩ := a
  obtain ⟨fb, lb, nb⟩ := b
  obtain ⟨fc, lc, nc⟩ := c
  simp only at h
  subst h
  simp only [keyNotAfter, keyLt, fullKey] at h1 h2
  have hlen : len fb = len fc := by
    have h3 : ¬ len fb < len fc := fun h => h1 (Or.inl h)
    have h4 : ¬ len fc < len fb := fun h => h2 (Or.inl h)
    omega
  rcases Lex_char_trichotomy fb fc with h | h | h
  · exact absurd (Or.inr ⟨hlen, Or.inl h⟩) h1
  · exact h
  · exact absurd (Or.inr ⟨hlen.symm, Or.inl h⟩) h2

/-- Between two keys with the same file name and label, in a sorted order,
stands a key with that label. -/
theorem label_between {a b c : Str × Str × Int} (h1 : keyNotAfter a b)
    (h2 : keyNotAfter b c) (h : c.1 = a.1) (hl : c.2.1 = a.2.1) : b.2.1 = a.2.1 := by
  have hb := filename_between h1 h2 h
  obtain ⟨fa, la, na⟩ := a
  obtain ⟨fb, lb, nb⟩ := b
  obtain ⟨fc, lc, nc⟩ := c
  simp only at h hl hb
  subst h
  subst hl
  subst hb
  simp only [keyNotAfter, keyLt, fullKey] at h1 h2
  rcases Lex_char_trichotomy lb lc with h | h | h
  · exact absurd (Or.inr ⟨trivial, Or.inr ⟨trivial, Or.inl h⟩⟩) h1
  · exact h
  · exact absurd (Or.inr ⟨trivial, Or.inr ⟨trivial, Or.inl h⟩⟩) h2

/-- In a sorted list the results of one file, and in it those of one label,
stand together: when a later result has the file name of the first one, so
has the second one; and its label, when the later result has it. -/
theorem sorted_next {r r' : Result} {rest : List Result} (hs : IsSorted (r :: rest))
    (hr' : r' ∈ rest) (hf : r'.filename = r.filename) :
    ∃ r2 tl, rest = r2 :: tl ∧ r2.filename = r.filename ∧
      (r'.label = r.label → r2.label = r.label) := by
  cases rest with
  | nil => cases hr'
  | cons r2 tl =>
    have hp := IsSorted_keys hs
    simp only [List.map_cons, List.pairwise_cons] at hp
    have h12 := hp.1 (reportKey r2) (List.mem_cons_self _ _)
    rcases List.mem_cons.mp hr' with h | h
    · subst h
      exact ⟨r', tl, rfl, hf, id⟩
    · have h23 := hp.2.1 (reportKey r') (List.mem_map_of_mem _ h)
      exact ⟨r2, tl, rfl, filename_between h12 h23 hf,
        fun hl => label_between h12 h23 hf hl⟩

theorem fileHeaders_count : ∀ (rs : List Result) (cf cl : Str), IsSorted rs → ∀ f : Str,
    (fileHeaders (layoutLoop cf cl rs)).count f =
      if f ∈ rs.map (fun r => r.filename) ∧
          ¬ (cf = f ∧ rs.head?.map (fun r => r.filename) = some f) then 1 else 0 := by
  intro rs
  induction rs with
  | nil =>
    intro cf cl _ f
    simp [layoutLoop, fileHeaders]
  | cons r rest ih =>
    intro cf cl hs f
    rw [fileHeaders_layoutLoop_cons, List.count_append, ih r.filename r.label hs.tail f]
    by_cases hg : r.filename = f
    · subst hg
      have hnext : r.filename ∈ rest.map (fun x => x.filename) →
          rest.head?.map (fun x => x.filename) = some r.filename := by
        intro hm
        obtain ⟨r', hr', hf⟩ := List.mem_map.mp hm
        obtain ⟨r2, tl, h1, h2, _⟩ := sorted_next hs hr' hf
        subst h1
        simp [h2]
      by_cases hcf : cf = r.filename
      · by_cases hm : r.filename ∈ rest.map (fun x => x.filename)
        · simp [hcf, hm, hnext hm]
        · simp [hcf, hm]
      · by_cases hm : r.filename ∈ rest.map (fun x => x.filename)
        · simp [hcf, hm, hnext hm]
        · simp [hcf, hm]
    · have hg2 : ¬ f = r.filename := fun h => hg h.symm
      by_cases hcf : cf = r.filename
      · by_cases hm : f ∈ rest.map (fun x => x.filename)
        · simp [hcf, hm, hg, hg2]
        · simp [hcf, hm, hg, hg2]
      · by_cases hm : f ∈ rest.map (fun x => x.filename)
        · simp [hcf, hm, hg, hg2]
        · simp [hcf, hm, hg, hg2]

theorem labelHeaders_count : ∀ (rs : List Result) (cf cl : Str) (fo : Option Str),
    IsSorted rs → (∀ r ∈ rs, r.filename ≠ [] ∧ r.label ≠ []) → Tracks cf fo →
    ∀ k : Option Str × Str,
    (labelHeaders fo (layoutLoop cf cl rs)).count k =
      if k ∈ rs.map (fun r => (some r.filename, r.label)) ∧
          ¬ (k = (some cf, cl) ∧
            rs.head?.map (fun r => (some r.filename, r.label)) = some k) then 1 else 0 := by
  intro rs
  induction rs with
  | nil =>
    intro cf cl fo _ _ _ k
    simp [layoutLoop, labelHeaders]
  | cons r rest ih =>
    intro cf cl fo hs hne htr k
    obtain ⟨hrf, hrl⟩ := hne r (List.mem_cons_self _ _)
    have hne2 : ∀ x ∈ rest, x.filename ≠ [] ∧ x.label ≠ [] :=
      fun x hx => hne x (List.mem_cons_of_mem _ hx)
    rw [labelHeaders_layoutLoop_cons cf cl fo r rest hrf hrl htr, List.count_append,
      ih r.filename r.label (some r.filename) hs.tail hne2 (Or.inl rfl) k]
    by_cases hk : (some r.filename, r.label) = k
    · subst hk
      have hnext : (some r.filename, r.label) ∈ rest.map (fun x => (some x.filename, x.label)) →
          rest.head?.map (fun x => (some x.filename, x.label)) =
            some (some r.filename, r.label) := by
        intro hm
        obtain ⟨r', hr', hf⟩ := List.mem_map.mp hm
        simp only [Prod.mk.injEq, Option.some.injEq] at hf
        obtain ⟨r2, tl, h1, h2, h3⟩ := sorted_next hs hr' hf.1
        subst h1
        simp [h2, h3 hf.2]
      have hrest : (if (some r.filename, r.label) ∈
            rest.map (fun x => (some x.filename, x.label)) ∧
          ¬ ((some r.filename, r.label) = (some r.filename, r.label) ∧
            rest.head?.map (fun x => (some x.filename, x.label)) =
              some (some r.filename, r.label)) then 1 else 0) = 0 :=
        if_neg (fun h => h.2 ⟨rfl, hnext h.1⟩)
      have hfirst : List.count (some r.filename, r.label)
          (if cf = r.filename ∧ cl = r.label then []
            else [(some r.filename, r.label)]) =
          if cf = r.filename ∧ cl = r.label then 0 else 1 := by
        by_cases hc : cf = r.filename ∧ cl = r.label
        · rw [if_pos hc, if_pos hc]
          rfl
        · rw [if_neg hc, if_neg hc]
          simp
      rw [hfirst, hrest]
      by_cases hc : cf = r.filename ∧ cl = r.label
      · rw [if_pos hc, if_neg]
        intro h
        apply h.2
        simp [hc.1, hc.2]
      · rw [if_neg hc, if_pos]
        refine ⟨by simp, ?_⟩
        intro h
        apply hc
        have h2 := h.1
        simp only [Prod.mk.injEq, Option.some.injEq] at h2
        exact ⟨h2.1.symm, h2.2.symm⟩
    · have hk2 : ¬ k = (some r.filename, r.label) := fun h => hk h.symm
      have hcount : List.count k
          (if cf = r.filename ∧ cl = r.label then []
            else [(some r.filename, r.label)]) = 0 := by
        by_cases hc : cf = r.filename ∧ cl = r.label
        · rw [if_pos hc]
          rfl
        · rw [if_neg hc, List.count_singleton]
          simp [hk]
      rw [hcount]
      by_cases hm : k ∈ rest.map (fun x => (some x.filename, x.label))
      · rw [if_pos ⟨hm, fun h => hk2 h.1⟩, if_pos]
        refine ⟨?_, ?_⟩
        · rw [List.map_cons]
          exact List.mem_cons_of_mem _ hm
        · intro h
          apply hk
          have h2 := h.2
          simp only [List.head?_cons, Option.map_some', Option.some.injEq] at h2
          exact h2
      · rw [if_neg (fun h => hm h.1), if_neg]
        intro h
        rw [List.map_cons] at h
        rcases List.mem_cons.mp h.1 with h1 | h1
        · exact hk2 h1
        · exact hm h1

theorem printLoop_eq_layout : ∀ (rs : List Result) (cf cl : Str),
    printLoop cf cl rs = (layoutLoop cf cl rs).map Line.text := by
  intro rs
  induction rs with
  | nil =>
    intro cf cl
    rfl
  | cons r rest ih =>
    intro cf cl
    by_cases h1 : cf = r.filename
    · by_cases h2 : cl = r.label
      · simp [printLoop, layoutLoop, h1, h2, ih, Line.text, decimal]
      · simp [printLoop, layoutLoop, h1, h2, ih, Line.text, decimal]
    · by_cases h2 : ([] : Str) = r.label
      · simp [printLoop, layoutLoop, h1, ← h2, ih, Line.text, decimal]
      · simp [printLoop, layoutLoop, h1, h2, ih, Line.text, decimal]

theorem labelHeaders_mem : ∀ (report : List Line) (current : Option Str)
    (k : Option Str × Str), k ∈ labelHeaders current report → Line.label k.2 ∈ report := by
  intro report
  induction report with
  | nil =>
    intro current k h
    cases h
  | cons l report ih =>
    intro current k h
    cases l with
    | file f =>
      simp only [labelHeaders] at h
      exact List.mem_cons_of_mem _ (ih _ k h)
    | label m =>
      simp only [labelHeaders] at h
      rcases List.mem_cons.mp h with h1 | h1
      · rw [h1]
        exact List.mem_cons_self _ _
      · exact List.mem_cons_of_mem _ (ih _ k h1)
    | entry n b =>
      simp only [labelHeaders] at h
      exact List.mem_cons_of_mem _ (ih _ k h)

/-- C18 as stated fails for a result with the empty label: the loop starts
with the empty text as current label, so for the single result of `a.go`
with the empty label the printed lines are `a.go` and the result line; no
reading of them has a header for the label. -/
theorem prettyPrint_empty_label_counterexample :
    ¬ (∀ (results sorted : List Result), SortedBy results sorted →
        ∃ report : List Line, prettyPrint sorted = report.map Line.text ∧
          (∀ f : Str, (fileHeaders report).count f =
            if f ∈ results.map (fun r => r.filename) then 1 else 0) ∧
          (∀ k : Option Str × Str, (labelHeaders none report).count k =
            if k ∈ results.map (fun r => (some r.filename, r.label)) then 1 else 0) ∧
          entriesUnder none none report =
            sorted.map (fun r => (some r.filename, some r.label, r.lineNumber, r.body))) := by
  intro h
  obtain ⟨report, htext, _, hlabels, _⟩ :=
    h [{ label := [], body := ['x'], filename := ['a', '.', 'g', 'o'], lineNumber := 1 }]
      [{ label := [], body := ['x'], filename := ['a', '.', 'g', 'o'], lineNumber := 1 }]
      ⟨List.Perm.refl _, by unfold IsSorted; exact List.chain'_singleton _⟩
  have h1 := hlabels (some ['a', '.', 'g', 'o'], [])
  rw [if_pos (by decide)] at h1
  have h2 : (some ['a', '.', 'g', 'o'], []) ∈ labelHeaders none report :=
    List.count_pos_iff.mp (by rw [h1]; exact Nat.one_pos)
  have h3 := List.mem_map_of_mem Line.text (labelHeaders_mem report none _ h2)
  rw [← htext] at h3
  revert h3
  decide

/-- C18, amended: for every result list in which no file name and no label
is empty, and every sorted order of it, the printed lines are the texts of
a report (a file header is the file name, a label header the label after a
tab, a result line `<lineNumber>: <body>` after two tabs) that has exactly
one header line for each file name of the results and none for another
text; exactly one label header for each label of a file, beneath the header
of that file, and no other label header; and whose result lines are the
results in sorted order, each beneath the header of its file and, after it,
the header of its label, with no header in between. -/
theorem prettyPrint_headers_and_entries (results sorted : List Result)
    (hsort : SortedBy results sorted)
    (hne : ∀ r ∈ results, r.filename ≠ [] ∧ r.label ≠ []) :
    ∃ report : List Line, prettyPrint sorted = report.map Line.text ∧
      (∀ f : Str, (fileHeaders report).count f =
        if f ∈ results.map (fun r => r.filename) then 1 else 0) ∧
      (∀ k : Option Str × Str, (labelHeaders none report).count k =
        if k ∈ results.map (fun r => (some r.filename, r.label)) then 1 else 0) ∧
      entriesUnder none none report =
        sorted.map (fun r => (some r.filename, some r.label, r.lineNumber, r.body)) := by
  obtain ⟨hperm, hsorted⟩ := hsort
  have hne2 : ∀ r ∈ sorted, r.filename ≠ [] ∧ r.label ≠ [] :=
    fun r hr => hne r (hperm.subset hr)
  refine ⟨layoutLoop [] [] sorted, printLoop_eq_layout sorted [] [], ?_, ?_, ?_⟩
  · intro f
    rw [fileHeaders_count sorted [] [] hsorted f]
    have hmem : f ∈ sorted.map (fun r => r.filename) ↔ f ∈ results.map (fun r => r.filename) :=
      (hperm.map _).mem_iff
    by_cases hf : f ∈ results.map (fun r => r.filename)
    · rw [if_pos hf, if_pos]
      refine ⟨hmem.mpr hf, ?_⟩
      intro h
      obtain ⟨r, hr, hrf⟩ := List.mem_map.mp hf
      apply (hne r hr).1
      rw [hrf, ← h.1]
    · rw [if_neg hf, if_neg]
      exact fun h => hf (hmem.mp h.1)
  · intro k
    rw [labelHeaders_count sorted [] [] none hsorted hne2 (Or.inr ⟨rfl, rfl⟩) k]
    have hmem : k ∈ sorted.map (fun r => (some r.filename, r.label)) ↔
        k ∈ results.map (fun r => (some r.filename, r.label)) := (hperm.map _).mem_iff
    by_cases hk : k ∈ results.map (fun r => (some r.filename, r.label))
    · rw [if_pos hk, if_pos]
      refine ⟨hmem.mpr hk, ?_⟩
      intro h
      obtain ⟨r, hr, hrk⟩ := List.mem_map.mp hk
      apply (hne r hr).2
      have h2 := h.1
      rw [← hrk] at h2
      simp only [Prod.mk.injEq] at h2
      exact h2.2
    · rw [if_neg hk, if_neg]
      exact fun h => hk (hmem.mp h.1)
  · exact entriesUnder_layoutLoop sorted [] [] none none hne2 (Or.inr ⟨rfl, rfl⟩)
      (Or.inr ⟨rfl, rfl⟩)

theorem prettyPrint_headers_and_entries_witness :
    prettyPrint sampleResults =
      ["a.go".toList, "\tFIXME".toList, "\t\t3: x".toList, "\tTODO".toList,
       "\t\t1: y".toList, "bb.go".toList, "\tTODO".toList, "\t\t2: z".toList] ∧
    ∃ report : List Line, prettyPrint sampleResults = report.map Line.text ∧
      (∀ f : Str, (fileHeaders report).count f =
        if f ∈ sampleResults.map (fun r => r.filename) then 1 else 0) ∧
      (∀ k : Option Str × Str, (labelHeaders none report).count k =
        if k ∈ sampleResults.map (fun r => (some r.filename, r.label)) then 1 else 0) ∧
      entriesUnder none none report =
        sampleResults.map (fun r => (some r.filename, some r.label, r.lineNumber, r.body)) :=
  ⟨by decide,
   prettyPrint_headers_and_entries sampleResults sampleResults
     ⟨List.Perm.refl _, by
       unfold IsSorted sampleResults
       simp only [List.chain'_cons, List.chain'_singleton, and_true]
       decide⟩
     (by decide)⟩

end WhatElseToDo
